import Mathlib

/-!
# gqlgen code generator: identifier normalizer, type binder, type reference resolver

A shallow embedding of

* `codegen/templates/renderer.go`: `LintName`, `commonInitialisms`, `mods`,
  `typeModifiersGQL`, `FindGoType`, `Renderer.Ref`;
* `codegen/type_definition.go` and `codegen/type_reference.go`:
  `TypeImplementation`, `TypeDefinition`, `TypeReference` and the generators
  `Unmarshal` / `Marshal`.

Conventions.

* A Go `string` holding valid UTF-8 is a Lean `String`; `[]rune` is `List Char`.
* A run-time panic (index out of range, nil dereference, explicit `panic`) is the
  value `none` of an `Option`-valued function.
* Loops whose trip count is not structurally evident carry a fuel argument; running
  out of fuel is `none` as well.
-/

namespace Gqlgen

/-! ## Identifier normalizer (`LintName`) -/

/-- The functions of Go's standard `unicode` package that `LintName` calls.  The
generator is parametric in them; `Unicode.ascii` is their restriction to ASCII. -/
structure Unicode where
  /-- Go `unicode.IsLower`. -/
  IsLower : Char → Bool
  /-- Go `unicode.IsDigit`. -/
  IsDigit : Char → Bool
  /-- Go `unicode.ToUpper`. -/
  ToUpper : Char → Char
  /-- Go `unicode.ToLower`. -/
  ToLower : Char → Char

/-- The `unicode` functions on the ASCII range, where `IsLower` is `a`..`z`, `IsDigit`
is `0`..`9` and the case maps shift the 26 letters.  On ASCII runes these agree with
Go; every concrete evaluation below uses ASCII input only. -/
def Unicode.ascii : Unicode where
  IsLower := Char.isLower
  IsDigit := Char.isDigit
  ToUpper := Char.toUpper
  ToLower := Char.toLower

/-- Go `strings.ToUpper` on a rune sequence: `unicode.ToUpper` rune by rune. -/
def Unicode.stringsToUpper (u : Unicode) (s : List Char) : List Char := s.map u.ToUpper

/-- Go `strings.ToLower` on a rune sequence: `unicode.ToLower` rune by rune. -/
def Unicode.stringsToLower (u : Unicode) (s : List Char) : List Char := s.map u.ToLower

/-- The table `commonInitialisms` (the keys mapped to `true`). -/
def commonInitialisms : List String :=
  ["ACL", "API", "ASCII", "CPU", "CSS", "DNS", "EOF", "GUID", "HTML", "HTTP", "HTTPS",
   "ID", "IP", "JSON", "LHS", "QPS", "RAM", "RHS", "RPC", "SLA", "SMTP", "SQL", "SSH",
   "TCP", "TLS", "TTL", "UDP", "UI", "UID", "UUID", "URI", "URL", "UTF8", "VM", "XML",
   "XMPP", "XSRF", "XSS"]

/-- The map lookup `commonInitialisms[u]`. -/
def isCommonInitialism (w : List Char) : Bool := commonInitialisms.contains (String.mk w)

/-- The slice expression `s[a:]`; it panics unless `a ≤ len(s)`. -/
def sliceFrom (s : List Char) (a : Nat) : Option (List Char) :=
  if a ≤ s.length then some (s.drop a) else none

/-- The slice expression `s[a:b]`; it panics unless `a ≤ b ≤ len(s)`.  (Go checks `b`
against the capacity; the length is the stricter bound.) -/
def slice (s : List Char) (a b : Nat) : Option (List Char) :=
  if a ≤ b ∧ b ≤ s.length then some ((s.take b).drop a) else none

/-- The contents of `dst` after the builtin `copy(dst, src)`: the first
`min(len(dst), len(src))` elements are overwritten. -/
def copy (dst src : List Char) : List Char := src.take dst.length ++ dst.drop src.length

/-- The contents of `runes` after `copy(runes[a:], src)` (the slice aliases `runes`). -/
def copyAt (runes : List Char) (a : Nat) (src : List Char) : Option (List Char) := do
  let dst ← sliceFrom runes a
  pure (runes.take a ++ copy dst src)

/-- The inner loop `for i+n+1 < len(runes) && runes[i+n+1] == '_' { n++ }`, returning
the final `n`. -/
def underscoreRun (runes : List Char) (i : Nat) : Nat → Nat → Option Nat
  | 0, _ => none
  | fuel + 1, n =>
    if i + n + 1 < runes.length then
      match runes[i + n + 1]? with
      | none => none
      | some c => if c = '_' then underscoreRun runes i fuel (n + 1) else some n
    else some n

/-- The first half of the loop body of `LintName`, up to `i++`: decides whether a word
ends at `i` and, at an underscore, shifts the remainder of `runes` forward.  Returns
the new `runes` and `eow`. -/
def scanStep (u : Unicode) (runes : List Char) (i : Nat) : Option (List Char × Bool) :=
  if i + 1 = runes.length then some (runes, true)
  else do
    let next ← runes[i + 1]?
    if next = '_' then do
      -- underscore; shift the remainder forward over any run of underscores
      let n ← underscoreRun runes i runes.length 1
      -- Leave at most one underscore if the underscore is between two digits
      let n ←
        if i + n + 1 < runes.length then do
          let a ← runes[i]?
          if u.IsDigit a then do
            let b ← runes[i + n + 1]?
            pure (if u.IsDigit b then n - 1 else n)
          else pure n
        else pure n
      let src ← sliceFrom runes (i + n + 1)
      let runes ← copyAt runes (i + 1) src
      let runes ← if n ≤ runes.length then slice runes 0 (runes.length - n) else none
      pure (runes, true)
    else do
      let a ← runes[i]?
      if u.IsLower a then do
        let b ← runes[i + 1]?
        pure (runes, !u.IsLower b)
      else pure (runes, false)

/-- The second half of the loop body of `LintName`: `[w,i)` is a word; rewrite it in
place when it is a common initialism or an all-lowercase non-first word. -/
def fixWord (u : Unicode) (runes : List Char) (w i : Nat) : Option (List Char) := do
  let word ← slice runes w i
  let up := u.stringsToUpper word
  if isCommonInitialism up then do
    -- Keep consistent case, which is lowercase only at the start.
    let first ← if w = 0 then (runes[w]?).map u.IsLower else some false
    let up := if w = 0 ∧ first = true then u.stringsToLower up else up
    copyAt runes w up
  else if 0 < w ∧ u.stringsToLower word = word then do
    -- already all lowercase, and not the first word, so uppercase the first character.
    let c ← runes[w]?
    pure (runes.set w (u.ToUpper c))
  else pure runes

/-- The main loop `for i+1 <= len(runes) { ... }` of `LintName` with state
`(runes, w, i)`. -/
def lintLoop (u : Unicode) : Nat → List Char → Nat → Nat → Option (List Char)
  | 0, runes, _, i => if i + 1 ≤ runes.length then none else some runes
  | fuel + 1, runes, w, i =>
    if i + 1 ≤ runes.length then do
      let (runes, eow) ← scanStep u runes i
      let i := i + 1
      if !eow then lintLoop u fuel runes w i
      else do
        let runes ← fixWord u runes w i
        lintLoop u fuel runes i i
    else some runes

/-- The general word-splitting algorithm of `LintName` (the code after the fast
path) on `runes := []rune(name)`. -/
def lintRunes (u : Unicode) (runes : List Char) : Option (List Char) :=
  lintLoop u runes.length runes 0 0

/-- `LintName` on the runes of `name`: the fast path for `"_"` and all-lowercase
names, then the word-splitting loop. -/
def LintNameRunes (u : Unicode) (name : List Char) : Option (List Char) :=
  if name = ['_'] then some name
  else if name.all u.IsLower then some name
  else lintRunes u name

/-- `LintName(name)`. -/
def LintName (u : Unicode) (name : String) : Option String :=
  (LintNameRunes u name.toList).map String.mk

/-- Helpers of the `templates` package that the files under `src/` call but do not
contain; they are parameters of the embedding. -/
structure Helpers where
  /-- The function `ToCamel`. -/
  ToCamel : String → String
  /-- The function `ucFirst`. -/
  ucFirst : String → String
  /-- The function `lcFirst`. -/
  lcFirst : String → String

/-- `TypeLit(s) = LintName(ToCamel(s))`. -/
def TypeLit (u : Unicode) (h : Helpers) (s : String) : Option String :=
  LintName u (h.ToCamel s)

/-- `PubTypeLit(s) = ucFirst(TypeLit(s))`. -/
def PubTypeLit (u : Unicode) (h : Helpers) (s : String) : Option String :=
  (TypeLit u h s).map h.ucFirst

/-- `PrivTypeLit(s) = lcFirst(TypeLit(s))`. -/
def PrivTypeLit (u : Unicode) (h : Helpers) (s : String) : Option String :=
  (TypeLit u h s).map h.lcFirst

/-- `Identifier(s) = LintName(ToCamel(s))`. -/
def Identifier (u : Unicode) (h : Helpers) (s : String) : Option String :=
  LintName u (h.ToCamel s)

/-- `PubIdentifier(s) = ucFirst(Identifier(s))`. -/
def PubIdentifier (u : Unicode) (h : Helpers) (s : String) : Option String :=
  (Identifier u h s).map h.ucFirst

/-- `PrivIdentifier(s) = lcFirst(Identifier(s))`. -/
def PrivIdentifier (u : Unicode) (h : Helpers) (s : String) : Option String :=
  (Identifier u h s).map h.lcFirst

/-! ## Schema types and modifier stacks -/

/-- The schema type node `ast.Type` (fields `NamedType`, `Elem`, `NonNull`): `named`
is a node with `Elem == nil`, `list` a node with `Elem != nil`. -/
inductive ASTType where
  | named (NamedType : String) (NonNull : Bool)
  | list (NamedType : String) (Elem : ASTType) (NonNull : Bool)
  deriving DecidableEq, Repr

/-- The method `(*ast.Type).Name`: the node's `NamedType` when non-empty, else the
name of `Elem`; on a node with neither it dereferences nil. -/
def ASTType.Name : ASTType → Option String
  | .named n _ => if n ≠ "" then some n else none
  | .list n elem _ => if n ≠ "" then some n else elem.Name

/-- The constant `modList`. -/
def modList : String := "[]"

/-- The constant `modPtr`. -/
def modPtr : String := "*"

/-- The type `mods`, a `[]string`. -/
abbrev mods := List String

/-- `mods.String`: `strings.Join(m, "")`. -/
def mods.String (m : mods) : String := String.join m

/-- `mods.PopPtr`. -/
def mods.PopPtr (m : mods) : mods :=
  if m.length = 0 ∨ m[m.length - 1]? ≠ some "*" then []
  else m.take (m.length - 1)

/-- The loop of `typeModifiersGQL` with its accumulator `modifiers`. -/
def typeModifiersGQLLoop : ASTType → List String → mods
  | .list _ elem _, modifiers => typeModifiersGQLLoop elem (modifiers ++ ["[]"])
  | .named _ nonNull, modifiers => if !nonNull then modifiers ++ ["*"] else modifiers

/-- `Renderer.typeModifiersGQL` (the receiver is unused). -/
def typeModifiersGQL (t : ASTType) : mods := typeModifiersGQLLoop t []

/-! ## Renderer: symbol lookup and `Ref` -/

/-- The schema kinds `ast.DefinitionKind`. -/
inductive DefinitionKind where
  | Scalar | Object | Interface | Union | Enum | InputObject
  deriving DecidableEq, Repr

/-- A field `ast.FieldDefinition` of a schema definition: its `Name` and `Type`. -/
structure FieldDefinition where
  Name : String
  Typ : ASTType
  deriving DecidableEq, Repr

/-- The schema definition `ast.Definition`, as far as the generator reads it. -/
structure Definition where
  Kind : DefinitionKind
  Name : String
  Fields : List FieldDefinition := []
  deriving DecidableEq, Repr

/-- The schema `ast.Schema`: the map `Types` from type name to definition, as an
association list; the pointers `Query`, `Mutation`, `Subscription`, each given by the
key of `Types` whose definition it points to (`none` is nil); the map `Implements`. -/
structure Schema where
  Types : List (String × Definition)
  Query : Option String := none
  Mutation : Option String := none
  Subscription : Option String := none
  Implements : List (String × List Definition) := []

/-- The method `(*ast.Schema).GetImplements`: `s.Implements[def.Name]`. -/
def Schema.GetImplements (s : Schema) (d : Definition) : List Definition :=
  (s.Implements.lookup d.Name).getD []

/-- An entry `config.TypeMapEntry` of the override table: the bound model and, per
schema field, the `FieldName` of `config.TypeMapField`. -/
structure TypeMapEntry where
  Model : String
  Fields : List (String × String) := []
  deriving DecidableEq, Repr

/-- The configuration `config.Config`, as far as the generator reads it: the override
table `Models` (a Go map, as an association list), `Model.Package`, the value of
`Model.ImportPath()` and `Model.Filename`. -/
structure Config where
  Models : List (String × TypeMapEntry)
  ModelPackage : String
  ModelImportPath : String
  ModelFilename : String := ""

/-- Modelled from the spec: `config.TypeMap.IsDefined` is not under `src/`; the spec
reads it as "the referenced type has an override entry". -/
def Config.IsDefined (cfg : Config) (name : String) : Bool :=
  (cfg.Models.lookup name).isSome

/-- The map read `r.Config.Models[name]`, the zero entry when the key is absent. -/
def Config.modelOf (cfg : Config) (name : String) : TypeMapEntry :=
  (cfg.Models.lookup name).getD { Model := "" }

/-- The import tracker `Imports`: the aliases chosen so far for the import paths of
the file being rendered. -/
structure Imports where
  destDir : String
  imports : List (String × String)

/-- Modelled from the spec: `Imports.Lookup` is not under `src/`; "a non-mutating
query ... returning empty string if unreserved". -/
def Imports.Lookup (s : Imports) (path : String) : String :=
  (s.imports.lookup path).getD ""

/-- A `types.Object` of the loaded program as far as `Ref` inspects it: its `Type()`
and, when the object is a `*types.Func`, the result types of its signature
(`Func = none` for every other kind of object).  `Ty` stands for `types.Type`. -/
structure Object (Ty : Type) where
  Typ : Ty
  Func : Option (List Ty)

/-- One entry of `pkg.Defs`: the identifier's `Name`, and the defined object with its
`Parent()` scope; `none` is a nil object (the map holds nil for some identifiers). -/
structure DefEntry (Ty : Type) where
  Name : String
  Def : Option (Option Nat × Object Ty)

/-- The loaded package `loader.PackageInfo`: the scope `Pkg.Scope()` and the map
`Defs`, listed in the order the `range` statement visits it. -/
structure PackageInfo (Ty : Type) where
  Scope : Nat
  Defs : List (DefEntry Ty)

/-- The renderer together with the ambient functions its methods call.  `Imported` is
`Prog.Imported`; `resolvePkg` is the outcome of `ResolvePkg` (error or import path),
which depends on the file system; `PkgAndType` is `gopath.PkgAndType` and
`TypeString` is `types.TypeString` applied to a possibly nil type and the qualifier
(which fails when it is called without a tracker), both outside `src/`. -/
structure Renderer (Ty : Type) where
  CurrentImports : Option Imports
  Config : Config
  Schema : Schema
  Imported : List (String × PackageInfo Ty)
  resolvePkg : String → Except String String
  PkgAndType : String → String × String
  TypeString : Option Ty → (String → Option String) → Option String
  unicode : Unicode
  helpers : Helpers

/-- The loop `for astNode, def := range pkg.Defs` of `FindGoType`: the first entry
that is not skipped.  The outer `none` is the nil dereference `def.Parent()` on a
nil object. -/
def findDef {Ty : Type} (scope : Nat) (typeName : String) :
    List (DefEntry Ty) → Option (Option (Object Ty))
  | [] => some none
  | e :: rest =>
    if e.Name ≠ typeName then findDef scope typeName rest
    else match e.Def with
      | none => none
      | some (parent, obj) =>
        if parent = none ∨ parent ≠ some scope then findDef scope typeName rest
        else some (some obj)

/-- `Renderer.FindGoType`, returning the pair `(object, error)`; the outer `none` is
a panic. -/
def Renderer.FindGoType {Ty : Type} (r : Renderer Ty) (pkgName typeName : String) :
    Option (Option (Object Ty) × Option String) :=
  if pkgName = "" then some (none, none)
  else
    let fullName := if pkgName ≠ "" then pkgName ++ "." ++ typeName else typeName
    match r.resolvePkg pkgName with
    | .error err =>
      some (none, some ("unable to resolve package for " ++ fullName ++ ": " ++ err ++ "\n"))
    | .ok pkgName =>
      match r.Imported.lookup pkgName with
      | none => some (none, some ("required package was not loaded: " ++ fullName))
      | some pkg =>
        match findDef pkg.Scope typeName pkg.Defs with
        | none => none
        | some (some d) => some (some d, none)
        | some none => some (none, some ("unable to find type " ++ fullName ++ "\n"))

/-- `Renderer.qualifier`: `r.CurrentImports.Lookup(i.Path())`. -/
def Renderer.qualifier {Ty : Type} (r : Renderer Ty) (path : String) : Option String :=
  r.CurrentImports.map (fun imports => imports.Lookup path)

/-- `Renderer.refRaw` (its parameter `pkg` is unused). -/
def Renderer.refRaw {Ty : Type} (r : Renderer Ty) (_pkg typ : String) : Option String := do
  let imports ← r.CurrentImports
  let imp := imports.Lookup r.Config.ModelImportPath
  if imp = "" then pure typ else pure (imp ++ "." ++ typ)

/-- The variable `boundType` of `Ref` for an override `(pkg, typ)` after the lookup
of `Unmarshal<typ>` and, on error, of `typ`; the outer `none` is a panic, the inner
one a nil `types.Type`. -/
def Renderer.boundType {Ty : Type} (r : Renderer Ty) (pkg typ : String) :
    Option (Option Ty) := do
  let (d, err) ← r.FindGoType pkg ("Unmarshal" ++ typ)
  if err = none then
    match d with
    | some ⟨_, some results⟩ => (results[0]?).map some
    | _ => pure none
  else
    let (o, err) ← r.FindGoType pkg typ
    if err ≠ none then none
    else match o with
      | some o => pure (some o.Typ)
      | none => none

/-- `Renderer.Ref`. -/
def Renderer.Ref {Ty : Type} (r : Renderer Ty) (t : ASTType) : Option String := do
  let m := typeModifiersGQL t
  let name ← t.Name
  let d ← r.Schema.Types.lookup name
  let m := if d.Kind = DefinitionKind.Interface then mods.PopPtr m else m
  if !r.Config.IsDefined name then
    -- If its not in the typemap, assume model generation is in the process of building it
    let lit ← PubTypeLit r.unicode r.helpers name
    let raw ← r.refRaw r.Config.ModelPackage lit
    pure (mods.String m ++ raw)
  else
    let (pkg, typ) := r.PkgAndType (r.Config.modelOf name).Model
    let bound ← r.boundType pkg typ
    let str ← r.TypeString bound r.qualifier
    pure (mods.String m ++ str)

/-! ## Type definitions and type references -/

/-- The struct `TypeImplementation`. -/
structure TypeImplementation where
  GoType : String
  Package : String
  IsUserDefined : Bool
  deriving DecidableEq, Repr

/-- The struct `TypeDefinition` (it embeds `TypeImplementation`). -/
structure TypeDefinition extends TypeImplementation where
  IsScalar : Bool
  IsInterface : Bool
  IsInput : Bool
  GQLType : String
  Marshaler : Option TypeImplementation
  deriving DecidableEq, Repr

/-- The struct `TypeReference`; a nil pointer field is `none`. -/
structure TypeReference where
  Definition : Option TypeDefinition
  Modifiers : List String
  ASTType : Option ASTType
  AliasedType : Option TypeImplementation
  deriving DecidableEq, Repr

/-- `TypeImplementation.PkgDot`; `imports` is the tracker behind the package variable
`templates.CurrentImports`. -/
def TypeImplementation.PkgDot (imports : Imports) (t : TypeImplementation) : String :=
  let name := imports.Lookup t.Package
  if name = "" then "" else name ++ "."

/-- `TypeImplementation.FullName`. -/
def TypeImplementation.FullName (imports : Imports) (t : TypeImplementation) : String :=
  t.PkgDot imports ++ t.GoType

/-- `TypeDefinition.IsMarshaled`. -/
def TypeDefinition.IsMarshaled (t : TypeDefinition) : Bool := t.Marshaler ≠ none

/-- `TypeReference.IsPtr`. -/
def TypeReference.IsPtr (t : TypeReference) : Bool :=
  decide (t.Modifiers.length > 0) && t.Modifiers[0]? == some modPtr

/-- `TypeReference.IsSlice`. -/
def TypeReference.IsSlice (t : TypeReference) : Bool :=
  (decide (t.Modifiers.length > 0) && t.Modifiers[0]? == some modList) ||
    (decide (t.Modifiers.length > 1) && t.Modifiers[0]? == some modPtr &&
      t.Modifiers[1]? == some modList)

/-- `strconv.Itoa` on a non-negative `int`. -/
def Itoa (n : Nat) : String := Nat.repr n

/-- The text `tpl` renders for the template of the pointer case of `unmarshal`, from
the values bound to `ptr`, `mods`, `t.Definition.FullName`, `raw`, `next`, `result`.
The trim marker in `{{.ptr -}}` removes the white space before the closing brace. -/
def tplPtr (ptr mods fullName raw next result : String) : String :=
  "var " ++ ptr ++ " " ++ mods ++ fullName ++ "\n\t\t\tif " ++ raw ++ " != nil \x7b\n\t\t\t\t" ++
    next ++ "\n\t\t\t\t" ++ result ++ " = &" ++ ptr ++ "\x7d\n\t\t"

/-- The text `tpl` renders for the template of the list case of `unmarshal`, from the
values bound to `rawSlice`, `raw`, `result`, `type`, `index`, `next`.  The name `tmp1`
is part of the template text. -/
def tplList (rawSlice raw result type index next : String) : String :=
  "var " ++ rawSlice ++ " []interface\x7b\x7d\n\t\t\tif " ++ raw ++ " != nil \x7b\n\t\t\t\tif tmp1, ok := " ++
    raw ++ ".([]interface\x7b\x7d); ok \x7b\n\t\t\t\t\t" ++ rawSlice ++ " = tmp1\n\t\t\t\t\x7d else \x7b\n\t\t\t\t\t" ++
    rawSlice ++ " = []interface\x7b\x7d\x7b " ++ raw ++ " \x7d\n\t\t\t\t\x7d\n\t\t\t\x7d\n\t\t\t" ++
    result ++ " = make(" ++ type ++ ", len(" ++ rawSlice ++ "))\n\t\t\tfor " ++ index ++
    " := range " ++ rawSlice ++ " \x7b\n\t\t\t\t" ++ next ++ "\x7d"

/-- The text `tpl` renders for the template of the base case of `unmarshal`: the
optional declaration of `castTmp`, one of the three decode statements, the optional
conversion to the aliased type.  All white space between the actions is trimmed
except inside the two alias blocks. -/
def tplBase (imports : Imports) (d : TypeDefinition) (aliased : Option TypeImplementation)
    (realResult result raw : String) : String :=
  (match aliased with
    | some _ => "\n\t\t\tvar castTmp " ++ d.toTypeImplementation.FullName imports ++ "\n\t\t"
    | none => "") ++
  (if d.GoType = "map[string]interface\x7b\x7d" then
      result ++ " = " ++ raw ++ ".(map[string]interface\x7b\x7d)"
    else match d.Marshaler with
      | some m => result ++ ", err = " ++ m.PkgDot imports ++ "Unmarshal" ++ m.GoType ++ "(" ++ raw ++ ")"
      | none => "err = (&" ++ result ++ ").UnmarshalGQL(" ++ raw ++ ")") ++
  (match aliased with
    | some a => "\n\t\t\t" ++ realResult ++ " = " ++ a.FullName imports ++ "(castTmp)"
    | none => "")

/-- `TypeReference.unmarshal`; a nil `Definition` makes every template fail. -/
def TypeReference.unmarshal (imports : Imports) (t : TypeReference) (result raw : String)
    (remainingMods : List String) (depth : Nat) : Option String :=
  match remainingMods with
  | m :: rest =>
    if m = modPtr then do
      let ptr := "ptr" ++ Itoa depth
      let next ← t.unmarshal imports ptr raw rest (depth + 1)
      let d ← t.Definition
      pure (tplPtr ptr (String.join rest) (d.toTypeImplementation.FullName imports) raw next result)
    else if m = modList then do
      let rawIf := "rawIf" ++ Itoa depth
      let index := "idx" ++ Itoa depth
      let d ← t.Definition
      let type := String.join (m :: rest) ++ d.toTypeImplementation.FullName imports
      let next ← t.unmarshal imports (result ++ "[" ++ index ++ "]") (rawIf ++ "[" ++ index ++ "]")
        rest (depth + 1)
      pure (tplList rawIf raw result type index next)
    else do
      let d ← t.Definition
      pure (tplBase imports d t.AliasedType result
        (if t.AliasedType.isSome then "castTmp" else result) raw)
  | [] => do
    let d ← t.Definition
    pure (tplBase imports d t.AliasedType result
      (if t.AliasedType.isSome then "castTmp" else result) raw)

/-- `TypeReference.Unmarshal`. -/
def TypeReference.Unmarshal (imports : Imports) (t : TypeReference) (result raw : String) :
    Option String :=
  t.unmarshal imports result raw t.Modifiers 1

/-- `TypeReference.Marshal`. -/
def TypeReference.Marshal (imports : Imports) (t : TypeReference) (val : String) :
    Option String := do
  let d ← t.Definition
  let val := if t.AliasedType.isSome then d.GoType ++ "(" ++ val ++ ")" else val
  match d.Marshaler with
  | some m => pure ("return " ++ m.PkgDot imports ++ "Marshal" ++ m.GoType ++ "(" ++ val ++ ")")
  | none => pure ("return " ++ val)

/-! ## Observations on schema types used in the statements -/

/-- The list nesting depth of a schema type: the number of list wrappers. -/
def ASTType.listDepth : ASTType → Nat
  | .named _ _ => 0
  | .list _ elem _ => elem.listDepth + 1

/-- The `NonNull` flag of the innermost named type of a schema type. -/
def ASTType.innerNonNull : ASTType → Bool
  | .named _ nonNull => nonNull
  | .list _ elem _ => elem.innerNonNull

/-- The `NonNull` flags of all wrapper levels of a schema type, outermost first, the
innermost named type last. -/
def ASTType.nullability : ASTType → List Bool
  | .named _ nonNull => [nonNull]
  | .list _ elem nonNull => nonNull :: elem.nullability

/-! ## Concrete inputs used by the witnesses -/

/-- A renderer for a schema with a scalar `Map` bound to the builtin type
`map[string]interface{}` and an unbound interface `Node`.  No package is loaded;
`PkgAndType` is given on names without a package qualifier (empty package, the name
itself); `TypeString` renders a type by its name and the nil type as `<nil>`;
the `templates` helpers are the identity, which is their value on `Node`. -/
def exampleRenderer : Renderer String where
  CurrentImports := some ⟨"gen", []⟩
  Config :=
    { Models := [("Map", { Model := "map[string]interface\x7b\x7d" })]
      ModelPackage := "models"
      ModelImportPath := "example.com/gen/models" }
  Schema :=
    { Types := [("Map", { Kind := DefinitionKind.Scalar, Name := "Map" }),
        ("Node", { Kind := DefinitionKind.Interface, Name := "Node" })] }
  Imported := []
  resolvePkg := fun p => Except.ok p
  PkgAndType := fun name => ("", name)
  TypeString := fun ty _ => some (ty.getD "<nil>")
  unicode := Unicode.ascii
  helpers := ⟨id, id, id⟩

/-- An import tracker holding the aliases `graphql` and `time`. -/
def exampleImports : Imports :=
  ⟨"gen", [("github.com/99designs/gqlgen/graphql", "graphql"), ("time", "time")]⟩

/-- The definition of a scalar `Time` bound to `time.Time` with the external marshaler
pair `graphql.MarshalTime` / `graphql.UnmarshalTime`. -/
def timeDefinition : TypeDefinition where
  GoType := "Time"
  Package := "time"
  IsUserDefined := true
  IsScalar := true
  IsInterface := false
  IsInput := false
  GQLType := "Time"
  Marshaler := some ⟨"Time", "github.com/99designs/gqlgen/graphql", true⟩

/-- The definition of the scalar `Map`: its Go type is `map[string]interface{}` and
the marshaler pair `graphql.MarshalMap` / `graphql.UnmarshalMap` is recorded. -/
def mapDefinition : TypeDefinition where
  GoType := "map[string]interface\x7b\x7d"
  Package := ""
  IsUserDefined := true
  IsScalar := true
  IsInterface := false
  IsInput := false
  GQLType := "Map"
  Marshaler := some ⟨"Map", "github.com/99designs/gqlgen/graphql", true⟩

/-! ## Names declared by the generated decode text -/

/-- White space between the tokens of Go source text. -/
def isSpace (c : Char) : Bool := c = ' ' || c = '\n' || c = '\t' || c = '\r'

/-- The tokens of a text: its maximal runs of characters other than white space. -/
def tokens : List Char → List (List Char)
  | [] => []
  | c :: cs =>
    if isSpace c then tokens cs
    else
      match cs with
      | [] => [[c]]
      | c' :: _ =>
        if isSpace c' then [c] :: tokens cs
        else
          match tokens cs with
          | w :: ws => (c :: w) :: ws
          | [] => [[c]]

/-- The names a Go text declares, read off its tokens: the name after `var`, the name
before `:=` (also in `for name := range`), and the name with a trailing comma two
tokens before `:=` (as in `if name, ok := ...`).  These are the forms of declaration
that occur in the templates of `unmarshal`. -/
def declaredNames : List (List Char) → List (List Char)
  | [] => []
  | t :: rest =>
    (if t = "var".toList then rest.head?.toList
      else if rest.head? = some ":=".toList then [t]
      else if rest[1]? = some ":=".toList ∧ t.getLast? = some ',' then [t.dropLast]
      else []) ++ declaredNames rest

/-- A text written as words, each given by its pieces and followed by a run of white
space, in front of `rest`. -/
def render : List (List (List Char) × List Char) → List Char → List Char
  | [], rest => rest
  | (w, sp) :: segs, rest => w.foldr (fun p acc => p ++ acc) (sp ++ render segs rest)

/-- No white space in `l`. -/
@[reducible] def spaceFree (l : List Char) : Prop := ∀ c ∈ l, isSpace c = false

/-- A name or expression that stands as one token and is neither `var` nor `:=`. -/
@[reducible] def operand (l : List Char) : Prop :=
  l ≠ [] ∧ spaceFree l ∧ l ≠ "var".toList ∧ l ≠ ":=".toList

/-- The names the levels of `unmarshal` are to declare for a stack of `"*"` and `"[]"`
entries, from `depth` on: `ptr<depth>` at a pointer level; `rawIf<depth>`, the fixed
names `tmp1` and `ok`, and `idx<depth>` at a list level. -/
def levelNames : List String → Nat → List String
  | [], _ => []
  | m :: rest, depth =>
    (if m = modPtr then ["ptr" ++ Itoa depth]
      else ["rawIf" ++ Itoa depth, "tmp1", "ok", "idx" ++ Itoa depth]) ++
      levelNames rest (depth + 1)

/-- The names declared by a text. -/
def declaredIn (text : String) : List String :=
  (declaredNames (tokens text.toList)).map String.mk

/-- The number a string of decimal digits denotes. -/
def decimalValue (cs : List Char) : Nat :=
  cs.foldl (fun acc c => acc * 10 + (c.toNat - 48)) 0

/-! ## The loop of `LintName` on names without underscores -/

/-- The rewrite that `fixWord` applies to the word itself; `first` says whether the
word starts the name (`w == 0`). -/
def fixedWord (u : Unicode) (first : Bool) (word : List Char) : List Char :=
  if isCommonInitialism (u.stringsToUpper word) then
    if first = true ∧ (word.head?).map u.IsLower = some true then
      u.stringsToLower (u.stringsToUpper word)
    else u.stringsToUpper word
  else if first = false ∧ u.stringsToLower word = word then
    match word with
    | [] => []
    | c :: cs => u.ToUpper c :: cs
  else word

/-- The result of the loop of `LintName` on a name without underscores, as a function
of the rest of the input: `cur` is the part of the current word already scanned, a
word ends after a lowercase rune that is followed by a non-lowercase one. -/
def lintWords (u : Unicode) (first : Bool) (cur : List Char) : List Char → List Char
  | [] => cur
  | [c] => fixedWord u first (cur ++ [c])
  | c :: c' :: rest =>
    if u.IsLower c && !u.IsLower c' then
      fixedWord u first (cur ++ [c]) ++ lintWords u false [] (c' :: rest)
    else lintWords u first (cur ++ [c]) (c' :: rest)

/-- No word boundary inside `x`: no lowercase rune is followed by a non-lowercase one. -/
def noBoundary (u : Unicode) (x : List Char) : Prop :=
  List.Chain' (fun a b => ¬ (u.IsLower a = true ∧ u.IsLower b = false)) x

/-! ## Rendering to a file and model generation -/

/-- How a call ends: with a Go panic, or by returning `val`. -/
inductive Outcome (α : Type) where
  | panic (msg : String)
  | returned (val : α)
  deriving DecidableEq, Repr

/-- The observable actions of a render: a template was executed, a file was written. -/
inductive Effect where
  | run (tpl : String)
  | write (filename content : String)
  deriving DecidableEq, Repr

/-- The ambient operations of `Run` and `RenderToFile`, for template data of type `D`.
`execute name data tracker` is `text/template` on the static template table: it
panics on a template that does not parse, or returns an execution error or the
rendered buffer; `reserved name data tracker` is the tracker after the template's
calls of `reserveImport`.  `importsString` is `Imports.String`, `write` the helper
`write` (its error, `none` for nil) and `dir` is `filepath.Dir`. -/
structure RenderEnv (D : Type) where
  execute : String → D → Option Imports → Outcome (Except String String)
  reserved : String → D → Imports → Imports
  importsString : Imports → String
  write : String → String → Option String
  dir : String → String

/-- `Renderer.Run`: the renderer afterwards (the tracker pointer is the same, what it
points to may have changed) and the pair `(buf, err)` or a panic. -/
def Renderer.Run {Ty D : Type} (env : RenderEnv D) (r : Renderer Ty) (name : String)
    (tpldata : D) : Renderer Ty × Outcome (Except String String) :=
  ({ r with CurrentImports := r.CurrentImports.map (env.reserved name tpldata) },
    env.execute name tpldata r.CurrentImports)

/-- `Renderer.RenderToFile`: the renderer afterwards, the actions performed and the
returned error (`none` for nil) or the panic. -/
def Renderer.RenderToFile {Ty D : Type} (env : RenderEnv D) (r : Renderer Ty)
    (tpl filename : String) (data : D) : Renderer Ty × List Effect × Outcome (Option String) :=
  match r.CurrentImports with
  | some _ => (r, [], Outcome.panic "recursive or concurrent call to RenderToFile detected")
  | none =>
    let r₁ := { r with CurrentImports := some ⟨env.dir filename, []⟩ }
    match r₁.Run env tpl data with
    | (r₂, Outcome.panic msg) => (r₂, [Effect.run tpl], Outcome.panic msg)
    | (r₂, Outcome.returned (Except.error err)) =>
      (r₂, [Effect.run tpl], Outcome.returned (some (filename ++ " generation failed: " ++ err)))
    | (r₂, Outcome.returned (Except.ok buf)) =>
      match r₂.CurrentImports with
      | none => (r₂, [Effect.run tpl], Outcome.panic "nil pointer dereference")
      | some imports =>
        let b := buf.replace "%%%IMPORTS%%%" (env.importsString imports)
        ({ r₂ with CurrentImports := none }, [Effect.run tpl, Effect.write filename b],
          Outcome.returned (env.write filename b))

/-- What `NewRenderer` takes from its surroundings: the outcome of loading the program
(`ldr.Load()`) and the ambient functions of the renderer. -/
structure Ambient (Ty : Type) where
  load : Except String (List (String × PackageInfo Ty))
  resolvePkg : String → Except String String
  PkgAndType : String → String × String
  TypeString : Option Ty → (String → Option String) → Option String
  unicode : Unicode
  helpers : Helpers

/-- `NewRenderer`. -/
def NewRenderer {Ty : Type} (a : Ambient Ty) (cfg : Config) (s : Schema) :
    Except String (Renderer Ty) :=
  match a.load with
  | Except.error err => Except.error err
  | Except.ok p =>
    Except.ok
      { CurrentImports := none, Config := cfg, Schema := s, Imported := p,
        resolvePkg := a.resolvePkg, PkgAndType := a.PkgAndType, TypeString := a.TypeString,
        unicode := a.unicode, helpers := a.helpers }

set_option linter.dupNamespace false

namespace model

/-- The struct `field` of package `model`. -/
structure field where
  FieldDefinition : FieldDefinition
  GoName : String
  deriving DecidableEq, Repr

/-- The struct `model` of package `model`. -/
structure model where
  Definition : Definition
  Implements : List String
  Fields : List field
  deriving DecidableEq, Repr

/-- The struct `args`, the data of the models template. -/
structure args where
  PackageName : String
  Models : List model
  Enums : List Definition
  deriving DecidableEq, Repr

/-- The model built for one schema type in the loop of `Generate`. -/
def modelOf (cfg : Config) (s : Schema) (typ : Definition) : model where
  Definition := typ
  Fields := typ.Fields.map fun f =>
    { FieldDefinition := f
      GoName :=
        match cfg.Models.lookup typ.Name with
        | some mod =>
          if (mod.Fields.lookup f.Name).getD "" ≠ "" then (mod.Fields.lookup f.Name).getD ""
          else f.Name
        | none => f.Name }
  Implements := (s.GetImplements typ).map fun intf => intf.Name

/-- The loop `for _, typ := range r.Schema.Types` of `Generate`, over the entries in
the order the `range` statement visits them. -/
def collect (cfg : Config) (s : Schema) : List (String × Definition) → args → args
  | [], tplArgs => tplArgs
  | (key, typ) :: rest, tplArgs =>
    if some key = s.Query ∨ some key = s.Mutation ∨ some key = s.Subscription ∨
        cfg.IsDefined typ.Name = true then
      collect cfg s rest tplArgs
    else
      let tplArgs :=
        if typ.Kind = DefinitionKind.Object ∨ typ.Kind = DefinitionKind.InputObject ∨
            typ.Kind = DefinitionKind.Interface ∨ typ.Kind = DefinitionKind.Union then
          { tplArgs with Models := tplArgs.Models ++ [modelOf cfg s typ] }
        else tplArgs
      let tplArgs :=
        if typ.Kind = DefinitionKind.Enum then { tplArgs with Enums := tplArgs.Enums ++ [typ] }
        else tplArgs
      collect cfg s rest tplArgs

/-- The loops that fill the returned map: `generated[name] = entry` for each name in
turn; a later assignment shadows an earlier one.  A failing `PubTypeLit` is a
panic. -/
def fill (u : Unicode) (h : Helpers) (importPath : String) :
    List String → List (String × TypeMapEntry) → Option (List (String × TypeMapEntry))
  | [], generated => some generated
  | name :: rest, generated =>
    match PubTypeLit u h name with
    | none => none
    | some lit => fill u h importPath rest ((name, { Model := importPath ++ "." ++ lit }) :: generated)

/-- The value of `tplArgs` when `Generate` renders the template: the models and enums
collected from the schema, each list sorted by name.  (`sort.Slice` leaves the order
of equal names open; insertion sort is one of the orders it may produce.) -/
def templateArgs (cfg : Config) (s : Schema) : args :=
  let tplArgs := collect cfg s s.Types
    { PackageName := cfg.ModelPackage, Models := [], Enums := [] }
  { tplArgs with
    Models := tplArgs.Models.insertionSort
      (fun x y => ¬ y.Definition.Name < x.Definition.Name)
    Enums := tplArgs.Enums.insertionSort (fun x y => ¬ y.Name < x.Name) }

/-- `Generate`: the actions performed and the returned pair `(TypeMap, error)` (as an
`Except`) or the panic. -/
def Generate {Ty : Type} (a : Ambient Ty) (env : RenderEnv args) (cfg : Config) (s : Schema) :
    List Effect × Outcome (Except String (List (String × TypeMapEntry))) :=
  match NewRenderer a cfg s with
  | Except.error err => ([], Outcome.returned (Except.error err))
  | Except.ok r =>
    let tplArgs := templateArgs cfg r.Schema
    match r.RenderToFile env "model/models.gotpl" cfg.ModelFilename tplArgs with
    | (_, effects, Outcome.panic msg) => (effects, Outcome.panic msg)
    | (_, effects, Outcome.returned (some err)) => (effects, Outcome.returned (Except.error err))
    | (_, effects, Outcome.returned none) =>
      match fill r.unicode r.helpers cfg.ModelImportPath
          (tplArgs.Models.map (fun m => m.Definition.Name) ++ tplArgs.Enums.map (fun e => e.Name))
          [] with
      | none => (effects, Outcome.panic "index out of range")
      | some generated => (effects, Outcome.returned (Except.ok generated))

end model

/-- A render environment without template data: the template `"bad.gotpl"` fails to
execute, every other template renders the text `package gen`; every template reserves
the import `fmt`; writing succeeds. -/
def exampleRenderEnv : RenderEnv Unit where
  execute := fun name _ _ =>
    if name = "bad.gotpl" then Outcome.returned (Except.error "template: bad.gotpl: execution failed")
    else Outcome.returned (Except.ok "package gen")
  reserved := fun _ _ imports => { imports with imports := ("fmt", "fmt") :: imports.imports }
  importsString := fun _ => "import \"fmt\""
  write := fun _ _ => none
  dir := fun _ => "gen"

/-- The renderer `exampleRenderer` between two renders: no tracker is active. -/
def idleRenderer : Renderer String := { exampleRenderer with CurrentImports := none }

/-! ## Underscores in the output of `LintName` -/

/-- What the case maps keep of a rune: not being an underscore, and being a digit. -/
def keepsShape (c c' : Char) : Prop :=
  (c' = '_' → c = '_') ∧ (c.isDigit = true → c'.isDigit = true)

/-- Every underscore of `runes` at a position `1 ≤ k ≤ i` stands between two digits. -/
def underscoresFlanked (runes : List Char) (i : Nat) : Prop :=
  ∀ k, 1 ≤ k → k ≤ i → runes[k]? = some '_' →
    ∃ a b, runes[k - 1]? = some a ∧ runes[k + 1]? = some b ∧
      a.isDigit = true ∧ b.isDigit = true

/-- The definition of `type Query { user: User }`. -/
def queryDefinition : Definition where
  Kind := DefinitionKind.Object
  Name := "Query"
  Fields := [⟨"user", .named "User" false⟩]

/-- The definition of `type User { id: Int, fist_name: String }`. -/
def userDefinition : Definition where
  Kind := DefinitionKind.Object
  Name := "User"
  Fields := [⟨"id", .named "Int" false⟩, ⟨"fist_name", .named "String" false⟩]

/-- The schema of `TestGenerateServer`: `Query`, `User` and the scalars they use. -/
def testSchema : Schema where
  Types :=
    [("Query", queryDefinition), ("User", userDefinition),
      ("Int", { Kind := DefinitionKind.Scalar, Name := "Int" }),
      ("String", { Kind := DefinitionKind.Scalar, Name := "String" })]
  Query := some "Query"

/-- The configuration of the test: no overrides. -/
def testConfig : Config where
  Models := []
  ModelPackage := "graphserver"
  ModelImportPath := "example.com/gen/graphserver"
  ModelFilename := "gen/graphserver/model.go"

/-- A renderer for the schema of `TestGenerateServer` with a fresh tracker; the
`templates` helpers are the identity, which is their value on `User`. -/
def testRenderer : Renderer String where
  CurrentImports := some ⟨"gen/graphserver", []⟩
  Config := testConfig
  Schema := testSchema
  Imported := []
  resolvePkg := fun p => Except.ok p
  PkgAndType := fun name => ("", name)
  TypeString := fun ty _ => some (ty.getD "<nil>")
  unicode := Unicode.ascii
  helpers := ⟨id, id, id⟩

/-- A render environment for the models template: the template renders a fixed text and
reserves no import; writing succeeds. -/
def exampleModelEnv : RenderEnv model.args where
  execute := fun _ _ _ => Outcome.returned (Except.ok "package graphserver")
  reserved := fun _ _ imports => imports
  importsString := fun _ => ""
  write := fun _ _ => none
  dir := fun _ => "gen/graphserver"

/-- The surroundings of `NewRenderer` in the test: loading succeeds with no imported
package; the `templates` helpers are the identity, which is their value on `User`. -/
def testAmbient : Ambient String where
  load := Except.ok []
  resolvePkg := fun p => Except.ok p
  PkgAndType := fun name => ("", name)
  TypeString := fun ty _ => some (ty.getD "<nil>")
  unicode := Unicode.ascii
  helpers := ⟨id, id, id⟩

/-! ## `StripPtr` and `LintName` without its fast path -/

/-- `TypeReference.StripPtr`: the reference after the call (the receiver is a
pointer); `t.Modifiers[0 : len(t.Modifiers)-1]` is in range when `IsPtr` holds. -/
def TypeReference.StripPtr (t : TypeReference) : TypeReference :=
  if !t.IsPtr then t
  else { t with Modifiers := t.Modifiers.take (t.Modifiers.length - 1) }

/-- `LintName` with the fast path removed: the word-splitting loop on every input. -/
def LintNameGeneral (u : Unicode) (name : String) : Option String :=
  (lintRunes u name.toList).map String.mk

/-- The `unicode` functions on the ASCII range and on the rune U+0131, the dotless
`i`: Go classifies it as a lowercase letter and maps it to the ASCII `I` on
uppercasing.  On these runes the functions agree with Go. -/
def Unicode.dotlessI : Unicode where
  IsLower := fun c => c.isLower || c = 'ı'
  IsDigit := Char.isDigit
  ToUpper := fun c => if c = 'ı' then 'I' else c.toUpper
  ToLower := Char.toLower

/-! ## Mentions of a marshaler in generated text -/

/-- Whether a text contains the capital letter `M` or `U`. -/
def hasLetterMU (s : String) : Bool := s.toList.any fun c => c == 'M' || c == 'U'

/-- A text mentions a marshaler when `Marshal` or `Unmarshal` occurs in it; every call
of a `Marshal<Type>` or `Unmarshal<Type>` function and of `UnmarshalGQL` does. -/
def mentionsMarshal (s : String) : Prop :=
  "Marshal".toList <:+: s.toList ∨ "Unmarshal".toList <:+: s.toList

/-! ## Theorems -/

/-! ### Modifier stacks -/

/-- The loop appends one `"[]"` per list wrapper and then a `"*"` for a nullable named
type. -/
theorem typeModifiersGQLLoop_eq (t : ASTType) (acc : List String) :
    typeModifiersGQLLoop t acc =
      acc ++ (List.replicate t.listDepth "[]" ++ if t.innerNonNull then [] else ["*"]) := by
  induction t generalizing acc with
  | named n nonNull =>
    cases nonNull <;> simp [typeModifiersGQLLoop, ASTType.listDepth, ASTType.innerNonNull]
  | list n elem nonNull ih =>
    simp [typeModifiersGQLLoop, ASTType.listDepth, ASTType.innerNonNull, ih,
      List.replicate_succ]

/-- The shape of every computed modifier stack. -/
theorem typeModifiersGQL_eq (t : ASTType) :
    typeModifiersGQL t =
      List.replicate t.listDepth "[]" ++ if t.innerNonNull then [] else ["*"] := by
  simp [typeModifiersGQL, typeModifiersGQLLoop_eq]

/-- C4, as stated, fails: the schema types `[String!]!` and `[String!]` get the same
modifier stack although their outer wrappers differ in nullability. -/
theorem typeModifiersGQL_not_injective :
    typeModifiersGQL (.list "" (.named "String" true) true) =
        typeModifiersGQL (.list "" (.named "String" true) false) ∧
      (ASTType.list "" (.named "String" true) true).nullability ≠
        (ASTType.list "" (.named "String" true) false).nullability := by
  decide

/-- C4, amended: two schema types with the same modifier stack have the same list
nesting depth and the same nullability of the innermost named type; the stack is one
`"[]"` per list wrapper followed by a `"*"` exactly when the innermost named type is
nullable. -/
theorem typeModifiersGQL_encodes (t₁ t₂ : ASTType)
    (h : typeModifiersGQL t₁ = typeModifiersGQL t₂) :
    t₁.listDepth = t₂.listDepth ∧ t₁.innerNonNull = t₂.innerNonNull ∧
      typeModifiersGQL t₁ =
        List.replicate t₁.listDepth "[]" ++ if t₁.innerNonNull then [] else ["*"] := by
  refine ⟨?_, ?_, typeModifiersGQL_eq t₁⟩
  · have := congrArg (List.count "[]") h
    rw [typeModifiersGQL_eq, typeModifiersGQL_eq] at this
    cases h₁ : t₁.innerNonNull <;> cases h₂ : t₂.innerNonNull <;>
      simpa [h₁, h₂, List.count_replicate_self] using this
  · have := congrArg (List.count "*") h
    rw [typeModifiersGQL_eq, typeModifiersGQL_eq] at this
    cases h₁ : t₁.innerNonNull <;> cases h₂ : t₂.innerNonNull <;>
      simp [h₁, h₂, List.count_replicate] at this ⊢

theorem typeModifiersGQL_encodes_witness :
    (ASTType.list "" (.named "String" false) true).listDepth =
        (ASTType.list "" (.named "String" false) false).listDepth ∧
      (ASTType.list "" (.named "String" false) true).innerNonNull =
        (ASTType.list "" (.named "String" false) false).innerNonNull ∧
      typeModifiersGQL (.list "" (.named "String" false) true) =
        List.replicate (ASTType.list "" (.named "String" false) true).listDepth "[]" ++
          if (ASTType.list "" (.named "String" false) true).innerNonNull then [] else ["*"] :=
  typeModifiersGQL_encodes _ _ (by decide)

/-- C5, as stated, fails: for the nullable schema type `String` the computed stack is
`["*"]`, not the empty stack. -/
theorem typeModifiersGQL_String_ne_nil :
    typeModifiersGQL (.named "String" false) = ["*"] ∧
      typeModifiersGQL (.named "String" false) ≠ [] := by
  decide

/-- C5, amended: `typeModifiersGQL` computes `["[]"]` for `[String!]!`, `["[]","*"]`
for `[String]`, `["*"]` for `String`, and the empty stack for `String!`. -/
theorem typeModifiersGQL_examples :
    typeModifiersGQL (.list "" (.named "String" true) true) = ["[]"] ∧
      typeModifiersGQL (.list "" (.named "String" false) false) = ["[]", "*"] ∧
      typeModifiersGQL (.named "String" false) = ["*"] ∧
      typeModifiersGQL (.named "String" true) = [] := by
  decide

/-! ### Identifier normalizer -/

/-- C1, as stated, fails: `LintName("A_pi")` is `"APi"`, and `LintName("APi")` is
`"API"`, so normalizing twice differs from normalizing once. -/
theorem LintName_not_idempotent :
    LintName Unicode.ascii "A_pi" = some "APi" ∧
      (LintName Unicode.ascii "A_pi").bind (LintName Unicode.ascii) = some "API" ∧
      (LintName Unicode.ascii "A_pi").bind (LintName Unicode.ascii) ≠
        LintName Unicode.ascii "A_pi" := by
  decide

/-- C2, as stated, fails: `LintName("user_id")` is `"userID"`, not `"UserID"`. -/
theorem LintName_user_id_ne :
    LintName Unicode.ascii "user_id" = some "userID" ∧
      LintName Unicode.ascii "user_id" ≠ some "UserID" := by
  decide

/-- C2, amended: `LintName` maps `"user_id"` to `"userID"`, `"html_url"` to
`"htmlURL"` and `"_"` to `"_"`; it returns `"UserID"` and `"HTMLURL"` on the
camel-cased names `"UserId"` and `"HtmlUrl"`. -/
theorem LintName_examples :
    LintName Unicode.ascii "user_id" = some "userID" ∧
      LintName Unicode.ascii "html_url" = some "htmlURL" ∧
      LintName Unicode.ascii "_" = some "_" ∧
      LintName Unicode.ascii "UserId" = some "UserID" ∧
      LintName Unicode.ascii "HtmlUrl" = some "HTMLURL" := by
  decide

/-! ### `Ref` -/

/-- A name returned by `Name` is never empty. -/
theorem ASTType.Name_ne_empty (t : ASTType) (name : String) (h : t.Name = some name) :
    name ≠ "" := by
  induction t with
  | named n nonNull =>
    simp only [ASTType.Name] at h
    split at h
    · cases h; assumption
    · cases h
  | list n elem nonNull ih =>
    simp only [ASTType.Name] at h
    split at h
    · cases h; assumption
    · exact ih h

/-- On the stack of a schema type whose named type is non-null, `PopPtr` returns the
empty stack. -/
theorem mods.PopPtr_of_innerNonNull (t : ASTType) (h : t.innerNonNull = true) :
    mods.PopPtr (typeModifiersGQL t) = [] := by
  rw [typeModifiersGQL_eq, h]
  cases hd : t.listDepth with
  | zero => simp [mods.PopPtr]
  | succ n => simp [mods.PopPtr, List.getElem?_replicate]

/-- C6, the code at the failing input: for a schema type whose innermost named type
is a non-null interface, `PopPtr` empties the modifier stack, so `Ref` renders a list
of the interface exactly as the bare interface `name!`. -/
theorem Ref_interface_drops_list_modifiers {Ty : Type} (r : Renderer Ty) (t : ASTType)
    (name : String) (d : Definition) (hname : t.Name = some name)
    (hd : r.Schema.Types.lookup name = some d) (hk : d.Kind = DefinitionKind.Interface)
    (hnn : t.innerNonNull = true) :
    mods.PopPtr (typeModifiersGQL t) = [] ∧ r.Ref t = r.Ref (.named name true) := by
  have hne := ASTType.Name_ne_empty t name hname
  have h₁ := mods.PopPtr_of_innerNonNull t hnn
  have h₂ := mods.PopPtr_of_innerNonNull (.named name true) rfl
  refine ⟨h₁, ?_⟩
  simp only [Renderer.Ref, hname, ASTType.Name, hne, hd, hk, h₁, h₂, ne_eq, not_false_eq_true,
    if_true, Option.bind_eq_bind, Option.some_bind]

theorem Ref_interface_drops_list_modifiers_witness :
    typeModifiersGQL (.list "" (.named "Node" true) true) = ["[]"] ∧
      mods.PopPtr (typeModifiersGQL (.list "" (.named "Node" true) true)) = [] ∧
      exampleRenderer.Ref (.list "" (.named "Node" true) true) =
        exampleRenderer.Ref (.named "Node" true) :=
  ⟨by decide,
    Ref_interface_drops_list_modifiers exampleRenderer (.list "" (.named "Node" true) true)
      "Node" { Kind := DefinitionKind.Interface, Name := "Node" } (by decide) (by decide) rfl rfl⟩

/-- C3, the code at the failing input: when the override of a schema type has the
empty package, `FindGoType` returns neither object nor error, `boundType` stays nil,
and `Ref` returns the modifier prefix followed by the rendering of the nil type,
whatever the override names. -/
theorem Ref_empty_package {Ty : Type} (r : Renderer Ty) (t : ASTType) (name typ : String)
    (d : Definition) (entry : TypeMapEntry) (hname : t.Name = some name)
    (hd : r.Schema.Types.lookup name = some d)
    (hentry : r.Config.Models.lookup name = some entry)
    (hpkg : r.PkgAndType entry.Model = ("", typ)) :
    r.Ref t = (r.TypeString none r.qualifier).map fun s =>
      mods.String (if d.Kind = DefinitionKind.Interface then mods.PopPtr (typeModifiersGQL t)
        else typeModifiersGQL t) ++ s := by
  simp only [Renderer.Ref, hname, hd, Config.IsDefined, hentry, Config.modelOf, hpkg,
    Renderer.boundType, Renderer.FindGoType, Option.bind_eq_bind, Option.some_bind,
    Option.isSome_some, Bool.not_true, Option.getD_some, if_true, Bool.false_eq_true, if_false]
  change (r.TypeString none r.qualifier).bind _ = _
  cases r.TypeString none r.qualifier <;> rfl

theorem Ref_empty_package_witness :
    exampleRenderer.Ref (.named "Map" true) = some "<nil>" :=
  (Ref_empty_package exampleRenderer (.named "Map" true) "Map" "map[string]interface\x7b\x7d"
    { Kind := DefinitionKind.Scalar, Name := "Map" } { Model := "map[string]interface\x7b\x7d" }
    (by decide) (by decide)
    (by decide) rfl).trans (by decide)

/-! ### `Unmarshal` and `Marshal` -/

/-- C7: with no modifiers and no alias wrapper, `Unmarshal(result, raw)` is exactly
`result = raw.(map[string]interface{})` for the map scalar, otherwise
`result, err = <PkgDot>Unmarshal<GoType>(raw)` of the marshaler when one is set, and
otherwise `err = (&result).UnmarshalGQL(raw)`. -/
theorem Unmarshal_base_case (imports : Imports) (t : TypeReference) (d : TypeDefinition)
    (result raw : String) (hd : t.Definition = some d) (hm : t.Modifiers = [])
    (ha : t.AliasedType = none) :
    t.Unmarshal imports result raw = some
      (if d.GoType = "map[string]interface\x7b\x7d" then
        result ++ " = " ++ raw ++ ".(map[string]interface\x7b\x7d)"
      else match d.Marshaler with
        | some m =>
          result ++ ", err = " ++ m.PkgDot imports ++ "Unmarshal" ++ m.GoType ++ "(" ++ raw ++ ")"
        | none => "err = (&" ++ result ++ ").UnmarshalGQL(" ++ raw ++ ")") := by
  simp [TypeReference.Unmarshal, TypeReference.unmarshal, hd, hm, ha, tplBase]

theorem Unmarshal_base_case_witness :
    TypeReference.Unmarshal exampleImports ⟨some timeDefinition, [], none, none⟩ "res" "v" =
      some "res, err = graphql.UnmarshalTime(v)" :=
  (Unmarshal_base_case exampleImports ⟨some timeDefinition, [], none, none⟩ timeDefinition
    "res" "v" rfl rfl rfl).trans (by decide)

/-- C8: `Marshal(val)` is `return <PkgDot>Marshal<GoType>(v)` when the definition has
a marshaler and `return v` otherwise, where `v` is `val`, wrapped as
`<Definition.GoType>(val)` when an alias is set; the text does not depend on
`Modifiers`. -/
theorem Marshal_eq (imports : Imports) (t : TypeReference) (d : TypeDefinition) (val : String)
    (hd : t.Definition = some d) :
    t.Marshal imports val = some
        (match d.Marshaler with
          | some m =>
            "return " ++ m.PkgDot imports ++ "Marshal" ++ m.GoType ++ "(" ++
              (if t.AliasedType = none then val else d.GoType ++ "(" ++ val ++ ")") ++ ")"
          | none =>
            "return " ++ (if t.AliasedType = none then val else d.GoType ++ "(" ++ val ++ ")")) ∧
      ∀ ms : List String,
        TypeReference.Marshal imports { t with Modifiers := ms } val = t.Marshal imports val := by
  constructor
  · cases ha : t.AliasedType <;> cases hmar : d.Marshaler <;>
      simp [TypeReference.Marshal, hd, ha, hmar]
  · intro ms
    simp [TypeReference.Marshal]

theorem Marshal_eq_witness :
    TypeReference.Marshal exampleImports ⟨some timeDefinition, ["[]", "*"], none, none⟩ "v" =
        some "return graphql.MarshalTime(v)" ∧
      TypeReference.Marshal exampleImports ⟨some timeDefinition, [], none, none⟩ "v" =
        TypeReference.Marshal exampleImports ⟨some timeDefinition, ["[]", "*"], none, none⟩ "v" :=
  ⟨(Marshal_eq exampleImports ⟨some timeDefinition, ["[]", "*"], none, none⟩ timeDefinition "v"
      rfl).1.trans (by decide),
    (Marshal_eq exampleImports ⟨some timeDefinition, ["[]", "*"], none, none⟩ timeDefinition "v"
      rfl).2 []⟩

/-- C9, as stated, fails: for the map scalar with its marshaler recorded, `Marshal`
emits a call to `MarshalMap` instead of returning the value directly. -/
theorem Marshal_map_scalar_calls_marshaler :
    TypeReference.Marshal exampleImports ⟨some mapDefinition, [], none, none⟩ "v" =
        some "return graphql.MarshalMap(v)" ∧
      TypeReference.Marshal exampleImports ⟨some mapDefinition, [], none, none⟩ "v" ≠
        some "return v" := by
  decide

/-- For the map scalar the text of `unmarshal` does not depend on the recorded
marshaler, at any recursion level. -/
theorem unmarshal_map_scalar_marshaler_irrelevant (imports : Imports) (t : TypeReference)
    (d : TypeDefinition) (m' : Option TypeImplementation)
    (hg : d.GoType = "map[string]interface\x7b\x7d") (ms : List String) :
    ∀ (result raw : String) (depth : Nat),
      TypeReference.unmarshal imports { t with Definition := some { d with Marshaler := m' } }
          result raw ms depth =
        TypeReference.unmarshal imports { t with Definition := some d } result raw ms depth := by
  induction ms with
  | nil =>
    intro result raw depth
    simp [TypeReference.unmarshal, tplBase, hg, TypeImplementation.FullName]
  | cons m rest ih =>
    intro result raw depth
    simp only [TypeReference.unmarshal, ih]
    simp [tplBase, hg, TypeImplementation.FullName]

theorem isDigit_iff (c : Char) : c.isDigit = true ↔ 48 ≤ c.toNat ∧ c.toNat ≤ 57 := by
  simp [Char.isDigit, Char.toNat, UInt32.le_def, BitVec.le_def]
  rfl

theorem hasLetterMU_append (a b : String) :
    hasLetterMU (a ++ b) = (hasLetterMU a || hasLetterMU b) := by
  simp [hasLetterMU, String.data_append, List.any_append]

theorem hasLetterMU_join (l : List String) (h : ∀ s ∈ l, hasLetterMU s = false) :
    hasLetterMU (String.join l) = false := by
  rw [String.join_eq]
  simp only [hasLetterMU, String.toList, List.any_eq_false, List.mem_flatten, List.mem_map,
    forall_exists_index, and_imp] at h ⊢
  rintro c x s hs rfl hc
  exact h s hs c hc

theorem mem_toDigitsCore (fuel : Nat) : ∀ (n : Nat) (ds : List Char) (c : Char),
    c ∈ Nat.toDigitsCore 10 fuel n ds → c ∈ ds ∨ c.isDigit = true := by
  induction fuel with
  | zero => intro n ds c h; simp [Nat.toDigitsCore] at h; exact Or.inl h
  | succ fuel ih =>
    intro n ds c h
    have hdig : (Nat.digitChar (n % 10)).isDigit = true := by
      have : n % 10 < 10 := Nat.mod_lt _ (by decide)
      interval_cases (n % 10) <;> rfl
    simp only [Nat.toDigitsCore] at h
    split at h
    · rcases List.mem_cons.mp h with rfl | h
      · exact Or.inr hdig
      · exact Or.inl h
    · rcases ih _ _ c h with h | h
      · rcases List.mem_cons.mp h with rfl | h
        · exact Or.inr hdig
        · exact Or.inl h
      · exact Or.inr h

/-- The decimal rendering of a number consists of digits. -/
theorem Itoa_isDigit (n : Nat) : ∀ c ∈ (Itoa n).toList, c.isDigit = true := by
  intro c hc
  have : c ∈ Nat.toDigits 10 n := by simpa [Itoa, Nat.repr, List.asString] using hc
  rcases mem_toDigitsCore _ _ _ _ this with h | h
  · cases h
  · exact h

theorem hasLetterMU_Itoa (n : Nat) : hasLetterMU (Itoa n) = false := by
  simp only [hasLetterMU, List.any_eq_false]
  intro c hc
  have := Itoa_isDigit n c hc
  rw [isDigit_iff] at this
  have hM : c ≠ 'M' := by rintro rfl; simp at this
  have hU : c ≠ 'U' := by rintro rfl; simp at this
  simp [hM, hU]

theorem not_mentionsMarshal (s : String) (h : hasLetterMU s = false) : ¬ mentionsMarshal s := by
  simp only [hasLetterMU, List.any_eq_false] at h
  rintro (hm | hu)
  · have := h 'M' (hm.subset (by simp))
    simp at this
  · have := h 'U' (hu.subset (by simp))
    simp at this

theorem hasLetterMU_tplPtr (ptr mods fullName raw next result : String) :
    hasLetterMU (tplPtr ptr mods fullName raw next result) =
      (hasLetterMU ptr || hasLetterMU mods || hasLetterMU fullName || hasLetterMU raw ||
        hasLetterMU next || hasLetterMU result) := by
  have h₁ : hasLetterMU "var " = false := by decide
  have h₂ : hasLetterMU " " = false := by decide
  have h₃ : hasLetterMU "\n\t\t\tif " = false := by decide
  have h₄ : hasLetterMU " != nil \x7b\n\t\t\t\t" = false := by decide
  have h₅ : hasLetterMU "\n\t\t\t\t" = false := by decide
  have h₆ : hasLetterMU " = &" = false := by decide
  have h₇ : hasLetterMU "\x7d\n\t\t" = false := by decide
  simp only [tplPtr, hasLetterMU_append, h₁, h₂, h₃, h₄, h₅, h₆, h₇, Bool.or_false,
    Bool.false_or]
  cases hasLetterMU ptr <;> cases hasLetterMU mods <;> cases hasLetterMU fullName <;>
    cases hasLetterMU raw <;> cases hasLetterMU next <;> cases hasLetterMU result <;> rfl

theorem hasLetterMU_tplList (rawSlice raw result type index next : String) :
    hasLetterMU (tplList rawSlice raw result type index next) =
      (hasLetterMU rawSlice || hasLetterMU raw || hasLetterMU result || hasLetterMU type ||
        hasLetterMU index || hasLetterMU next) := by
  have h₁ : hasLetterMU "var " = false := by decide
  have h₂ : hasLetterMU " []interface\x7b\x7d\n\t\t\tif " = false := by decide
  have h₃ : hasLetterMU " != nil \x7b\n\t\t\t\tif tmp1, ok := " = false := by decide
  have h₄ : hasLetterMU ".([]interface\x7b\x7d); ok \x7b\n\t\t\t\t\t" = false := by decide
  have h₅ : hasLetterMU " = tmp1\n\t\t\t\t\x7d else \x7b\n\t\t\t\t\t" = false := by decide
  have h₆ : hasLetterMU " = []interface\x7b\x7d\x7b " = false := by decide
  have h₇ : hasLetterMU " \x7d\n\t\t\t\t\x7d\n\t\t\t\x7d\n\t\t\t" = false := by decide
  have h₈ : hasLetterMU " = make(" = false := by decide
  have h₉ : hasLetterMU ", len(" = false := by decide
  have h₁₀ : hasLetterMU "))\n\t\t\tfor " = false := by decide
  have h₁₁ : hasLetterMU " := range " = false := by decide
  have h₁₂ : hasLetterMU " \x7b\n\t\t\t\t" = false := by decide
  have h₁₃ : hasLetterMU "\x7d" = false := by decide
  simp only [tplList, hasLetterMU_append, h₁, h₂, h₃, h₄, h₅, h₆, h₇, h₈, h₉, h₁₀, h₁₁, h₁₂,
    h₁₃, Bool.or_false, Bool.false_or]
  cases hasLetterMU rawSlice <;> cases hasLetterMU raw <;> cases hasLetterMU result <;>
    cases hasLetterMU type <;> cases hasLetterMU index <;> cases hasLetterMU next <;> rfl

/-- The base case of `unmarshal` for the map scalar: the direct assignment of the raw
value, through `castTmp` and a conversion when the reference is aliased. -/
theorem tplBase_map_scalar (imports : Imports) (d : TypeDefinition)
    (aliased : Option TypeImplementation) (result raw : String)
    (hg : d.GoType = "map[string]interface\x7b\x7d") :
    tplBase imports d aliased result (if aliased.isSome then "castTmp" else result) raw =
      match aliased with
      | none => result ++ " = " ++ raw ++ ".(map[string]interface\x7b\x7d)"
      | some a =>
        "\n\t\t\tvar castTmp " ++ d.toTypeImplementation.FullName imports ++ "\n\t\t" ++
          ("castTmp = " ++ raw ++ ".(map[string]interface\x7b\x7d)") ++
          ("\n\t\t\t" ++ result ++ " = " ++ a.FullName imports ++ "(castTmp)") := by
  cases aliased with
  | none => simp [tplBase, hg]
  | some a => simp [tplBase, hg, String.append_assoc]

theorem hasLetterMU_map_base (imports : Imports) (d : TypeDefinition)
    (aliased : Option TypeImplementation) (result raw : String)
    (hg : d.GoType = "map[string]interface\x7b\x7d")
    (hfull : hasLetterMU (d.toTypeImplementation.FullName imports) = false)
    (halias : ∀ a, aliased = some a → hasLetterMU (a.FullName imports) = false)
    (hres : hasLetterMU result = false) (hraw : hasLetterMU raw = false) :
    hasLetterMU (tplBase imports d aliased result
      (if aliased.isSome then "castTmp" else result) raw) = false := by
  rw [tplBase_map_scalar imports d aliased result raw hg]
  have h₁ : hasLetterMU " = " = false := by decide
  have h₂ : hasLetterMU ".(map[string]interface\x7b\x7d)" = false := by decide
  have h₃ : hasLetterMU "\n\t\t\tvar castTmp " = false := by decide
  have h₄ : hasLetterMU "\n\t\t" = false := by decide
  have h₅ : hasLetterMU "castTmp = " = false := by decide
  have h₆ : hasLetterMU "\n\t\t\t" = false := by decide
  have h₇ : hasLetterMU "(castTmp)" = false := by decide
  cases aliased with
  | none => simp only [hasLetterMU_append, hres, hraw, h₁, h₂, Bool.or_false]
  | some a =>
    simp only [hasLetterMU_append, hres, hraw, hfull, halias a rfl, h₁, h₂, h₃, h₄, h₅, h₆, h₇,
      Bool.or_false]

/-- For the map scalar no recursion level of `unmarshal` writes the letter `M` or `U`
unless a name it is given contains one. -/
theorem unmarshal_map_scalar_letters (imports : Imports) (t : TypeReference)
    (d : TypeDefinition) (hd : t.Definition = some d)
    (hg : d.GoType = "map[string]interface\x7b\x7d")
    (hfull : hasLetterMU (d.toTypeImplementation.FullName imports) = false)
    (halias : ∀ a, t.AliasedType = some a → hasLetterMU (a.FullName imports) = false) :
    ∀ (ms : List String), (∀ m ∈ ms, hasLetterMU m = false) →
      ∀ (result raw : String) (depth : Nat), hasLetterMU result = false →
        hasLetterMU raw = false →
        ∃ text, t.unmarshal imports result raw ms depth = some text ∧
          hasLetterMU text = false := by
  intro ms
  induction ms with
  | nil =>
    intro _ result raw depth hres hraw
    exact ⟨_, by simp only [TypeReference.unmarshal, hd]; rfl,
      hasLetterMU_map_base imports d t.AliasedType result raw hg hfull halias hres hraw⟩
  | cons m rest ih =>
    intro hms result raw depth hres hraw
    have hrest : ∀ m' ∈ rest, hasLetterMU m' = false :=
      fun m' hm' => hms m' (List.mem_cons_of_mem _ hm')
    have hptr : hasLetterMU ("ptr" ++ Itoa depth) = false := by
      rw [hasLetterMU_append, hasLetterMU_Itoa]; decide
    have hrawIf : hasLetterMU ("rawIf" ++ Itoa depth) = false := by
      rw [hasLetterMU_append, hasLetterMU_Itoa]; decide
    have hidx : hasLetterMU ("idx" ++ Itoa depth) = false := by
      rw [hasLetterMU_append, hasLetterMU_Itoa]; decide
    have hb₁ : hasLetterMU "[" = false := by decide
    have hb₂ : hasLetterMU "]" = false := by decide
    by_cases hm : m = modPtr
    · obtain ⟨next, hnext, hl⟩ := ih hrest ("ptr" ++ Itoa depth) raw (depth + 1) hptr hraw
      refine ⟨_, by simp only [TypeReference.unmarshal, hm, if_true, hnext, hd]; rfl, ?_⟩
      rw [hasLetterMU_tplPtr, hptr, hasLetterMU_join rest hrest, hfull, hraw, hl, hres]
      rfl
    · by_cases hm' : m = modList
      · subst hm'
        obtain ⟨next, hnext, hl⟩ := ih hrest (result ++ "[" ++ ("idx" ++ Itoa depth) ++ "]")
          ("rawIf" ++ Itoa depth ++ "[" ++ ("idx" ++ Itoa depth) ++ "]") (depth + 1)
          (by simp only [hasLetterMU_append, hres, hidx, hb₁, hb₂, Bool.or_false])
          (by simp only [hasLetterMU_append, hrawIf, hidx, hb₁, hb₂, Bool.or_false])
        refine ⟨_, by simp only [TypeReference.unmarshal, hm, if_false, if_true, hnext, hd]; rfl,
          ?_⟩
        rw [hasLetterMU_tplList, hasLetterMU_append (String.join _),
          hasLetterMU_join (modList :: rest) hms, hrawIf, hraw, hres, hfull, hidx, hl]
        rfl
      · exact ⟨_, by simp only [TypeReference.unmarshal, hm, hm', if_false, hd]; rfl,
          hasLetterMU_map_base imports d t.AliasedType result raw hg hfull halias hres hraw⟩

/-- C9, amended: for a reference whose `Definition.GoType` is
`map[string]interface{}`, with any modifiers and with or without alias: the text of
`Unmarshal` is the same whatever marshaler is recorded; where the modifiers are used
up the text is the direct assignment `result = raw.(map[string]interface{})`, through
`castTmp` and a conversion when the reference is aliased; the whole text mentions
neither `Marshal` nor `Unmarshal` when no name it is given contains the letter `M` or
`U`.  `Marshal` returns the value directly when no marshaler is recorded, and emits
the call `<PkgDot>Marshal<GoType>(v)` when one is. -/
theorem map_scalar_passthrough (imports : Imports) (t : TypeReference) (d : TypeDefinition)
    (hd : t.Definition = some d) (hg : d.GoType = "map[string]interface\x7b\x7d") :
    (∀ (m' : Option TypeImplementation) (result raw : String),
        TypeReference.Unmarshal imports { t with Definition := some { d with Marshaler := m' } }
          result raw = t.Unmarshal imports result raw) ∧
      (∀ (ms : List String) (result raw : String) (depth : Nat),
        (∀ m rest, ms = m :: rest → m ≠ modPtr ∧ m ≠ modList) →
        t.unmarshal imports result raw ms depth = some
          (match t.AliasedType with
            | none => result ++ " = " ++ raw ++ ".(map[string]interface\x7b\x7d)"
            | some a =>
              "\n\t\t\tvar castTmp " ++ d.toTypeImplementation.FullName imports ++ "\n\t\t" ++
                ("castTmp = " ++ raw ++ ".(map[string]interface\x7b\x7d)") ++
                ("\n\t\t\t" ++ result ++ " = " ++ a.FullName imports ++ "(castTmp)"))) ∧
      (hasLetterMU (d.toTypeImplementation.FullName imports) = false →
        (∀ a, t.AliasedType = some a → hasLetterMU (a.FullName imports) = false) →
        (∀ m ∈ t.Modifiers, hasLetterMU m = false) →
        ∀ result raw : String, hasLetterMU result = false → hasLetterMU raw = false →
          ∃ text, t.Unmarshal imports result raw = some text ∧ ¬ mentionsMarshal text) ∧
      (d.Marshaler = none → ∀ val : String,
        t.Marshal imports val = some ("return " ++
          (if t.AliasedType = none then val else d.GoType ++ "(" ++ val ++ ")"))) ∧
      (∀ m : TypeImplementation, d.Marshaler = some m → ∀ val : String,
        t.Marshal imports val = some ("return " ++ m.PkgDot imports ++ "Marshal" ++ m.GoType ++
          "(" ++ (if t.AliasedType = none then val else d.GoType ++ "(" ++ val ++ ")") ++ ")")) := by
  have ht : t = { t with Definition := some d } := by
    cases t; simp_all
  refine ⟨?_, ?_, ?_, ?_, ?_⟩
  · intro m' result raw
    rw [ht]
    exact unmarshal_map_scalar_marshaler_irrelevant imports t d m' hg _ result raw 1
  · intro ms result raw depth hms
    rw [← tplBase_map_scalar imports d t.AliasedType result raw hg]
    cases ms with
    | nil => simp only [TypeReference.unmarshal, hd]; rfl
    | cons m rest =>
      obtain ⟨h₁, h₂⟩ := hms m rest rfl
      simp only [TypeReference.unmarshal, h₁, h₂, if_false, hd]
      rfl
  · intro hfull halias hms result raw hres hraw
    obtain ⟨text, htext, hl⟩ := unmarshal_map_scalar_letters imports t d hd hg hfull halias
      t.Modifiers hms result raw 1 hres hraw
    exact ⟨text, htext, not_mentionsMarshal text hl⟩
  · intro hmar val
    cases ha : t.AliasedType <;> simp [TypeReference.Marshal, hd, ha, hmar]
  · intro m hmar val
    cases ha : t.AliasedType <;> simp [TypeReference.Marshal, hd, ha, hmar]

theorem map_scalar_passthrough_witness :
    TypeReference.Unmarshal exampleImports ⟨some mapDefinition, [], none, none⟩ "res" "v" =
        some "res = v.(map[string]interface\x7b\x7d)" ∧
      TypeReference.Unmarshal exampleImports
          ⟨some { mapDefinition with Marshaler := none }, [], none, none⟩ "res" "v" =
        TypeReference.Unmarshal exampleImports ⟨some mapDefinition, [], none, none⟩ "res" "v" ∧
      (∃ text, TypeReference.Unmarshal exampleImports
          ⟨some mapDefinition, ["*", "[]"], none, some ⟨"Attrs", "", true⟩⟩ "res" "v" =
            some text ∧ ¬ mentionsMarshal text) ∧
      TypeReference.Marshal exampleImports ⟨some mapDefinition, [], none, none⟩ "v" =
        some "return graphql.MarshalMap(v)" :=
  have h := map_scalar_passthrough exampleImports ⟨some mapDefinition, [], none, none⟩
    mapDefinition rfl rfl
  have h' := map_scalar_passthrough exampleImports
    ⟨some mapDefinition, ["*", "[]"], none, some ⟨"Attrs", "", true⟩⟩ mapDefinition rfl rfl
  ⟨(h.2.1 [] "res" "v" 1 (fun _ _ hc => by cases hc)).trans (by decide), h.1 none "res" "v",
    h'.2.2.1 (by decide) (fun a ha => by cases ha; decide) (by decide) "res" "v" (by decide)
      (by decide),
    (h.2.2.2.2 ⟨"Map", "github.com/99designs/gqlgen/graphql", true⟩ rfl "v").trans (by decide)⟩

/-! ### Names declared by `Unmarshal` -/

theorem digitChar_toNat_sub (n : Nat) (h : n < 10) : (Nat.digitChar n).toNat - 48 = n := by
  interval_cases n <;> rfl

theorem toDigitsCore_append (fuel : Nat) : ∀ (n : Nat) (ds : List Char),
    Nat.toDigitsCore 10 fuel n ds = Nat.toDigitsCore 10 fuel n [] ++ ds := by
  induction fuel with
  | zero => intro n ds; simp [Nat.toDigitsCore]
  | succ fuel ih =>
    intro n ds
    simp only [Nat.toDigitsCore]
    split
    · simp
    · rw [ih (n / 10) (_ :: ds), ih (n / 10) [_]]
      simp

theorem decimalValue_append (l : List Char) (c : Char) :
    decimalValue (l ++ [c]) = decimalValue l * 10 + (c.toNat - 48) := by
  simp [decimalValue, List.foldl_append]

theorem decimalValue_toDigitsCore (fuel : Nat) : ∀ n : Nat, n < fuel →
    decimalValue (Nat.toDigitsCore 10 fuel n []) = n := by
  induction fuel with
  | zero => intro n h; omega
  | succ fuel ih =>
    intro n h
    simp only [Nat.toDigitsCore]
    split
    · have : n < 10 := by omega
      simp [decimalValue, digitChar_toNat_sub (n % 10) (Nat.mod_lt _ (by decide))]
      omega
    · rw [toDigitsCore_append, decimalValue_append, ih (n / 10) (by omega),
        digitChar_toNat_sub (n % 10) (Nat.mod_lt _ (by decide))]
      omega

/-- Distinct numbers have distinct decimal renderings. -/
theorem Itoa_injective : Function.Injective Itoa := by
  intro a b h
  have h' : Nat.toDigits 10 a = Nat.toDigits 10 b := by
    have := congrArg String.data h
    simpa [Itoa, Nat.repr, List.asString] using this
  have ha := decimalValue_toDigitsCore (a + 1) a (by omega)
  have hb := decimalValue_toDigitsCore (b + 1) b (by omega)
  simp only [Nat.toDigits] at h'
  rw [← ha, ← hb, h']

theorem append_Itoa_inj (p : String) (a b : Nat) (h : p ++ Itoa a = p ++ Itoa b) : a = b := by
  apply Itoa_injective
  have := congrArg String.data h
  simp only [String.data_append, List.append_cancel_left_eq] at this
  exact String.ext this

set_option maxRecDepth 100000

/-- A name suffixed with one depth differs from every name of another depth and from
the fixed names. -/
theorem suffixed_name_ne (a b : Nat) (hne : a ≠ b) (n n' : String)
    (hn : n ∈ ["ptr" ++ Itoa a, "rawIf" ++ Itoa a, "idx" ++ Itoa a])
    (hn' : n' ∈ ["ptr" ++ Itoa b, "rawIf" ++ Itoa b, "idx" ++ Itoa b, "tmp1", "ok", "castTmp"]) :
    n ≠ n' := by
  simp only [List.mem_cons, List.mem_singleton, List.not_mem_nil, or_false] at hn hn'
  intro h
  rcases hn with rfl | rfl | rfl <;> rcases hn' with rfl | rfl | rfl | rfl | rfl | rfl <;>
    first
    | exact hne (append_Itoa_inj _ _ _ h)
    | exact absurd (congrArg String.data h) (by simp [String.data_append])

theorem tokens_space (s : Char) (rest : List Char) (hs : isSpace s = true) :
    tokens (s :: rest) = tokens rest := by
  simp [tokens, hs]

theorem tokens_spaces (sp rest : List Char) (hs : ∀ c ∈ sp, isSpace c = true) :
    tokens (sp ++ rest) = tokens rest := by
  induction sp with
  | nil => rfl
  | cons s sp ih =>
    rw [List.cons_append, tokens_space s _ (hs s (List.mem_cons_self _ _)),
      ih (fun c hc => hs c (List.mem_cons_of_mem _ hc))]

theorem tokens_ne_nil (c : Char) (cs : List Char) (hc : isSpace c = false) :
    tokens (c :: cs) ≠ [] := by
  cases cs with
  | nil => simp [tokens, hc]
  | cons c' cs =>
    simp only [tokens, hc, Bool.false_eq_true, if_false]
    split
    · simp
    · split <;> simp

/-- A word in front of a white space is the first token. -/
theorem tokens_word (w : List Char) (s : Char) (rest : List Char) (hw : w ≠ [])
    (hfree : ∀ c ∈ w, isSpace c = false) (hs : isSpace s = true) :
    tokens (w ++ s :: rest) = w :: tokens rest := by
  induction w with
  | nil => exact absurd rfl hw
  | cons c w ih =>
    have hc : isSpace c = false := hfree c (List.mem_cons_self _ _)
    cases w with
    | nil => simp [tokens, hc, hs]
    | cons c' w =>
      have hc' : isSpace c' = false := hfree c' (by simp)
      have := ih (by simp) (fun x hx => hfree x (List.mem_cons_of_mem _ hx))
      simp only [List.cons_append] at this ⊢
      simp only [tokens, hc, hc', Bool.false_eq_true, if_false] at this ⊢
      rw [this]

/-- A word at the end of the text is the only token. -/
theorem tokens_last_word (w : List Char) (hw : w ≠ []) (hfree : ∀ c ∈ w, isSpace c = false) :
    tokens w = [w] := by
  induction w with
  | nil => exact absurd rfl hw
  | cons c w ih =>
    have hc : isSpace c = false := hfree c (List.mem_cons_self _ _)
    cases w with
    | nil => simp [tokens, hc]
    | cons c' w =>
      have hc' : isSpace c' = false := hfree c' (by simp)
      have := ih (by simp) (fun x hx => hfree x (List.mem_cons_of_mem _ hx))
      simp only [tokens, hc, hc', Bool.false_eq_true, if_false] at this ⊢
      rw [this]

/-- Tokens do not reach across white space. -/
theorem tokens_append_space (x : List Char) (s : Char) (y : List Char) (hs : isSpace s = true) :
    tokens (x ++ s :: y) = tokens x ++ tokens y := by
  induction x with
  | nil => simp [tokens, hs]
  | cons c x ih =>
    by_cases hc : isSpace c = true
    · simp only [List.cons_append, tokens_space c _ hc, ih]
    · have hc : isSpace c = false := by simpa using hc
      cases x with
      | nil => simp [tokens, hc, hs]
      | cons c' x =>
        by_cases hc' : isSpace c' = true
        · simp only [List.cons_append] at ih ⊢
          simp only [tokens, hc, hc', Bool.false_eq_true, if_false, if_true] at ih ⊢
          rw [ih]
          rfl
        · have hc' : isSpace c' = false := by simpa using hc'
          obtain ⟨w, ws, hws⟩ := List.exists_cons_of_ne_nil (tokens_ne_nil c' x hc')
          simp only [List.cons_append] at ih ⊢
          have h₁ : tokens (c :: c' :: (x ++ s :: y)) =
              match tokens (c' :: (x ++ s :: y)) with
              | w :: ws => (c :: w) :: ws
              | [] => [[c]] := by
            simp only [tokens, hc, hc', Bool.false_eq_true, if_false]
          have h₂ : tokens (c :: c' :: x) =
              match tokens (c' :: x) with
              | w :: ws => (c :: w) :: ws
              | [] => [[c]] := by
            simp only [tokens, hc, hc', Bool.false_eq_true, if_false]
          rw [h₁, h₂, ih, hws]
          rfl

theorem foldr_append (w : List (List Char)) (acc : List Char) :
    w.foldr (fun p acc => p ++ acc) acc = w.flatten ++ acc := by
  induction w with
  | nil => rfl
  | cons p w ih => simp [ih]

/-- The tokens of a text written as words: the words, then the tokens of the rest. -/
theorem tokens_render (segs : List (List (List Char) × List Char)) (rest : List Char)
    (h : ∀ seg ∈ segs, seg.1.flatten ≠ [] ∧ (∀ c ∈ seg.1.flatten, isSpace c = false) ∧
      seg.2 ≠ [] ∧ ∀ c ∈ seg.2, isSpace c = true) :
    tokens (render segs rest) = segs.map (fun seg => seg.1.flatten) ++ tokens rest := by
  induction segs with
  | nil => rfl
  | cons seg segs ih =>
    obtain ⟨w, sp⟩ := seg
    obtain ⟨h₁, h₂, h₃, h₄⟩ := h (w, sp) (List.mem_cons_self _ _)
    obtain ⟨s, sp', rfl⟩ := List.exists_cons_of_ne_nil h₃
    simp only [render, foldr_append, List.map_cons, List.cons_append]
    rw [tokens_word _ s _ h₁ h₂ (h₄ s (List.mem_cons_self _ _)),
      tokens_spaces sp' _ (fun c hc => h₄ c (List.mem_cons_of_mem _ hc)),
      ih (fun seg hseg => h seg (List.mem_cons_of_mem _ hseg))]

theorem tplPtr_text (ptr mods fullName raw next result : String) (sfx : List Char) :
    (tplPtr ptr mods fullName raw next result).toList ++ sfx =
      render
        [(["var".toList], [' ']), ([ptr.toList], [' ']),
          ([mods.toList, fullName.toList], "\n\t\t\t".toList), (["if".toList], [' ']),
          ([raw.toList], [' ']), (["!=".toList], [' ']), (["nil".toList], [' ']),
          (["\x7b".toList], "\n\t\t\t\t".toList)]
        (next.toList ++ '\n' :: ("\t\t\t\t".toList ++
          render
            [([result.toList], [' ']), (["=".toList], [' ']),
              (["&".toList, ptr.toList, "\x7d".toList], "\n\t\t".toList)] sfx)) := by
  simp only [tplPtr, String.toList, String.data_append, render, List.foldr, List.append_assoc]
  rfl

/-- A token that is neither `var` nor followed by `:=` declares nothing. -/
theorem declaredNames_skip (t : List Char) (R : List (List Char)) (ht : t ≠ "var".toList)
    (h₁ : R.head? ≠ some ":=".toList)
    (h₂ : R[1]? ≠ some ":=".toList ∨ t.getLast? ≠ some ',') :
    declaredNames (t :: R) = declaredNames R := by
  have h₂' : ¬ (R[1]? = some ":=".toList ∧ t.getLast? = some ',') := by
    rintro ⟨ha, hb⟩
    rcases h₂ with h | h
    · exact h ha
    · exact h hb
  simp only [declaredNames, ht, h₁, h₂', if_false, List.nil_append]

/-- Tokens among which none is `var` or `:=` declare nothing, also in front of further
tokens that do not start with `:=`. -/
theorem declaredNames_inert (T R : List (List Char))
    (hT : ∀ t ∈ T, t ≠ "var".toList ∧ t ≠ ":=".toList)
    (h₁ : R.head? ≠ some ":=".toList)
    (h₂ : R[1]? ≠ some ":=".toList ∨ ∀ l, T.getLast? = some l → l.getLast? ≠ some ',') :
    declaredNames (T ++ R) = declaredNames R := by
  induction T with
  | nil => rfl
  | cons t T ih =>
    have ht := hT t (List.mem_cons_self _ _)
    have hT' : ∀ t ∈ T, t ≠ "var".toList ∧ t ≠ ":=".toList :=
      fun x hx => hT x (List.mem_cons_of_mem _ hx)
    rw [List.cons_append]
    cases T with
    | nil =>
      rw [List.nil_append]
      refine declaredNames_skip t R ht.1 h₁ ?_
      rcases h₂ with h | h
      · exact Or.inl h
      · exact Or.inr (h t rfl)
    | cons t' T =>
      have ht' := hT t' (by simp)
      rw [declaredNames_skip t _ ht.1 (by simpa using ht'.2) ?_]
      · refine ih hT' ?_
        rcases h₂ with h | h
        · exact Or.inl h
        · exact Or.inr (fun l hl => h l (by simpa [List.getLast?_cons_cons] using hl))
      · left
        cases T with
        | nil =>
          rw [List.head?_eq_getElem?] at h₁
          simpa using h₁
        | cons t'' T =>
          have := hT t'' (by simp)
          simpa using this.2

/-- The declaration `var x`. -/
theorem declaredNames_var (x : List Char) (R : List (List Char)) (hx : x ≠ "var".toList)
    (h₁ : R.head? ≠ some ":=".toList)
    (h₂ : R[1]? ≠ some ":=".toList ∨ x.getLast? ≠ some ',') :
    declaredNames ("var".toList :: x :: R) = x :: declaredNames R := by
  rw [declaredNames, if_pos rfl, declaredNames_skip x R hx h₁ h₂]
  rfl

/-- The declaration `x :=`. -/
theorem declaredNames_define (x : List Char) (R : List (List Char)) (hx : x ≠ "var".toList)
    (h₁ : R.head? ≠ some ":=".toList) :
    declaredNames (x :: ":=".toList :: R) = x :: declaredNames R := by
  have h := declaredNames_skip ":=".toList R (by decide) h₁ (Or.inr (by decide))
  rw [declaredNames, h]
  simp only [hx, if_false, List.head?_cons, if_true, List.singleton_append]

/-- The declaration `tmp1, ok :=`. -/
theorem declaredNames_tmp1 (R : List (List Char)) (h₁ : R.head? ≠ some ":=".toList) :
    declaredNames ("tmp1,".toList :: "ok".toList :: ":=".toList :: R) =
      "tmp1".toList :: "ok".toList :: declaredNames R := by
  have h := declaredNames_define "ok".toList R (by decide) h₁
  have hv : ¬ ("tmp1,".toList = "var".toList) := by decide
  have ho : ¬ (some "ok".toList = some ":=".toList) := by decide
  have hc : "tmp1,".toList.getLast? = some ',' := by decide
  rw [declaredNames, h]
  simp only [hv, if_false, List.head?_cons, ho, List.getElem?_cons_succ, List.getElem?_cons_zero,
    hc, and_self, if_true, List.singleton_append]
  rfl

theorem spaceFree_append (a b : List Char) (ha : spaceFree a) (hb : spaceFree b) :
    spaceFree (a ++ b) := by
  intro c hc
  rcases List.mem_append.mp hc with h | h
  · exact ha c h
  · exact hb c h

theorem spaceFree_Itoa (n : Nat) : spaceFree (Itoa n).toList := by
  intro c hc
  have := Itoa_isDigit n c hc
  rw [isDigit_iff] at this
  have h₁ : c ≠ ' ' := by rintro rfl; simp at this
  have h₂ : c ≠ '\n' := by rintro rfl; simp at this
  have h₃ : c ≠ '\t' := by rintro rfl; simp at this
  have h₄ : c ≠ '\r' := by rintro rfl; simp at this
  simp [isSpace, h₁, h₂, h₃, h₄]

theorem spaceFree_replicate (k : Nat) : spaceFree (List.replicate k '\x7d') := by
  intro c hc
  rw [List.eq_of_mem_replicate hc]
  decide

/-- A token with a character that occurs neither in `var` nor in `:=` is neither. -/
theorem ne_keyword_of_mem (l : List Char) (c : Char) (hc : c ∈ l)
    (h : c ∉ ['v', 'a', 'r', ':', '=']) : l ≠ "var".toList ∧ l ≠ ":=".toList := by
  constructor
  · rintro rfl
    simp only [String.toList] at hc
    simp only [List.mem_cons, List.mem_singleton, List.not_mem_nil, or_false, not_or] at h hc
    rcases hc with rfl | rfl | rfl <;> simp at h
  · rintro rfl
    simp only [String.toList] at hc
    simp only [List.mem_cons, List.mem_singleton, List.not_mem_nil, or_false, not_or] at h hc
    rcases hc with rfl | rfl <;> simp at h

/-- A word of up to three pieces as one segment of a text. -/
theorem seg_ok (p q r : List Char) (sp : List Char) (hne : p ≠ [] ∨ q ≠ [] ∨ r ≠ [])
    (hp : spaceFree p) (hq : spaceFree q) (hr : spaceFree r)
    (hsp : sp ≠ [] ∧ ∀ c ∈ sp, isSpace c = true) :
    (p ++ (q ++ r)) ≠ [] ∧ (∀ c ∈ p ++ (q ++ r), isSpace c = false) ∧
      sp ≠ [] ∧ ∀ c ∈ sp, isSpace c = true := by
  refine ⟨?_, spaceFree_append _ _ hp (spaceFree_append _ _ hq hr), hsp.1, hsp.2⟩
  intro h
  simp only [List.append_eq_nil] at h
  rcases hne with h' | h' | h'
  · exact h' h.1
  · exact h' h.2.1
  · exact h' h.2.2

theorem tokens_tplPtr (ptr mods fullName raw next result : String) (sfx : List Char)
    (hptr : ptr.toList ≠ [] ∧ spaceFree ptr.toList)
    (hmods : spaceFree mods.toList)
    (hfull : fullName.toList ≠ [] ∧ spaceFree fullName.toList)
    (hraw : raw.toList ≠ [] ∧ spaceFree raw.toList)
    (hres : result.toList ≠ [] ∧ spaceFree result.toList) :
    tokens ((tplPtr ptr mods fullName raw next result).toList ++ sfx) =
      "var".toList :: ptr.toList :: (mods.toList ++ fullName.toList) :: "if".toList ::
        raw.toList :: "!=".toList :: "nil".toList :: "\x7b".toList ::
        (tokens next.toList ++
          (result.toList :: "=".toList :: ("&".toList ++ (ptr.toList ++ "\x7d".toList)) ::
            tokens sfx)) := by
  rw [tplPtr_text, tokens_render, tokens_append_space _ '\n' _ rfl,
    tokens_spaces "\t\t\t\t".toList _ (by decide), tokens_render]
  · simp only [List.map, List.flatten, List.append_nil, List.cons_append, List.nil_append]
  · intro seg hseg
    simp only [List.mem_cons, List.mem_singleton, List.not_mem_nil, or_false] at hseg
    rcases hseg with rfl | rfl | rfl
    · simpa using seg_ok result.toList [] [] [' '] (Or.inl hres.1) hres.2 (by decide) (by decide)
        (by decide)
    · decide
    · simpa using seg_ok "&".toList ptr.toList "\x7d".toList "\n\t\t".toList (Or.inl (by decide))
        (by decide) hptr.2 (by decide) (by decide)
  · intro seg hseg
    simp only [List.mem_cons, List.mem_singleton, List.not_mem_nil, or_false] at hseg
    rcases hseg with rfl | rfl | rfl | rfl | rfl | rfl | rfl | rfl
    · decide
    · simpa using seg_ok ptr.toList [] [] [' '] (Or.inl hptr.1) hptr.2 (by decide) (by decide)
        (by decide)
    · simpa using seg_ok mods.toList fullName.toList [] "\n\t\t\t".toList (Or.inr (Or.inl hfull.1))
        hmods hfull.2 (by decide) (by decide)
    · decide
    · simpa using seg_ok raw.toList [] [] [' '] (Or.inl hraw.1) hraw.2 (by decide) (by decide)
        (by decide)
    · decide
    · decide
    · decide

set_option maxRecDepth 1000000 in
theorem tplList_text (rawSlice raw result type index next : String) (sfx : List Char) :
    (tplList rawSlice raw result type index next).toList ++ sfx =
      render
        [(["var".toList], [' ']), ([rawSlice.toList], [' ']),
          (["[]interface\x7b\x7d".toList], "\n\t\t\t".toList), (["if".toList], [' ']),
          ([raw.toList], [' ']), (["!=".toList], [' ']), (["nil".toList], [' ']),
          (["\x7b".toList], "\n\t\t\t\t".toList), (["if".toList], [' ']),
          (["tmp1,".toList], [' ']), (["ok".toList], [' ']), ([":=".toList], [' ']),
          ([raw.toList, ".([]interface\x7b\x7d);".toList], [' ']), (["ok".toList], [' ']),
          (["\x7b".toList], "\n\t\t\t\t\t".toList), ([rawSlice.toList], [' ']),
          (["=".toList], [' ']), (["tmp1".toList], "\n\t\t\t\t".toList),
          (["\x7d".toList], [' ']), (["else".toList], [' ']),
          (["\x7b".toList], "\n\t\t\t\t\t".toList), ([rawSlice.toList], [' ']),
          (["=".toList], [' ']), (["[]interface\x7b\x7d\x7b".toList], [' ']),
          ([raw.toList], [' ']), (["\x7d".toList], "\n\t\t\t\t".toList),
          (["\x7d".toList], "\n\t\t\t".toList), (["\x7d".toList], "\n\t\t\t".toList),
          ([result.toList], [' ']), (["=".toList], [' ']),
          (["make(".toList, type.toList, ",".toList], [' ']),
          (["len(".toList, rawSlice.toList, "))".toList], "\n\t\t\t".toList),
          (["for".toList], [' ']), ([index.toList], [' ']), ([":=".toList], [' ']),
          (["range".toList], [' ']), ([rawSlice.toList], [' ']),
          (["\x7b".toList], "\n\t\t\t\t".toList)]
        (next.toList ++ '\x7d' :: sfx) := by
  simp only [tplList, String.toList, String.data_append, render, List.foldr, List.append_assoc]
  rfl

theorem tokens_tplList (rawSlice raw result type index next : String) (sfx : List Char)
    (hrs : rawSlice.toList ≠ [] ∧ spaceFree rawSlice.toList)
    (hraw : raw.toList ≠ [] ∧ spaceFree raw.toList)
    (hres : result.toList ≠ [] ∧ spaceFree result.toList)
    (hty : spaceFree type.toList)
    (hidx : index.toList ≠ [] ∧ spaceFree index.toList) :
    tokens ((tplList rawSlice raw result type index next).toList ++ sfx) =
      "var".toList :: rawSlice.toList ::
        (["[]interface\x7b\x7d".toList, "if".toList, raw.toList, "!=".toList, "nil".toList,
            "\x7b".toList, "if".toList] ++
          ("tmp1,".toList :: "ok".toList :: ":=".toList ::
            ([raw.toList ++ ".([]interface\x7b\x7d);".toList, "ok".toList, "\x7b".toList,
                rawSlice.toList, "=".toList, "tmp1".toList, "\x7d".toList, "else".toList,
                "\x7b".toList, rawSlice.toList, "=".toList, "[]interface\x7b\x7d\x7b".toList,
                raw.toList, "\x7d".toList, "\x7d".toList, "\x7d".toList, result.toList,
                "=".toList, "make(".toList ++ (type.toList ++ ",".toList),
                "len(".toList ++ (rawSlice.toList ++ "))".toList), "for".toList] ++
              (index.toList :: ":=".toList ::
                (["range".toList, rawSlice.toList, "\x7b".toList] ++
                  tokens (next.toList ++ '\x7d' :: sfx)))))) := by
  rw [tplList_text, tokens_render]
  · simp only [List.map, List.flatten, List.append_nil, List.cons_append, List.nil_append]
  · intro seg hseg
    simp only [List.mem_cons, List.mem_singleton, List.not_mem_nil, or_false] at hseg
    have h1 : ∀ (p : List Char) (sp : List Char), p ≠ [] ∧ spaceFree p →
        (sp ≠ [] ∧ ∀ c ∈ sp, isSpace c = true) →
        ([p], sp).1.flatten ≠ [] ∧ (∀ c ∈ ([p], sp).1.flatten, isSpace c = false) ∧
          ([p], sp).2 ≠ [] ∧ ∀ c ∈ ([p], sp).2, isSpace c = true := by
      intro p sp hp hsp
      simpa using seg_ok p [] [] sp (Or.inl hp.1) hp.2 (by decide) (by decide) hsp
    rcases hseg with rfl | rfl | rfl | rfl | rfl | rfl | rfl | rfl | rfl | rfl | rfl | rfl | rfl |
      rfl | rfl | rfl | rfl | rfl | rfl | rfl | rfl | rfl | rfl | rfl | rfl | rfl | rfl | rfl | rfl |
      rfl | rfl | rfl | rfl | rfl | rfl | rfl | rfl | rfl
    all_goals first
      | decide
      | exact h1 _ _ hrs (by decide)
      | exact h1 _ _ hraw (by decide)
      | exact h1 _ _ hres (by decide)
      | exact h1 _ _ hidx (by decide)
      | (simpa using seg_ok raw.toList ".([]interface\x7b\x7d);".toList [] [' ']
          (Or.inl hraw.1) hraw.2 (by decide) (by decide) (by decide))
      | (simpa using seg_ok "make(".toList type.toList ",".toList [' '] (Or.inl (by decide))
          (by decide) hty (by decide) (by decide))
      | (simpa using seg_ok "len(".toList rawSlice.toList "))".toList "\n\t\t\t".toList
          (Or.inl (by decide)) (by decide) hrs.2 (by decide) (by decide))

/-- The decode statement of the base case of `unmarshal` as tokens: some tokens that
are neither `var` nor `:=`, then a last word that ends the statement. -/
theorem tokens_tplBase_stmt (imports : Imports) (d : TypeDefinition) (realResult result raw : String)
    (hres : operand result.toList) (hraw : spaceFree raw.toList)
    (hmar : ∀ m, d.Marshaler = some m →
      spaceFree (m.PkgDot imports).toList ∧ spaceFree m.GoType.toList) :
    ∃ (I : List (List Char)) (L : List Char), I ≠ [] ∧
      (∀ t ∈ I, t ≠ "var".toList ∧ t ≠ ":=".toList) ∧ spaceFree L ∧ ')' ∈ L ∧
      ∀ rest, tokens ((tplBase imports d none realResult result raw).toList ++ rest) =
        I ++ tokens (L ++ rest) := by
  obtain ⟨hne, hfree, hv, hd⟩ := hres
  have hseg : ∀ (p q : List Char), p ≠ [] → spaceFree p → spaceFree q →
      ([p, q], [' ']).1.flatten ≠ [] ∧ (∀ c ∈ ([p, q], [' ']).1.flatten, isSpace c = false) ∧
        ([p, q], [' ']).2 ≠ [] ∧ ∀ c ∈ ([p, q], [' ']).2, isSpace c = true := by
    intro p q hp hfp hfq
    simpa using seg_ok p q [] [' '] (Or.inl hp) hfp hfq (by decide) (by decide)
  by_cases hg : d.GoType = "map[string]interface\x7b\x7d"
  · refine ⟨[result.toList, "=".toList], raw.toList ++ ".(map[string]interface\x7b\x7d)".toList,
      by simp, ?_, spaceFree_append _ _ hraw (by decide), by simp, ?_⟩
    · intro t ht
      simp only [List.mem_cons, List.mem_singleton, List.not_mem_nil, or_false] at ht
      rcases ht with rfl | rfl
      · exact ⟨hv, hd⟩
      · decide
    · intro rest
      have htext : (tplBase imports d none realResult result raw).toList ++ rest =
          render [([result.toList, []], [' ']), (["=".toList, []], [' '])]
            ((raw.toList ++ ".(map[string]interface\x7b\x7d)".toList) ++ rest) := by
        simp only [tplBase, hg, if_true, String.toList, String.data_append, render, List.foldr,
          List.append_assoc, List.nil_append, List.append_nil]
        rfl
      rw [htext, tokens_render]
      · simp
      · intro seg hseg'
        simp only [List.mem_cons, List.mem_singleton, List.not_mem_nil, or_false] at hseg'
        rcases hseg' with rfl | rfl
        · exact hseg _ _ hne hfree (by decide)
        · decide
  · cases hm : d.Marshaler with
    | some m =>
      obtain ⟨hp, hgo⟩ := hmar m hm
      refine ⟨[result.toList ++ ",".toList, "err".toList, "=".toList],
        (m.PkgDot imports).toList ++ ("Unmarshal".toList ++ (m.GoType.toList ++
          ("(".toList ++ (raw.toList ++ ")".toList)))),
        by simp, ?_, ?_, by simp, ?_⟩
      · intro t ht
        simp only [List.mem_cons, List.mem_singleton, List.not_mem_nil, or_false] at ht
        rcases ht with rfl | rfl | rfl
        · exact ne_keyword_of_mem _ ',' (by simp) (by decide)
        · decide
        · decide
      · exact spaceFree_append _ _ hp (spaceFree_append _ _ (by decide)
          (spaceFree_append _ _ hgo (spaceFree_append _ _ (by decide)
            (spaceFree_append _ _ hraw (by decide)))))
      · intro rest
        have htext : (tplBase imports d none realResult result raw).toList ++ rest =
            render [([result.toList, ",".toList], [' ']), (["err".toList, []], [' ']),
                (["=".toList, []], [' '])]
              (((m.PkgDot imports).toList ++ ("Unmarshal".toList ++ (m.GoType.toList ++
                ("(".toList ++ (raw.toList ++ ")".toList))))) ++ rest) := by
          simp only [tplBase, hg, if_false, hm, String.toList, String.data_append, render,
            List.foldr, List.append_assoc, List.nil_append, List.append_nil]
          rfl
        rw [htext, tokens_render]
        · simp
        · intro seg hseg'
          simp only [List.mem_cons, List.mem_singleton, List.not_mem_nil, or_false] at hseg'
          rcases hseg' with rfl | rfl | rfl
          · exact hseg _ _ hne hfree (by decide)
          · decide
          · decide
    | none =>
      refine ⟨["err".toList, "=".toList],
        "(&".toList ++ (result.toList ++ (").UnmarshalGQL(".toList ++ (raw.toList ++ ")".toList))),
        by simp, ?_, ?_, by simp, ?_⟩
      · intro t ht
        simp only [List.mem_cons, List.mem_singleton, List.not_mem_nil, or_false] at ht
        rcases ht with rfl | rfl <;> decide
      · exact spaceFree_append _ _ (by decide) (spaceFree_append _ _ hfree
          (spaceFree_append _ _ (by decide) (spaceFree_append _ _ hraw (by decide))))
      · intro rest
        have htext : (tplBase imports d none realResult result raw).toList ++ rest =
            render [(["err".toList, []], [' ']), (["=".toList, []], [' '])]
              (("(&".toList ++ (result.toList ++ (").UnmarshalGQL(".toList ++
                (raw.toList ++ ")".toList)))) ++ rest) := by
          simp only [tplBase, hg, if_false, hm, String.toList, String.data_append, render,
            List.foldr, List.append_assoc, List.nil_append, List.append_nil]
          rfl
        rw [htext, tokens_render]
        · simp
        · intro seg hseg'
          simp only [List.mem_cons, List.mem_singleton, List.not_mem_nil, or_false] at hseg'
          rcases hseg' with rfl | rfl <;> decide

theorem operand_castTmp : operand "castTmp".toList := by
  refine ⟨by decide, by decide, by decide, by decide⟩

/-- The base case of `unmarshal` declares `castTmp` when the reference is aliased and
nothing otherwise. -/
theorem tplBase_declared (imports : Imports) (d : TypeDefinition)
    (aliased : Option TypeImplementation) (result raw : String) (k : Nat)
    (hres : operand result.toList) (hraw : spaceFree raw.toList)
    (hfull : operand (d.toTypeImplementation.FullName imports).toList)
    (hmar : ∀ m, d.Marshaler = some m →
      spaceFree (m.PkgDot imports).toList ∧ spaceFree m.GoType.toList)
    (halias : ∀ a, aliased = some a → spaceFree (a.FullName imports).toList) :
    declaredNames (tokens ((tplBase imports d aliased result
          (if aliased.isSome then "castTmp" else result) raw).toList ++
        List.replicate k '\x7d')) = (if aliased.isSome then ["castTmp".toList] else []) ∧
      (tokens ((tplBase imports d aliased result
          (if aliased.isSome then "castTmp" else result) raw).toList ++
        List.replicate k '\x7d')).head? ≠ some ":=".toList ∧
      ∀ l, (tokens ((tplBase imports d aliased result
          (if aliased.isSome then "castTmp" else result) raw).toList ++
        List.replicate k '\x7d')).getLast? = some l → l ≠ "var".toList := by
  cases aliased with
  | none =>
    obtain ⟨I, L, hI, hinert, hL, hparen, htok⟩ :=
      tokens_tplBase_stmt imports d result result raw hres hraw hmar
    have hlast : tokens (L ++ List.replicate k '\x7d') = [L ++ List.replicate k '\x7d'] :=
      tokens_last_word _ (by intro h; rw [List.append_eq_nil] at h; rw [h.1] at hparen; cases hparen)
        (spaceFree_append _ _ hL (spaceFree_replicate k))
    have hkey := ne_keyword_of_mem (L ++ List.replicate k '\x7d') ')'
      (List.mem_append_left _ hparen) (by decide)
    simp only [Option.isSome_none, Bool.false_eq_true, if_false]
    rw [htok, hlast]
    refine ⟨?_, ?_, ?_⟩
    · have := declaredNames_inert (I ++ [L ++ List.replicate k '\x7d']) []
        (by
          intro t ht
          rcases List.mem_append.mp ht with h | h
          · exact hinert t h
          · rw [List.mem_singleton] at h; rw [h]; exact hkey)
        (by simp) (Or.inl (by simp))
      simpa [declaredNames] using this
    · obtain ⟨t, I', rfl⟩ := List.exists_cons_of_ne_nil hI
      intro h
      simp only [List.cons_append, List.head?_cons, Option.some.injEq] at h
      exact (hinert t (List.mem_cons_self _ _)).2 h
    · intro l hl
      rw [List.getLast?_append, List.getLast?_singleton] at hl
      simp only [Option.or_some, Option.some.injEq] at hl
      rw [← hl]
      exact hkey.1
  | some a =>
    obtain ⟨I, L, hI, hinert, hL, hparen, htok⟩ :=
      tokens_tplBase_stmt imports d result "castTmp" raw operand_castTmp hraw hmar
    have ha := halias a rfl
    obtain ⟨hrne, hrfree, hrv, hrd⟩ := hres
    obtain ⟨hfne, hffree, hfv, hfd⟩ := hfull
    have hLne : L ≠ [] := by intro h; rw [h] at hparen; cases hparen
    have htext : (tplBase imports d (some a) result "castTmp" raw).toList ++
          List.replicate k '\x7d' =
        "\n\t\t\t".toList ++
          render
            [(["var".toList], [' ']), (["castTmp".toList], [' ']),
              ([(d.toTypeImplementation.FullName imports).toList], "\n\t\t".toList)]
            ((tplBase imports d none result "castTmp" raw).toList ++
              ('\n' :: ("\t\t\t".toList ++
                render [([result.toList], [' ']), (["=".toList], [' '])]
                  (((a.FullName imports).toList ++ "(castTmp)".toList) ++
                    List.replicate k '\x7d')))) := by
      simp only [tplBase, String.toList, String.data_append, render, List.foldr,
        List.append_assoc, List.nil_append, List.append_nil]
      rfl
    have hX := ne_keyword_of_mem
      (((a.FullName imports).toList ++ "(castTmp)".toList) ++ List.replicate k '\x7d') ')'
      (by simp) (by decide)
    have hXlast : tokens (((a.FullName imports).toList ++ "(castTmp)".toList) ++
          List.replicate k '\x7d') =
        [((a.FullName imports).toList ++ "(castTmp)".toList) ++ List.replicate k '\x7d'] :=
      tokens_last_word _ (by simp)
        (spaceFree_append _ _ (spaceFree_append _ _ ha (by decide)) (spaceFree_replicate k))
    have htoks : tokens ((tplBase imports d (some a) result "castTmp" raw).toList ++
          List.replicate k '\x7d') =
        "var".toList :: "castTmp".toList ::
          ((d.toTypeImplementation.FullName imports).toList :: (I ++ L :: result.toList ::
            "=".toList :: [((a.FullName imports).toList ++ "(castTmp)".toList) ++
              List.replicate k '\x7d'])) := by
      rw [htext, tokens_spaces _ _ (by decide), tokens_render, htok,
        tokens_word L '\n' _ hLne hL rfl, tokens_spaces _ _ (by decide), tokens_render, hXlast]
      · simp
      · intro seg hseg
        simp only [List.mem_cons, List.mem_singleton, List.not_mem_nil, or_false] at hseg
        rcases hseg with rfl | rfl
        · simpa using seg_ok result.toList [] [] [' '] (Or.inl hrne) hrfree (by decide)
            (by decide) (by decide)
        · decide
      · intro seg hseg
        simp only [List.mem_cons, List.mem_singleton, List.not_mem_nil, or_false] at hseg
        rcases hseg with rfl | rfl | rfl
        · decide
        · decide
        · simpa using seg_ok (d.toTypeImplementation.FullName imports).toList [] []
            "\n\t\t".toList (Or.inl hfne) hffree (by decide) (by decide) (by decide)
    simp only [Option.isSome_some, if_true]
    rw [htoks]
    refine ⟨?_, by simp, ?_⟩
    · rw [declaredNames_var "castTmp".toList _ (by decide) (by simpa using hfd)
        (Or.inr (by decide))]
      have := declaredNames_inert
        ((d.toTypeImplementation.FullName imports).toList :: (I ++ L :: result.toList ::
          "=".toList :: [((a.FullName imports).toList ++ "(castTmp)".toList) ++
            List.replicate k '\x7d'])) []
        (by
          intro t ht
          simp only [List.mem_cons, List.mem_append, List.mem_singleton, List.not_mem_nil,
            or_false] at ht
          rcases ht with rfl | h | rfl | rfl | rfl | rfl
          · exact ⟨hfv, hfd⟩
          · exact hinert t h
          · exact ne_keyword_of_mem _ ')' hparen (by decide)
          · exact ⟨hrv, hrd⟩
          · decide
          · exact hX)
        (by simp) (Or.inl (by simp))
      rw [List.append_nil] at this
      rw [this]
      rfl
    · intro l hl
      have : l = ((a.FullName imports).toList ++ "(castTmp)".toList) ++
          List.replicate k '\x7d' := by
        have h' : ("var".toList :: "castTmp".toList ::
            ((d.toTypeImplementation.FullName imports).toList :: (I ++ L :: result.toList ::
              "=".toList :: [((a.FullName imports).toList ++ "(castTmp)".toList) ++
                List.replicate k '\x7d']))) =
            ("var".toList :: "castTmp".toList ::
              ((d.toTypeImplementation.FullName imports).toList :: (I ++ L :: result.toList ::
                ["=".toList]))) ++ [((a.FullName imports).toList ++ "(castTmp)".toList) ++
                List.replicate k '\x7d'] := by simp
        rw [h', List.getLast?_append, List.getLast?_singleton] at hl
        simpa using hl.symm
      rw [this]
      exact hX.1

/-- Tokens that are neither `var` nor `:=`, put behind a text, declare nothing and
change none of its declarations. -/
theorem declaredNames_append_inert (A P : List (List Char))
    (hP : ∀ t ∈ P, t ≠ "var".toList ∧ t ≠ ":=".toList)
    (hA : ∀ l, A.getLast? = some l → l ≠ "var".toList) :
    declaredNames (A ++ P) = declaredNames A := by
  have hPhead : P.head? ≠ some ":=".toList := by
    cases P with
    | nil => simp
    | cons p P => simpa using (hP p (List.mem_cons_self _ _)).2
  have hP1 : P[1]? ≠ some ":=".toList := by
    intro h
    exact (hP _ (List.mem_iff_getElem?.mpr ⟨1, h⟩)).2 rfl
  induction A with
  | nil =>
    have := declaredNames_inert P [] hP (by simp) (Or.inl (by simp))
    simpa [declaredNames] using this
  | cons a A ih =>
    cases A with
    | nil =>
      have ha : a ≠ "var".toList := hA a rfl
      rw [List.singleton_append, declaredNames_skip a P ha hPhead (Or.inl hP1)]
      have := declaredNames_inert P [] hP (by simp) (Or.inl (by simp))
      rw [List.append_nil] at this
      rw [this]
      simp [declaredNames, ha]
    | cons a' A =>
      have ih' := ih (fun l hl => hA l (by simpa [List.getLast?_cons_cons] using hl))
      have h1 : (a' :: (A ++ P))[1]? = some ":=".toList ↔ (a' :: A)[1]? = some ":=".toList := by
        cases A with
        | nil =>
          have h0 : P[0]? ≠ some ":=".toList := by
            rw [← List.head?_eq_getElem?]; exact hPhead
          constructor
          · intro h
            simp only [List.nil_append, List.getElem?_cons_succ] at h
            exact absurd h h0
          · intro h
            simp at h
        | cons a'' A => simp
      have hcons : ∀ (t : List Char) (rest : List (List Char)),
          declaredNames (t :: rest) =
            (if t = "var".toList then rest.head?.toList
              else if rest.head? = some ":=".toList then [t]
              else if rest[1]? = some ":=".toList ∧ t.getLast? = some ',' then [t.dropLast]
              else []) ++ declaredNames rest := fun _ _ => rfl
      rw [List.cons_append, hcons a, hcons a (a' :: A), ih']
      simp only [List.cons_append, List.head?_cons, h1]

theorem operand_of_mem (l : List Char) (c : Char) (hc : c ∈ l)
    (h : c ∉ ['v', 'a', 'r', ':', '=']) (hf : spaceFree l) : operand l :=
  ⟨List.ne_nil_of_mem hc, hf, (ne_keyword_of_mem l c hc h).1, (ne_keyword_of_mem l c hc h).2⟩

theorem operand_suffixed (p : String) (n : Nat) (c : Char) (hc : c ∈ p.toList)
    (h : c ∉ ['v', 'a', 'r', ':', '=']) (hp : spaceFree p.toList) :
    operand (p ++ Itoa n).toList := by
  have : (p ++ Itoa n).toList = p.toList ++ (Itoa n).toList := by
    simp [String.toList, String.data_append]
  rw [this]
  exact operand_of_mem _ c (List.mem_append_left _ hc) h
    (spaceFree_append _ _ hp (spaceFree_Itoa n))

theorem operand_indexed (a i : String) (ha : spaceFree a.toList) (hi : spaceFree i.toList) :
    operand (a ++ "[" ++ i ++ "]").toList := by
  have : (a ++ "[" ++ i ++ "]").toList = a.toList ++ ("[".toList ++ (i.toList ++ "]".toList)) := by
    simp [String.toList, String.data_append]
  rw [this]
  exact operand_of_mem _ '[' (by simp) (by decide)
    (spaceFree_append _ _ ha (spaceFree_append _ _ (by decide)
      (spaceFree_append _ _ hi (by decide))))

theorem spaceFree_join (ms : List String) (hms : ∀ m ∈ ms, m = modPtr ∨ m = modList) :
    spaceFree (String.join ms).toList := by
  rw [String.join_eq]
  intro c hc
  simp only [String.toList, List.mem_flatten, List.mem_map] at hc
  obtain ⟨l, ⟨m, hm, rfl⟩, hcl⟩ := hc
  rcases hms m hm with rfl | rfl
  · have : c = '*' := by simpa [modPtr] using hcl
    rw [this]; decide
  · have : c = '[' ∨ c = ']' := by simpa [modList] using hcl
    rcases this with rfl | rfl <;> decide

/-- The type written at a level, modifiers and type name, is one token and neither
`var` nor `:=`. -/
theorem operand_type (ms : List String) (full : String)
    (hms : ∀ m ∈ ms, m = modPtr ∨ m = modList) (hfull : operand full.toList) :
    operand ((String.join ms).toList ++ full.toList) := by
  obtain ⟨hne, hfree, hv, hd⟩ := hfull
  have hsf := spaceFree_append _ _ (spaceFree_join ms hms) hfree
  cases ms with
  | nil =>
    have : (String.join []).toList = [] := rfl
    rw [this, List.nil_append]
    exact ⟨hne, hfree, hv, hd⟩
  | cons m rest =>
    have hj : (String.join (m :: rest)).toList = m.toList ++ (String.join rest).toList := by
      simp [String.join_eq, String.toList]
    rcases hms m (List.mem_cons_self _ _) with rfl | rfl
    · exact operand_of_mem _ '*' (by rw [hj]; simp [modPtr]) (by decide) hsf
    · exact operand_of_mem _ '[' (by rw [hj]; simp [modList]) (by decide) hsf

theorem tokens_braces (k : Nat) :
    ∀ t ∈ tokens (List.replicate k '\x7d'), t ≠ "var".toList ∧ t ≠ ":=".toList := by
  cases k with
  | zero => intro t ht; simp [tokens] at ht
  | succ k =>
    rw [tokens_last_word _ (by simp) (spaceFree_replicate _)]
    intro t ht
    rw [List.mem_singleton] at ht
    rw [ht]
    exact ne_keyword_of_mem _ '\x7d' (by simp [List.replicate_succ]) (by decide)

/-- The names declared by the text of `unmarshal` for a stack of `"*"` and `"[]"`
entries, read off the tokens of the text (also when closing braces follow it): the
names of the levels in order, then `castTmp` for an aliased reference. -/
theorem unmarshal_declared (imports : Imports) (t : TypeReference) (d : TypeDefinition)
    (hd : t.Definition = some d)
    (hfull : operand (d.toTypeImplementation.FullName imports).toList)
    (hmar : ∀ m, d.Marshaler = some m →
      spaceFree (m.PkgDot imports).toList ∧ spaceFree m.GoType.toList)
    (halias : ∀ a, t.AliasedType = some a → spaceFree (a.FullName imports).toList) :
    ∀ (ms : List String), (∀ m ∈ ms, m = modPtr ∨ m = modList) →
      ∀ (result raw : String) (depth k : Nat), operand result.toList → operand raw.toList →
        ∃ text, t.unmarshal imports result raw ms depth = some text ∧
          declaredNames (tokens (text.toList ++ List.replicate k '\x7d')) =
            (levelNames ms depth).map String.toList ++
              (if t.AliasedType.isSome then ["castTmp".toList] else []) ∧
          (tokens (text.toList ++ List.replicate k '\x7d')).head? ≠ some ":=".toList ∧
          ∀ l, (tokens (text.toList ++ List.replicate k '\x7d')).getLast? = some l →
            l ≠ "var".toList := by
  intro ms
  induction ms with
  | nil =>
    intro _ result raw depth k hres hraw
    refine ⟨_, by simp only [TypeReference.unmarshal, hd]; rfl, ?_⟩
    have := tplBase_declared imports d t.AliasedType result raw k hres hraw.2.1 hfull hmar halias
    simpa [levelNames] using this
  | cons m rest ih =>
    intro hms result raw depth k hres hraw
    have hrest : ∀ m' ∈ rest, m' = modPtr ∨ m' = modList :=
      fun m' hm' => hms m' (List.mem_cons_of_mem _ hm')
    have hptr : operand ("ptr" ++ Itoa depth).toList :=
      operand_suffixed "ptr" depth 'p' (by decide) (by decide) (by decide)
    have hrawIf : operand ("rawIf" ++ Itoa depth).toList :=
      operand_suffixed "rawIf" depth 'w' (by decide) (by decide) (by decide)
    have hidx : operand ("idx" ++ Itoa depth).toList :=
      operand_suffixed "idx" depth 'i' (by decide) (by decide) (by decide)
    have hbr := tokens_braces k
    rcases hms m (List.mem_cons_self _ _) with hm | hm
    · -- a pointer level
      subst hm
      obtain ⟨next, hnext, hdecl, hhead, hlast⟩ :=
        ih hrest ("ptr" ++ Itoa depth) raw (depth + 1) 0 hptr hraw
      simp only [List.replicate_zero, List.append_nil] at hdecl hhead hlast
      have hty := operand_type rest (d.toTypeImplementation.FullName imports) hrest hfull
      refine ⟨_, by simp only [TypeReference.unmarshal, if_true, hnext, hd]; rfl, ?_⟩
      rw [tokens_tplPtr _ _ _ _ _ _ _ ⟨hptr.1, hptr.2.1⟩ (spaceFree_join rest hrest)
        ⟨hfull.1, hfull.2.1⟩ ⟨hraw.1, hraw.2.1⟩ ⟨hres.1, hres.2.1⟩]
      have hP : ∀ t ∈ result.toList :: "=".toList ::
          ("&".toList ++ (("ptr" ++ Itoa depth).toList ++ "\x7d".toList)) ::
            tokens (List.replicate k '\x7d'), t ≠ "var".toList ∧ t ≠ ":=".toList := by
        intro t ht
        simp only [List.mem_cons] at ht
        rcases ht with rfl | rfl | rfl | h
        · exact ⟨hres.2.2.1, hres.2.2.2⟩
        · decide
        · exact ne_keyword_of_mem _ '&' (by simp) (by decide)
        · exact hbr t h
      refine ⟨?_, by simp, ?_⟩
      · rw [declaredNames_var _ _ hptr.2.2.1 (by simpa using hty.2.2.2) (Or.inl (by simp))]
        have hin := declaredNames_inert
          [(String.join rest).toList ++ (d.toTypeImplementation.FullName imports).toList,
            "if".toList, raw.toList, "!=".toList, "nil".toList, "\x7b".toList]
          (tokens next.toList ++ (result.toList :: "=".toList ::
            ("&".toList ++ (("ptr" ++ Itoa depth).toList ++ "\x7d".toList)) ::
              tokens (List.replicate k '\x7d')))
          (by
            intro t ht
            simp only [List.mem_cons, List.mem_singleton, List.not_mem_nil, or_false] at ht
            rcases ht with rfl | rfl | rfl | rfl | rfl | rfl
            · exact ⟨hty.2.2.1, hty.2.2.2⟩
            · decide
            · exact ⟨hraw.2.2.1, hraw.2.2.2⟩
            · decide
            · decide
            · decide)
          (by
            cases hn : tokens next.toList with
            | nil => simpa using hres.2.2.2
            | cons n ns => rw [hn] at hhead; simpa using hhead)
          (Or.inr (by intro l hl; simp at hl; rw [← hl]; decide))
        simp only [List.cons_append, List.nil_append] at hin
        rw [hin, declaredNames_append_inert _ _ hP hlast, hdecl]
        simp [levelNames]
      · intro l hl
        have hsplit : "var".toList :: ("ptr" ++ Itoa depth).toList ::
            ((String.join rest).toList ++ (d.toTypeImplementation.FullName imports).toList) ::
            "if".toList :: raw.toList :: "!=".toList :: "nil".toList :: "\x7b".toList ::
            (tokens next.toList ++ (result.toList :: "=".toList ::
              ("&".toList ++ (("ptr" ++ Itoa depth).toList ++ "\x7d".toList)) ::
                tokens (List.replicate k '\x7d'))) =
            ("var".toList :: ("ptr" ++ Itoa depth).toList ::
              ((String.join rest).toList ++ (d.toTypeImplementation.FullName imports).toList) ::
              "if".toList :: raw.toList :: "!=".toList :: "nil".toList :: "\x7b".toList ::
              tokens next.toList) ++ (result.toList :: "=".toList ::
              ("&".toList ++ (("ptr" ++ Itoa depth).toList ++ "\x7d".toList)) ::
                tokens (List.replicate k '\x7d')) := by simp
        rw [hsplit] at hl
        have hmem : l ∈ result.toList :: "=".toList ::
            ("&".toList ++ (("ptr" ++ Itoa depth).toList ++ "\x7d".toList)) ::
              tokens (List.replicate k '\x7d') := by
          rw [List.getLast?_append_of_ne_nil _ (by simp)] at hl
          exact List.mem_of_getLast?_eq_some hl
        exact (hP l hmem).1
    · -- a list level
      subst hm
      have hne : ¬ (modList = modPtr) := by decide
      obtain ⟨next, hnext, hdecl, hhead, hlast⟩ :=
        ih hrest (result ++ "[" ++ ("idx" ++ Itoa depth) ++ "]")
          ("rawIf" ++ Itoa depth ++ "[" ++ ("idx" ++ Itoa depth) ++ "]") (depth + 1) (k + 1)
          (operand_indexed _ _ hres.2.1 hidx.2.1) (operand_indexed _ _ hrawIf.2.1 hidx.2.1)
      rw [List.replicate_succ] at hdecl hhead hlast
      have htyf : spaceFree (String.join (modList :: rest) ++
          d.toTypeImplementation.FullName imports).toList := by
        have : (String.join (modList :: rest) ++ d.toTypeImplementation.FullName imports).toList =
            (String.join (modList :: rest)).toList ++
              (d.toTypeImplementation.FullName imports).toList := by
          simp [String.toList, String.data_append]
        rw [this]
        exact spaceFree_append _ _ (spaceFree_join _ hms) hfull.2.1
      refine ⟨_, by simp only [TypeReference.unmarshal, hne, if_false, if_true, hnext, hd]; rfl, ?_⟩
      rw [tokens_tplList _ _ _ _ _ _ _ ⟨hrawIf.1, hrawIf.2.1⟩ ⟨hraw.1, hraw.2.1⟩
        ⟨hres.1, hres.2.1⟩ htyf ⟨hidx.1, hidx.2.1⟩]
      refine ⟨?_, by simp, ?_⟩
      · rw [declaredNames_var _ _ hrawIf.2.2.1 (by simp) (Or.inl (by simp)),
          declaredNames_inert _ _
            (by
              intro t ht
              simp only [List.mem_cons, List.mem_singleton, List.not_mem_nil, or_false] at ht
              rcases ht with rfl | rfl | rfl | rfl | rfl | rfl | rfl
              · decide
              · decide
              · exact ⟨hraw.2.2.1, hraw.2.2.2⟩
              · decide
              · decide
              · decide
              · decide)
            (by simp) (Or.inr (by intro l hl; simp at hl; rw [← hl]; decide)),
          declaredNames_tmp1 _
            (by
              simp only [List.cons_append, List.head?_cons, ne_eq, Option.some.injEq]
              exact (ne_keyword_of_mem _ '.' (by simp) (by decide)).2),
          declaredNames_inert _ _
            (by
              intro t ht
              simp only [List.mem_cons, List.mem_singleton, List.not_mem_nil, or_false] at ht
              rcases ht with rfl | rfl | rfl | rfl | rfl | rfl | rfl | rfl | rfl | rfl | rfl |
                rfl | rfl | rfl | rfl | rfl | rfl | rfl | rfl | rfl | rfl
              · exact ne_keyword_of_mem _ '.' (by simp) (by decide)
              · decide
              · decide
              · exact ⟨hrawIf.2.2.1, hrawIf.2.2.2⟩
              · decide
              · decide
              · decide
              · decide
              · decide
              · exact ⟨hrawIf.2.2.1, hrawIf.2.2.2⟩
              · decide
              · decide
              · exact ⟨hraw.2.2.1, hraw.2.2.2⟩
              · decide
              · decide
              · decide
              · exact ⟨hres.2.2.1, hres.2.2.2⟩
              · decide
              · exact ne_keyword_of_mem _ '(' (by simp) (by decide)
              · exact ne_keyword_of_mem _ '(' (by simp) (by decide)
              · decide)
            (by simp [hidx.2.2.2])
            (Or.inr (by intro l hl; simp at hl; rw [← hl]; decide)),
          declaredNames_define _ _ hidx.2.2.1 (by simp),
          declaredNames_inert _ _
            (by
              intro t ht
              simp only [List.mem_cons, List.mem_singleton, List.not_mem_nil, or_false] at ht
              rcases ht with rfl | rfl | rfl
              · decide
              · exact ⟨hrawIf.2.2.1, hrawIf.2.2.2⟩
              · decide)
            hhead (Or.inr (by intro l hl; simp at hl; rw [← hl]; decide)),
          hdecl]
        simp [levelNames, hne]
      · intro l hl
        have hsplit : ∀ (N : List (List Char)) (x y : List Char) (A B C : List (List Char))
            (i : List Char),
            "var".toList :: x :: (A ++ ("tmp1,".toList :: "ok".toList :: ":=".toList ::
              (B ++ (i :: ":=".toList :: (C ++ N))))) =
            ("var".toList :: x :: (A ++ ("tmp1,".toList :: "ok".toList :: ":=".toList ::
              (B ++ (i :: ":=".toList :: C))))) ++ N := by
          intro N x y A B C i
          simp
        rw [hsplit _ _ [] _ _ _ _, List.getLast?_append] at hl
        cases hN : (tokens (next.toList ++ '\x7d' :: List.replicate k '\x7d')).getLast? with
        | some l' =>
          rw [hN] at hl
          simp only [Option.or_some, Option.some.injEq] at hl
          rw [← hl]
          exact hlast l' hN
        | none =>
          rw [hN] at hl
          simp at hl
          rw [← hl]
          decide

/-- The names of the levels, level by level: the modifier at position `i` is consumed
at depth `depth + i`. -/
theorem levelNames_eq (ms : List String) : ∀ depth : Nat,
    levelNames ms depth =
      (ms.zip (List.range' depth ms.length)).flatMap fun mk =>
        if mk.1 = modPtr then ["ptr" ++ Itoa mk.2]
        else ["rawIf" ++ Itoa mk.2, "tmp1", "ok", "idx" ++ Itoa mk.2] := by
  induction ms with
  | nil => intro depth; rfl
  | cons m rest ih =>
    intro depth
    simp only [levelNames, ih (depth + 1), List.length_cons, List.range'_succ, List.zip_cons_cons,
      List.flatMap_cons]

/-- C10, as stated, fails: for the stack `["[]","[]"]` the text declares the
type-assertion temporary `tmp1` at the level of depth 1 and again, under the same
name, at the level of depth 2; no `tmp2` occurs. -/
theorem unmarshal_tmp1_not_suffixed :
    ∃ text, TypeReference.Unmarshal exampleImports
        ⟨some timeDefinition, ["[]", "[]"], none, none⟩ "res" "v" = some text ∧
      declaredIn text = ["rawIf1", "tmp1", "ok", "idx1", "rawIf2", "tmp1", "ok", "idx2"] ∧
      "if tmp1, ok := v.(".toList <:+: text.toList ∧
      "if tmp1, ok := rawIf1[idx1].(".toList <:+: text.toList ∧
      ¬ "tmp2".toList <:+: text.toList := by
  refine ⟨_, rfl, ?_, ?_, ?_, ?_⟩ <;> decide

/-- C10, amended: for a modifier stack of `"*"` and `"[]"` entries and names given
as single tokens, `Unmarshal` returns a text whose declarations, read off its tokens,
are those of one level per modifier at depths 1, 2, ... in order: a pointer level
declares `ptr<depth>`, a list level declares `rawIf<depth>`, the fixed names `tmp1`
and `ok`, and `idx<depth>`; the base case declares `castTmp` for an aliased reference
and nothing otherwise.  Every depth-suffixed name differs from every name declared at
another depth and from the fixed names. -/
theorem unmarshal_level_names (imports : Imports) (t : TypeReference) (d : TypeDefinition)
    (result raw : String) (hd : t.Definition = some d)
    (hms : ∀ m ∈ t.Modifiers, m = modPtr ∨ m = modList)
    (hres : operand result.toList) (hraw : operand raw.toList)
    (hfull : operand (d.toTypeImplementation.FullName imports).toList)
    (hmar : ∀ m, d.Marshaler = some m →
      spaceFree (m.PkgDot imports).toList ∧ spaceFree m.GoType.toList)
    (halias : ∀ a, t.AliasedType = some a → spaceFree (a.FullName imports).toList) :
    ∃ text, t.Unmarshal imports result raw = some text ∧
      declaredIn text =
        ((t.Modifiers.zip (List.range' 1 t.Modifiers.length)).flatMap fun mk =>
          if mk.1 = modPtr then ["ptr" ++ Itoa mk.2]
          else ["rawIf" ++ Itoa mk.2, "tmp1", "ok", "idx" ++ Itoa mk.2]) ++
        (if t.AliasedType.isSome then ["castTmp"] else []) ∧
      ∀ k k' : Nat, k ≠ k' →
        ∀ n ∈ ["ptr" ++ Itoa k, "rawIf" ++ Itoa k, "idx" ++ Itoa k],
        ∀ n' ∈ ["ptr" ++ Itoa k', "rawIf" ++ Itoa k', "idx" ++ Itoa k', "tmp1", "ok", "castTmp"],
          n ≠ n' := by
  obtain ⟨text, htext, hdecl, -, -⟩ :=
    unmarshal_declared imports t d hd hfull hmar halias t.Modifiers hms result raw 1 0 hres hraw
  refine ⟨text, htext, ?_, fun k k' hne n hn n' hn' => suffixed_name_ne k k' hne n n' hn hn'⟩
  rw [List.replicate_zero, List.append_nil] at hdecl
  rw [declaredIn, hdecl, ← levelNames_eq]
  have hmk : ∀ l : List String, (l.map String.toList).map String.mk = l := by
    intro l
    induction l with
    | nil => rfl
    | cons s l ih => simp [ih]
  rw [List.map_append, hmk]
  split <;> rfl

theorem unmarshal_level_names_witness :
    ∃ text, TypeReference.Unmarshal exampleImports
        ⟨some timeDefinition, ["[]", "*"], none, none⟩ "res" "v" = some text ∧
      declaredIn text = ["rawIf1", "tmp1", "ok", "idx1", "ptr2"] := by
  obtain ⟨text, h₁, h₂, -⟩ := unmarshal_level_names exampleImports
    ⟨some timeDefinition, ["[]", "*"], none, none⟩ timeDefinition "res" "v" rfl
    (by decide) (by decide) (by decide) (by decide)
    (fun m hm => by cases hm; decide) (fun a ha => by cases ha)
  exact ⟨text, h₁, h₂.trans (by decide)⟩

/-! ### `LintName` on names without underscores -/

theorem fixedWord_length (u : Unicode) (first : Bool) (word : List Char) :
    (fixedWord u first word).length = word.length := by
  unfold fixedWord
  split
  · split <;> simp [Unicode.stringsToLower, Unicode.stringsToUpper]
  · split
    · cases word <;> simp
    · rfl

theorem slice_mid (a b c : List Char) :
    slice (a ++ b ++ c) a.length (a.length + b.length) = some b := by
  have h₁ : List.take (a.length + b.length) (a ++ b ++ c) = a ++ b :=
    List.take_left' (by simp)
  have h₂ : List.drop a.length (a ++ b) = b := List.drop_left' rfl
  have h₃ : a.length + b.length ≤ (a ++ b ++ c).length := by
    simp only [List.length_append]; omega
  simp only [slice, h₁, h₂, h₃, and_true, Nat.le_add_right, if_true]

theorem copyAt_mid (a b c b' : List Char) (h : b'.length = b.length) :
    copyAt (a ++ b ++ c) a.length b' = some (a ++ b' ++ c) := by
  have h₁ : List.take a.length (a ++ b ++ c) = a := by
    rw [List.append_assoc]; exact List.take_left' rfl
  have h₂ : List.drop a.length (a ++ b ++ c) = b ++ c := by
    rw [List.append_assoc]; exact List.drop_left' rfl
  have h₃ : a.length ≤ (a ++ b ++ c).length := by
    simp only [List.length_append]; omega
  have h₄ : List.take (b ++ c).length b' = b' := by
    apply List.take_of_length_le
    simp only [List.length_append]; omega
  have h₅ : List.drop b'.length (b ++ c) = c := List.drop_left' h.symm
  simp only [copyAt, sliceFrom, h₃, if_true, Option.bind_eq_bind, Option.some_bind, copy,
    h₁, h₂, h₄, h₅, pure]
  rw [List.append_assoc]

theorem getElem?_mid (a b c : List Char) :
    (a ++ b ++ c)[a.length]? = (b ++ c).head? := by
  rw [List.append_assoc, List.getElem?_append_right (le_refl _)]
  simp [List.head?_eq_getElem?]

/-- On `runes = done ++ word ++ rest`, `fixWord` rewrites `word` by `fixedWord` and
leaves the rest alone. -/
theorem fixWord_eq (u : Unicode) (done word rest : List Char) (hw : word ≠ []) :
    fixWord u (done ++ word ++ rest) done.length (done.length + word.length) =
      some (done ++ fixedWord u (decide (done.length = 0)) word ++ rest) := by
  obtain ⟨c, cs, rfl⟩ := List.exists_cons_of_ne_nil hw
  simp only [fixWord, slice_mid, getElem?_mid, Option.bind_eq_bind, Option.some_bind, fixedWord]
  split
  · by_cases hd : done.length = 0
    · simp only [hd, if_true, List.cons_append, List.head?_cons, Option.map_some',
        Option.some_bind, decide_True, true_and, Option.some.injEq, Bool.decide_eq_true]
      rw [List.length_eq_zero] at hd
      subst hd
      split
      · simpa [Unicode.stringsToLower, Unicode.stringsToUpper] using
          copyAt_mid [] (c :: cs) rest
            (u.stringsToLower (u.stringsToUpper (c :: cs)))
            (by simp [Unicode.stringsToLower, Unicode.stringsToUpper])
      · simpa [Unicode.stringsToLower, Unicode.stringsToUpper] using
          copyAt_mid [] (c :: cs) rest (u.stringsToUpper (c :: cs))
            (by simp [Unicode.stringsToUpper])
    · simp only [hd, if_false, Option.some_bind, decide_False, false_and, if_false,
        Bool.false_eq_true]
      exact copyAt_mid done (c :: cs) rest (u.stringsToUpper (c :: cs))
        (by simp [Unicode.stringsToUpper])
  · by_cases hd : done.length = 0
    · simp [hd]
    · have hpos : 0 < done.length := Nat.pos_of_ne_zero hd
      simp only [hpos, true_and, hd, decide_False]
      split
      · simp [pure]
      · simp [pure]

theorem scanStep_last (u : Unicode) (pre : List Char) (c : Char) :
    scanStep u (pre ++ [c]) pre.length = some (pre ++ [c], true) := by
  simp [scanStep]

theorem scanStep_plain (u : Unicode) (pre : List Char) (c c' : Char) (rest : List Char)
    (h : c' ≠ '_') :
    scanStep u (pre ++ c :: c' :: rest) pre.length =
      some (pre ++ c :: c' :: rest, u.IsLower c && !u.IsLower c') := by
  have h₁ : (pre ++ c :: c' :: rest)[pre.length + 1]? = some c' := by
    rw [List.getElem?_append_right (by omega)]
    simp
  have h₂ : (pre ++ c :: c' :: rest)[pre.length]? = some c := by
    rw [List.getElem?_append_right (le_refl _)]
    simp
  have h₃ : ¬ (pre.length + 1 = (pre ++ c :: c' :: rest).length) := by
    simp only [List.length_append, List.length_cons]; omega
  simp only [scanStep, h₃, if_false, h₁, h₂, Option.bind_eq_bind, Option.some_bind, h]
  cases u.IsLower c <;> simp [pure]

/-- The loop invariant: with `done` already rewritten, `cur` the word scanned so far
and no underscore ahead, the loop returns `done` followed by `lintWords`. -/
theorem lintLoop_eq (u : Unicode) : ∀ (fuel : Nat) (done cur rest : List Char),
    (∀ c ∈ rest.tail, c ≠ '_') → rest.length ≤ fuel →
    lintLoop u fuel (done ++ cur ++ rest) done.length (done.length + cur.length) =
      some (done ++ lintWords u (decide (done.length = 0)) cur rest) := by
  intro fuel
  induction fuel with
  | zero =>
    intro done cur rest _ hlen
    have : rest = [] := List.length_eq_zero.mp (by omega)
    subst this
    simp [lintLoop, lintWords]
  | succ fuel ih =>
    intro done cur rest hus hlen
    match rest, hus, hlen with
    | [], _, _ => simp [lintLoop, lintWords]
    | [c], _, _ =>
      have hcond : done.length + cur.length + 1 ≤ (done ++ cur ++ [c]).length := by
        simp only [List.length_append, List.length_singleton]; omega
      have hs := scanStep_last u (done ++ cur) c
      simp only [List.length_append] at hs
      have hf := fixWord_eq u done (cur ++ [c]) [] (by simp)
      simp only [List.length_append, List.length_singleton, List.append_nil,
        ← List.append_assoc, ← Nat.add_assoc] at hf
      have hi := ih (done ++ fixedWord u (decide (done.length = 0)) (cur ++ [c])) [] []
        (by simp) (by simp)
      simp only [List.append_nil, List.length_append, fixedWord_length, List.length_singleton,
        List.length_nil, Nat.add_zero, ← Nat.add_assoc, lintWords] at hi
      simp only [lintLoop, hcond, if_true, hs, Option.bind_eq_bind, Option.some_bind,
        Bool.not_true, Bool.false_eq_true, if_false, hf, hi, lintWords]
    | c :: c' :: rest, hus, hlen =>
      have hc' : c' ≠ '_' := hus c' (by simp)
      have hcond : done.length + cur.length + 1 ≤ (done ++ cur ++ c :: c' :: rest).length := by
        simp only [List.length_append, List.length_cons]; omega
      have hs := scanStep_plain u (done ++ cur) c c' rest hc'
      simp only [List.length_append] at hs
      simp only [lintLoop, hcond, if_true, hs, Option.bind_eq_bind, Option.some_bind, lintWords]
      cases heow : (u.IsLower c && !u.IsLower c')
      · have hi := ih done (cur ++ [c]) (c' :: rest) (fun x hx => hus x (by simp at hx ⊢; exact Or.inr hx))
          (by simp only [List.length_cons] at hlen ⊢; omega)
        simp only [List.length_append, List.length_singleton, ← Nat.add_assoc,
          List.append_assoc, List.singleton_append] at hi
        simp only [Bool.not_false, if_true, List.append_assoc, Bool.false_eq_true, if_false]
        exact hi
      · have hf := fixWord_eq u done (cur ++ [c]) (c' :: rest) (by simp)
        simp only [List.length_append, List.length_singleton, ← Nat.add_assoc] at hf
        have hre : done ++ (cur ++ [c]) ++ c' :: rest = done ++ cur ++ c :: c' :: rest := by simp
        rw [hre] at hf
        have hi := ih (done ++ fixedWord u (decide (done.length = 0)) (cur ++ [c])) [] (c' :: rest)
          (fun x hx => hus x (by simp at hx ⊢; exact Or.inr hx))
          (by simp only [List.length_cons] at hlen ⊢; omega)
        have hne : ¬ (done.length + (cur.length + 1) = 0) := by omega
        simp only [List.append_nil, List.length_append, fixedWord_length, List.length_singleton,
          List.length_nil, Nat.add_zero, hne, decide_False] at hi
        simp only [← Nat.add_assoc] at hi
        simp only [Bool.not_true, Bool.false_eq_true, if_false, hf, Option.some_bind, hi]
        simp only [List.append_assoc, if_true]

theorem lintWords_length (u : Unicode) : ∀ (n : Nat) (rest : List Char), rest.length ≤ n →
    ∀ (first : Bool) (cur : List Char),
      (lintWords u first cur rest).length = cur.length + rest.length := by
  intro n
  induction n with
  | zero =>
    intro rest h first cur
    have : rest = [] := List.length_eq_zero.mp (by omega)
    subst this
    simp [lintWords]
  | succ n ih =>
    intro rest h first cur
    match rest, h with
    | [], _ => simp [lintWords]
    | [c], _ => simp [lintWords, fixedWord_length]
    | c :: c' :: rest, h =>
      have h' : (c' :: rest).length ≤ n := by simp only [List.length_cons] at h ⊢; omega
      simp only [lintWords]
      split
      · rw [List.length_append, fixedWord_length, ih _ h']
        simp only [List.length_append, List.length_cons, List.length_nil]
        omega
      · rw [ih _ h']
        simp only [List.length_append, List.length_cons, List.length_nil]
        omega

/-- Scanning a chunk `x` without inner word boundary: the word ends after `x` exactly
when the input ends there or `x` ends lowercase before a non-lowercase rune. -/
theorem lintWords_chunk (u : Unicode) (x : List Char) : ∀ (hx : x ≠ []) (first : Bool)
    (cur y : List Char), noBoundary u x →
    lintWords u first cur (x ++ y) =
      match y with
      | [] => fixedWord u first (cur ++ x)
      | c' :: _ =>
        if u.IsLower (x.getLast hx) && !u.IsLower c' then
          fixedWord u first (cur ++ x) ++ lintWords u false [] y
        else lintWords u first (cur ++ x) y := by
  induction x with
  | nil => intro hx; exact absurd rfl hx
  | cons a x ih =>
    intro hx first cur y hnb
    cases x with
    | nil =>
      cases y with
      | nil => simp [lintWords]
      | cons c' y => simp [lintWords]
    | cons a' x =>
      have hnb' : noBoundary u (a' :: x) := List.Chain'.tail hnb
      have hrel : ¬ (u.IsLower a = true ∧ u.IsLower a' = false) := List.Chain'.rel_head hnb
      have hstep : lintWords u first cur (a :: a' :: x ++ y) =
          lintWords u first (cur ++ [a]) (a' :: x ++ y) := by
        simp only [List.cons_append, lintWords]
        rw [if_neg (by simp only [Bool.and_eq_true, Bool.not_eq_true']; exact hrel)]
        rfl
      rw [hstep, ih (by simp) first (cur ++ [a]) y hnb']
      simp only [List.append_assoc, List.singleton_append, List.getLast_cons (List.cons_ne_nil a' x)]

/-- A non-empty input starts with a word `w`: no boundary inside, a boundary after
it unless the input ends, and the scan rewrites `w` and restarts on the rest. -/
theorem lintWords_split (u : Unicode) : ∀ (rest : List Char), rest ≠ [] →
    ∃ (w rest' : List Char) (hw : w ≠ []), rest = w ++ rest' ∧ noBoundary u w ∧
      w.head? = rest.head? ∧
      (rest' ≠ [] → u.IsLower (w.getLast hw) = true ∧ ∀ c ∈ rest'.head?, u.IsLower c = false) ∧
      ∀ (first : Bool) (cur : List Char),
        lintWords u first cur rest = fixedWord u first (cur ++ w) ++ lintWords u false [] rest' := by
  intro rest
  induction rest with
  | nil => intro h; exact absurd rfl h
  | cons c rest ih =>
    intro _
    cases rest with
    | nil =>
      exact ⟨[c], [], by simp, by simp, List.chain'_singleton c, rfl, by simp,
        by intro first cur; simp [lintWords]⟩
    | cons c' rest =>
      by_cases hb : u.IsLower c = true ∧ u.IsLower c' = false
      · refine ⟨[c], c' :: rest, by simp, by simp, List.chain'_singleton c, rfl, ?_, ?_⟩
        · intro _
          simp [hb.1, hb.2]
        · intro first cur
          simp [lintWords, hb.1, hb.2]
      · obtain ⟨w, rest', hw, heq, hnb, hhead, hlast, hlw⟩ := ih (by simp)
        obtain ⟨a, w', rfl⟩ := List.exists_cons_of_ne_nil hw
        simp only [List.head?_cons, Option.some.injEq] at hhead
        subst hhead
        refine ⟨c :: a :: w', rest', by simp, by simp [heq], ?_, rfl, ?_, ?_⟩
        · exact List.Chain'.cons hb hnb
        · intro hr
          have := hlast hr
          simpa [List.getLast_cons] using this
        · intro first cur
          have hstep : lintWords u first cur (c :: a :: rest) =
              lintWords u first (cur ++ [c]) (a :: rest) := by
            simp only [lintWords]
            rw [if_neg (by simp only [Bool.and_eq_true, Bool.not_eq_true']; exact hb)]
          rw [hstep, hlw]
          simp

/-! #### The ASCII case maps -/

theorem isLower_iff (c : Char) : c.isLower = true ↔ 97 ≤ c.toNat ∧ c.toNat ≤ 122 := by
  simp [Char.isLower, Char.toNat, UInt32.le_def, BitVec.le_def]
  rfl

theorem isLower_mem (c : Char) (h : c.isLower = true) :
    c ∈ ['a', 'b', 'c', 'd', 'e', 'f', 'g', 'h', 'i', 'j', 'k', 'l', 'm', 'n', 'o', 'p', 'q',
      'r', 's', 't', 'u', 'v', 'w', 'x', 'y', 'z'] := by
  obtain ⟨h1, h2⟩ := (isLower_iff c).1 h
  have hc : c = Char.ofNat c.toNat := (Char.ofNat_toNat c).symm
  generalize c.toNat = n at h1 h2 hc
  subst hc
  interval_cases n <;> decide

theorem toUpper_of_not_isLower (c : Char) (h : c.isLower = false) : c.toUpper = c := by
  have : ¬ (97 ≤ c.toNat ∧ c.toNat ≤ 122) := by
    rw [← isLower_iff]; simp [h]
  simp only [Char.toUpper]
  rw [if_neg]
  simpa using this

theorem isLower_toUpper (c : Char) : c.toUpper.isLower = false := by
  cases h : c.isLower
  · rw [toUpper_of_not_isLower c h, h]
  · have := isLower_mem c h
    simp only [List.mem_cons, List.mem_singleton, List.not_mem_nil, or_false] at this
    rcases this with rfl | rfl | rfl | rfl | rfl | rfl | rfl | rfl | rfl | rfl | rfl | rfl | rfl |
      rfl | rfl | rfl | rfl | rfl | rfl | rfl | rfl | rfl | rfl | rfl | rfl | rfl <;> rfl

theorem toLower_toUpper_of_isLower (c : Char) (h : c.isLower = true) :
    c.toUpper.toLower = c := by
  have := isLower_mem c h
  simp only [List.mem_cons, List.mem_singleton, List.not_mem_nil, or_false] at this
  rcases this with rfl | rfl | rfl | rfl | rfl | rfl | rfl | rfl | rfl | rfl | rfl | rfl | rfl |
    rfl | rfl | rfl | rfl | rfl | rfl | rfl | rfl | rfl | rfl | rfl | rfl | rfl <;> rfl

theorem map_toUpper_of_not_isLower (w : List Char) (h : ∀ c ∈ w, c.isLower = false) :
    w.map Char.toUpper = w := by
  induction w with
  | nil => rfl
  | cons a w ih =>
    simp only [List.map_cons, toUpper_of_not_isLower a (h a (List.mem_cons_self _ _)),
      ih (fun c hc => h c (List.mem_cons_of_mem _ hc))]

theorem map_toLower_toUpper_of_isLower (w : List Char) (h : ∀ c ∈ w, c.isLower = true) :
    (w.map Char.toUpper).map Char.toLower = w := by
  induction w with
  | nil => rfl
  | cons a w ih =>
    simp only [List.map_cons, toLower_toUpper_of_isLower a (h a (List.mem_cons_self _ _)),
      ih (fun c hc => h c (List.mem_cons_of_mem _ hc))]

theorem not_isLower_of_mem_map_toUpper (w : List Char) :
    ∀ c ∈ w.map Char.toUpper, c.isLower = false := by
  intro c hc
  obtain ⟨a, -, rfl⟩ := List.mem_map.mp hc
  exact isLower_toUpper a

theorem map_toUpper_idem (w : List Char) :
    (w.map Char.toUpper).map Char.toUpper = w.map Char.toUpper :=
  map_toUpper_of_not_isLower _ (not_isLower_of_mem_map_toUpper w)

theorem noBoundary_of_not_isLower (w : List Char) (h : ∀ c ∈ w, c.isLower = false) :
    noBoundary Unicode.ascii w := by
  induction w with
  | nil => exact List.chain'_nil
  | cons a w ih =>
    cases w with
    | nil => exact List.chain'_singleton a
    | cons b w =>
      refine List.Chain'.cons ?_ (ih (fun c hc => h c (List.mem_cons_of_mem _ hc)))
      intro hab
      have := h a (List.mem_cons_self _ _)
      rw [show Unicode.ascii.IsLower a = a.isLower from rfl] at hab
      rw [this] at hab
      exact absurd hab.1 (by decide)

theorem isLower_of_noBoundary (w : List Char) (hnb : noBoundary Unicode.ascii w)
    (hhead : ∀ c ∈ w.head?, c.isLower = true) : ∀ c ∈ w, c.isLower = true := by
  induction w with
  | nil => intro c hc; cases hc
  | cons a w ih =>
    have ha : a.isLower = true := hhead a (by simp)
    intro c hc
    rcases List.mem_cons.mp hc with rfl | hc
    · exact ha
    · cases w with
      | nil => cases hc
      | cons b w =>
        have hrel : ¬ (a.isLower = true ∧ b.isLower = false) := List.Chain'.rel_head hnb
        have hb : b.isLower = true := by
          cases hbl : b.isLower
          · exact absurd ⟨ha, hbl⟩ hrel
          · rfl
        exact ih (List.Chain'.tail hnb) (by intro x hx; simp at hx; subst hx; exact hb) c hc

/-! #### The table of initialisms -/

theorem commonInitialisms_not_isLower :
    ∀ U ∈ commonInitialisms, ∀ c ∈ U.toList, c.isLower = false := by
  decide

/-- An initialism that extends another initialism of the table is longer by one
letter only (`HTTP`/`HTTPS`, `UI`/`UID`). -/
theorem commonInitialisms_prefix :
    ∀ U ∈ commonInitialisms, ∀ V ∈ commonInitialisms, U.toList <+: V.toList →
      V.toList.length ≤ U.toList.length + 1 := by
  decide

theorem isCommonInitialism_iff (x : List Char) :
    isCommonInitialism x = true ↔ ∃ U ∈ commonInitialisms, U.toList = x := by
  simp only [isCommonInitialism, List.contains_iff_exists_mem_beq, beq_iff_eq]
  constructor
  · rintro ⟨U, hU, h⟩
    exact ⟨U, hU, by rw [← h]; rfl⟩
  · rintro ⟨U, hU, h⟩
    exact ⟨U, hU, by rw [← h]; rfl⟩

/-! #### Normalizing the normalized name -/

/-- A word of an underscore-free ASCII name is either left alone or replaced by its
uppercase form, an initialism. -/
theorem fixedWord_ascii_cases (first : Bool) (w : List Char)
    (hnb : noBoundary Unicode.ascii w)
    (hfirst : first = true ∨ ∀ c ∈ w.head?, c.isLower = false) :
    fixedWord Unicode.ascii first w = w ∨
      (isCommonInitialism (w.map Char.toUpper) = true ∧
        fixedWord Unicode.ascii first w = w.map Char.toUpper) := by
  unfold fixedWord
  simp only [Unicode.stringsToUpper, Unicode.stringsToLower,
    show Unicode.ascii.ToUpper = Char.toUpper from rfl,
    show Unicode.ascii.ToLower = Char.toLower from rfl,
    show Unicode.ascii.IsLower = Char.isLower from rfl]
  split
  · rename_i hinit
    split
    · rename_i hc
      left
      apply map_toLower_toUpper_of_isLower
      apply isLower_of_noBoundary w hnb
      intro c hcm
      have := hc.2
      rw [Option.mem_def.mp hcm] at this
      simpa using this
    · exact Or.inr ⟨hinit, rfl⟩
  · split
    · rename_i hc
      left
      cases w with
      | nil => rfl
      | cons a w =>
        rcases hfirst with hf | hf
        · rw [hf] at hc; exact absurd hc.1 (by decide)
        · simp only [toUpper_of_not_isLower a (hf a (by simp))]
    · exact Or.inl rfl

/-- Rewriting a rewritten word changes nothing. -/
theorem fixedWord_ascii_idem (first : Bool) (w : List Char)
    (hnb : noBoundary Unicode.ascii w)
    (hfirst : first = true ∨ ∀ c ∈ w.head?, c.isLower = false) :
    fixedWord Unicode.ascii first (fixedWord Unicode.ascii first w) =
      fixedWord Unicode.ascii first w := by
  rcases fixedWord_ascii_cases first w hnb hfirst with h | ⟨hinit, h⟩
  · rw [h, h]
  · rw [h]
    unfold fixedWord
    simp only [Unicode.stringsToUpper, Unicode.stringsToLower,
      show Unicode.ascii.ToUpper = Char.toUpper from rfl,
      show Unicode.ascii.ToLower = Char.toLower from rfl,
      show Unicode.ascii.IsLower = Char.isLower from rfl, map_toUpper_idem, hinit, if_true]
    rw [if_neg]
    rintro ⟨-, hl⟩
    cases w with
    | nil => simp at hl
    | cons a w =>
      simp only [List.map_cons, List.head?_cons, Option.map_some', Option.some.injEq] at hl
      rw [isLower_toUpper] at hl
      exact absurd hl (by decide)

/-- The rewrite leaves alone a word that consists of uppercased initialisms
followed by one rewritten word. -/
theorem fixedWord_ascii_group (first₁ first₂ : Bool) (cur w : List Char) (hw : w ≠ [])
    (hnb : noBoundary Unicode.ascii w) (hhead : ∀ c ∈ w.head?, c.isLower = false)
    (hcur : cur ≠ []) (hU : ∃ U ∈ commonInitialisms, U.toList <+: cur)
    (hN : ∀ c ∈ cur, c.isLower = false) :
    fixedWord Unicode.ascii first₂ (cur ++ fixedWord Unicode.ascii first₁ w) =
      cur ++ fixedWord Unicode.ascii first₁ w := by
  obtain ⟨h, hcur', rfl⟩ := List.exists_cons_of_ne_nil hcur
  have hh : h.isLower = false := hN h (List.mem_cons_self _ _)
  have hfw := fixedWord_ascii_cases first₁ w hnb (Or.inr hhead)
  have hlen := fixedWord_length Unicode.ascii first₁ w
  generalize fixedWord Unicode.ascii first₁ w = fw at hfw hlen
  -- the uppercase form of the rewritten word
  have hup : isCommonInitialism ((h :: hcur' ++ fw).map Char.toUpper) = true →
      fw.map Char.toUpper = fw := by
    intro hinit
    rcases hfw with rfl | ⟨-, rfl⟩
    · obtain ⟨V, hV, hVeq⟩ := (isCommonInitialism_iff _).1 hinit
      obtain ⟨U, hUm, hUp⟩ := hU
      have hpre : U.toList <+: V.toList := by
        rw [hVeq, List.map_append, map_toUpper_of_not_isLower _ hN]
        exact hUp.trans (List.prefix_append _ _)
      have hle := commonInitialisms_prefix U hUm V hV hpre
      have hlU : U.toList.length ≤ (h :: hcur').length := hUp.length_le
      have hlV : V.toList.length = (h :: hcur').length + fw.length := by
        rw [hVeq]
        simp only [List.length_map, List.length_append]
      have h1 : fw.length ≤ 1 := by omega
      match fw, hw, h1, hhead with
      | [], hw, _, _ => exact absurd rfl hw
      | [c], _, _, hhead =>
        simp only [List.map_cons, List.map_nil, toUpper_of_not_isLower c (hhead c (by simp))]
      | _ :: _ :: _, _, h1, _ => simp at h1
    · exact map_toUpper_idem w
  unfold fixedWord
  simp only [Unicode.stringsToUpper, Unicode.stringsToLower,
    show Unicode.ascii.ToUpper = Char.toUpper from rfl,
    show Unicode.ascii.ToLower = Char.toLower from rfl,
    show Unicode.ascii.IsLower = Char.isLower from rfl]
  split
  · rename_i hinit
    rw [if_neg]
    · rw [List.map_append, map_toUpper_of_not_isLower _ hN, hup hinit]
    · rintro ⟨-, hl⟩
      simp only [List.cons_append, List.head?_cons, Option.map_some', Option.some.injEq] at hl
      rw [hh] at hl
      exact absurd hl (by decide)
  · split
    · simp only [List.cons_append, toUpper_of_not_isLower h hh]
    · rfl

/-- The output for a rest that starts non-lowercase starts non-lowercase. -/
theorem lintWords_head_not_isLower (rest : List Char) (hne : rest ≠ [])
    (hh : ∀ c ∈ rest.head?, c.isLower = false) :
    ∀ c ∈ (lintWords Unicode.ascii false [] rest).head?, c.isLower = false := by
  obtain ⟨w, rest', hw, -, hnb, hhead, -, hlw⟩ := lintWords_split Unicode.ascii rest hne
  rw [hlw false [], List.nil_append]
  have hhw : ∀ c ∈ w.head?, c.isLower = false := by rw [hhead]; exact hh
  obtain ⟨a, w', rfl⟩ := List.exists_cons_of_ne_nil hw
  have ha : a.isLower = false := hhw a (by simp)
  rcases fixedWord_ascii_cases false (a :: w') hnb (Or.inr hhw) with h | ⟨-, h⟩
  · rw [h]
    intro c hc
    simp only [List.cons_append, List.head?_cons, Option.mem_def, Option.some.injEq] at hc
    subst hc
    exact ha
  · rw [h]
    intro c hc
    simp only [List.map_cons, List.cons_append, List.head?_cons, Option.mem_def,
      Option.some.injEq] at hc
    subst hc
    exact isLower_toUpper a

/-- Scanning the output of a scan reproduces it, also when the second scan arrives
with uppercased initialisms `cur` pending in its current word. -/
theorem lintWords_ascii_fixed : ∀ (n : Nat) (rest : List Char), rest.length ≤ n →
    ∀ (first₁ first₂ : Bool) (cur : List Char),
      (first₁ = true ∨ ∀ c ∈ rest.head?, c.isLower = false) →
      ((cur = [] ∧ first₂ = first₁) ∨
        (first₁ = false ∧ cur ≠ [] ∧ (∃ U ∈ commonInitialisms, U.toList <+: cur) ∧
          ∀ c ∈ cur, c.isLower = false)) →
      lintWords Unicode.ascii first₂ cur (lintWords Unicode.ascii first₁ [] rest) =
        cur ++ lintWords Unicode.ascii first₁ [] rest := by
  intro n
  induction n with
  | zero =>
    intro rest hlen first₁ first₂ cur _ _
    have : rest = [] := List.length_eq_zero.mp (by omega)
    subst this
    simp [lintWords]
  | succ n ih =>
    intro rest hlen first₁ first₂ cur hfirst hcur
    by_cases hne : rest = []
    · subst hne
      simp [lintWords]
    obtain ⟨w, rest', hw, heq, hnb, hhead, hlast, hlw⟩ := lintWords_split Unicode.ascii rest hne
    have hlen' : rest'.length ≤ n := by
      have := List.length_pos.mpr hw
      rw [heq, List.length_append] at hlen
      omega
    have hwfirst : first₁ = true ∨ ∀ c ∈ w.head?, c.isLower = false := by
      rw [hhead]; exact hfirst
    rw [hlw first₁ [], List.nil_append]
    have hcases := fixedWord_ascii_cases first₁ w hnb hwfirst
    have hfwlen := fixedWord_length Unicode.ascii first₁ w
    -- the rewritten word, seen again, stays as it is
    have hfix : fixedWord Unicode.ascii first₂ (cur ++ fixedWord Unicode.ascii first₁ w) =
        cur ++ fixedWord Unicode.ascii first₁ w := by
      rcases hcur with ⟨rfl, rfl⟩ | ⟨hf, hc, hU, hN⟩
      · rw [List.nil_append]
        exact fixedWord_ascii_idem first₂ w hnb hwfirst
      · have hhw : ∀ c ∈ w.head?, c.isLower = false := by
          rcases hwfirst with h | h
          · rw [hf] at h; exact absurd h (by decide)
          · exact h
        exact fixedWord_ascii_group first₁ first₂ cur w hw hnb hhw hc hU hN
    have hfwne : fixedWord Unicode.ascii first₁ w ≠ [] := by
      intro h
      rw [h] at hfwlen
      exact hw (List.length_eq_zero.mp hfwlen.symm)
    have hfwnb : noBoundary Unicode.ascii (fixedWord Unicode.ascii first₁ w) := by
      rcases hcases with h | ⟨-, h⟩
      · rw [h]; exact hnb
      · rw [h]; exact noBoundary_of_not_isLower _ (not_isLower_of_mem_map_toUpper w)
    rw [lintWords_chunk Unicode.ascii _ hfwne first₂ cur _ hfwnb]
    generalize htail : lintWords Unicode.ascii false [] rest' = tail
    cases tail with
    | nil => simpa using hfix
    | cons c' t =>
      have hr' : rest' ≠ [] := by
        intro h
        rw [h] at htail
        simp [lintWords] at htail
      obtain ⟨hl, hh'⟩ := hlast hr'
      have hc' : c'.isLower = false := by
        have := lintWords_head_not_isLower rest' hr' hh'
        rw [htail] at this
        exact this c' (by simp)
      simp only []
      split
      · rename_i hb
        have hi := ih rest' hlen' false false [] (Or.inr hh') (Or.inl ⟨rfl, rfl⟩)
        rw [htail, List.nil_append] at hi
        rw [hfix, hi, List.append_assoc]
      · rename_i hb
        -- no boundary after the word: it was rewritten to an uppercased initialism
        have hupper : isCommonInitialism (w.map Char.toUpper) = true ∧
            fixedWord Unicode.ascii first₁ w = w.map Char.toUpper := by
          rcases hcases with h | h
          · exfalso
            apply hb
            have hlast' : (fixedWord Unicode.ascii first₁ w).getLast hfwne = w.getLast hw := by
              congr 1
            rw [hlast']
            rw [show Unicode.ascii.IsLower = Char.isLower from rfl] at hl ⊢
            rw [hl, hc']
            rfl
          · exact h
        have hcur' : (cur ++ fixedWord Unicode.ascii first₁ w = [] ∧ first₂ = false) ∨
            (false = false ∧ cur ++ fixedWord Unicode.ascii first₁ w ≠ [] ∧
              (∃ U ∈ commonInitialisms, U.toList <+: cur ++ fixedWord Unicode.ascii first₁ w) ∧
              ∀ c ∈ cur ++ fixedWord Unicode.ascii first₁ w, c.isLower = false) := by
          refine Or.inr ⟨rfl, by simp [hfwne], ?_, ?_⟩
          · rcases hcur with ⟨rfl, -⟩ | ⟨-, -, ⟨U, hU, hp⟩, -⟩
            · obtain ⟨U, hU, hUeq⟩ := (isCommonInitialism_iff _).1 hupper.1
              exact ⟨U, hU, by rw [List.nil_append, hupper.2, hUeq]⟩
            · exact ⟨U, hU, hp.trans (List.prefix_append _ _)⟩
          · intro c hc
            rcases List.mem_append.mp hc with hc | hc
            · rcases hcur with ⟨rfl, -⟩ | ⟨-, -, -, hN⟩
              · cases hc
              · exact hN c hc
            · rw [hupper.2] at hc
              exact not_isLower_of_mem_map_toUpper w c hc
        have hi := ih rest' hlen' false first₂ (cur ++ fixedWord Unicode.ascii first₁ w)
          (Or.inr hh') hcur'
        rw [htail] at hi
        rw [hi, List.append_assoc]

theorem isUpper_mem (c : Char) : (65 ≤ c.toNat ∧ c.toNat ≤ 90) →
    c ∈ ['A', 'B', 'C', 'D', 'E', 'F', 'G', 'H', 'I', 'J', 'K', 'L', 'M', 'N', 'O', 'P', 'Q',
      'R', 'S', 'T', 'U', 'V', 'W', 'X', 'Y', 'Z'] := by
  rintro ⟨h1, h2⟩
  have hc : c = Char.ofNat c.toNat := (Char.ofNat_toNat c).symm
  generalize c.toNat = n at h1 h2 hc
  subst hc
  interval_cases n <;> decide

theorem toUpper_ne_underscore (c : Char) (h : c ≠ '_') : c.toUpper ≠ '_' := by
  cases hl : c.isLower
  · rw [toUpper_of_not_isLower c hl]; exact h
  · intro he
    have := isLower_toUpper c
    have := isLower_mem c hl
    simp only [List.mem_cons, List.mem_singleton, List.not_mem_nil, or_false] at this
    rcases this with rfl | rfl | rfl | rfl | rfl | rfl | rfl | rfl | rfl | rfl | rfl | rfl | rfl |
      rfl | rfl | rfl | rfl | rfl | rfl | rfl | rfl | rfl | rfl | rfl | rfl | rfl <;>
      exact absurd he (by decide)

theorem toLower_ne_underscore (c : Char) (h : c ≠ '_') : c.toLower ≠ '_' := by
  by_cases hu : 65 ≤ c.toNat ∧ c.toNat ≤ 90
  · intro he
    have := isUpper_mem c hu
    simp only [List.mem_cons, List.mem_singleton, List.not_mem_nil, or_false] at this
    rcases this with rfl | rfl | rfl | rfl | rfl | rfl | rfl | rfl | rfl | rfl | rfl | rfl | rfl |
      rfl | rfl | rfl | rfl | rfl | rfl | rfl | rfl | rfl | rfl | rfl | rfl | rfl <;>
      exact absurd he (by decide)
  · have : c.toLower = c := by
      simp only [Char.toLower]
      rw [if_neg]
      simpa using hu
    rw [this]; exact h

theorem fixedWord_ne_underscore (first : Bool) (w : List Char) (h : ∀ c ∈ w, c ≠ '_') :
    ∀ c ∈ fixedWord Unicode.ascii first w, c ≠ '_' := by
  unfold fixedWord
  simp only [Unicode.stringsToUpper, Unicode.stringsToLower,
    show Unicode.ascii.ToUpper = Char.toUpper from rfl,
    show Unicode.ascii.ToLower = Char.toLower from rfl]
  split
  · split
    · intro c hc
      simp only [List.map_map, List.mem_map, Function.comp] at hc
      obtain ⟨a, ha, rfl⟩ := hc
      exact toLower_ne_underscore _ (toUpper_ne_underscore a (h a ha))
    · intro c hc
      obtain ⟨a, ha, rfl⟩ := List.mem_map.mp hc
      exact toUpper_ne_underscore a (h a ha)
  · split
    · cases w with
      | nil => intro c hc; cases hc
      | cons a w =>
        intro c hc
        rcases List.mem_cons.mp hc with rfl | hc
        · exact toUpper_ne_underscore a (h a (List.mem_cons_self _ _))
        · exact h c (List.mem_cons_of_mem _ hc)
    · exact h

theorem lintWords_ne_underscore : ∀ (n : Nat) (rest : List Char), rest.length ≤ n →
    ∀ (first : Bool) (cur : List Char), (∀ c ∈ cur, c ≠ '_') → (∀ c ∈ rest, c ≠ '_') →
      ∀ c ∈ lintWords Unicode.ascii first cur rest, c ≠ '_' := by
  intro n
  induction n with
  | zero =>
    intro rest h first cur hcur _
    have : rest = [] := List.length_eq_zero.mp (by omega)
    subst this
    simpa [lintWords] using hcur
  | succ n ih =>
    intro rest h first cur hcur hrest
    match rest, h, hrest with
    | [], _, _ => simpa [lintWords] using hcur
    | [a], _, hrest =>
      simp only [lintWords]
      apply fixedWord_ne_underscore
      intro c hc
      rcases List.mem_append.mp hc with hc | hc
      · exact hcur c hc
      · exact hrest c hc
    | a :: a' :: rest, h, hrest =>
      have h' : (a' :: rest).length ≤ n := by simp only [List.length_cons] at h ⊢; omega
      have hcur' : ∀ c ∈ cur ++ [a], c ≠ '_' := by
        intro c hc
        rcases List.mem_append.mp hc with hc | hc
        · exact hcur c hc
        · exact hrest c (by simp at hc; simp [hc])
      have hrest' : ∀ c ∈ a' :: rest, c ≠ '_' := fun c hc => hrest c (List.mem_cons_of_mem _ hc)
      simp only [lintWords]
      split
      · intro c hc
        rcases List.mem_append.mp hc with hc | hc
        · exact fixedWord_ne_underscore first _ hcur' c hc
        · exact ih _ h' false [] (by simp) hrest' c hc
      · exact ih _ h' first _ hcur' hrest'

/-- Without underscores after the first rune, the loop of `LintName` computes
`lintWords`. -/
theorem lintRunes_eq_lintWords (u : Unicode) (s : List Char) (h : ∀ c ∈ s.tail, c ≠ '_') :
    lintRunes u s = some (lintWords u true [] s) := by
  have := lintLoop_eq u s.length [] [] s h (le_refl _)
  simpa [lintRunes] using this

/-- On an underscore-free name `LintName` succeeds and its result is a fixed point. -/
theorem LintNameRunes_ascii_fixed (s : List Char) (h : ∀ c ∈ s, c ≠ '_') :
    ∃ o, LintNameRunes Unicode.ascii s = some o ∧ LintNameRunes Unicode.ascii o = some o := by
  unfold LintNameRunes
  by_cases h₁ : s = ['_']
  · exact ⟨s, by simp [h₁], by simp [h₁]⟩
  by_cases h₂ : s.all Unicode.ascii.IsLower = true
  · exact ⟨s, by simp [h₁, h₂], by simp [h₁, h₂]⟩
  refine ⟨lintWords Unicode.ascii true [] s, ?_, ?_⟩
  · rw [if_neg h₁, if_neg h₂]
    exact lintRunes_eq_lintWords _ s (fun c hc => h c (List.mem_of_mem_tail hc))
  · split
    · rfl
    · split
      · rfl
      · have ho : ∀ c ∈ lintWords Unicode.ascii true [] s, c ≠ '_' :=
          lintWords_ne_underscore s.length s (le_refl _) true [] (by simp) h
        rw [lintRunes_eq_lintWords _ _ (fun c hc => ho c (List.mem_of_mem_tail hc))]
        have := lintWords_ascii_fixed s.length s (le_refl _) true true [] (Or.inl rfl)
          (Or.inl ⟨rfl, rfl⟩)
        rw [this, List.nil_append]

/-- C1, amended: on every ASCII name that contains no underscore, normalizing twice
gives the same string as normalizing once. -/
theorem LintName_idempotent_of_no_underscore (name : String)
    (_hascii : ∀ c ∈ name.toList, c.toNat < 128) (hno : ∀ c ∈ name.toList, c ≠ '_') :
    (LintName Unicode.ascii name).bind (LintName Unicode.ascii) = LintName Unicode.ascii name := by
  obtain ⟨o, h₁, h₂⟩ := LintNameRunes_ascii_fixed name.toList hno
  have h₃ : LintName Unicode.ascii (String.mk o) = some (String.mk o) := by
    simp only [LintName, show (String.mk o).toList = o from rfl, h₂, Option.map_some']
  simp only [LintName, h₁, Option.map_some', Option.some_bind]
  simpa [LintName] using h₃

theorem LintName_idempotent_of_no_underscore_witness :
    (LintName Unicode.ascii "APi").bind (LintName Unicode.ascii) = LintName Unicode.ascii "APi" ∧
      LintName Unicode.ascii "APi" = some "API" :=
  ⟨LintName_idempotent_of_no_underscore "APi" (by decide) (by decide), by decide⟩

/-! ### `IsPtr`, `IsSlice` and the shape of modifier stacks -/

/-- C16: `IsPtr()` holds iff `Modifiers` starts with `"*"`; `IsSlice()` holds iff
`Modifiers` starts with `"[]"` or with `"*"`, `"[]"`; so `IsSlice` is true for
`["[]"]` and `["[]","*"]` and false for the empty stack. -/
theorem IsPtr_IsSlice_iff (t : TypeReference) :
    (t.IsPtr = true ↔ ∃ rest, t.Modifiers = "*" :: rest) ∧
      (t.IsSlice = true ↔
        (∃ rest, t.Modifiers = "[]" :: rest) ∨ ∃ rest, t.Modifiers = "*" :: "[]" :: rest) ∧
      TypeReference.IsSlice { t with Modifiers := ["[]"] } = true ∧
      TypeReference.IsSlice { t with Modifiers := ["[]", "*"] } = true ∧
      TypeReference.IsSlice { t with Modifiers := [] } = false := by
  refine ⟨?_, ?_, by simp [TypeReference.IsSlice, modList], by simp [TypeReference.IsSlice, modList],
    by simp [TypeReference.IsSlice]⟩
  · rcases hm : t.Modifiers with _ | ⟨a, rest⟩
    · simp [TypeReference.IsPtr, hm]
    · simp [TypeReference.IsPtr, hm, modPtr]
  · rcases hm : t.Modifiers with _ | ⟨a, _ | ⟨b, rest⟩⟩
    · simp [TypeReference.IsSlice, hm]
    · by_cases ha : a = "[]" <;> simp [TypeReference.IsSlice, hm, modList, modPtr, ha]
    · by_cases ha : a = "[]" <;> by_cases hb : b = "[]" <;>
        simp [TypeReference.IsSlice, hm, modList, modPtr, ha, hb]

/-- C20: for a schema type of list nesting depth `n`, `typeModifiersGQL` returns `n`
copies of `"[]"` followed by one `"*"` exactly when the innermost named type is
nullable; the stack has length `n` or `n + 1`, holds at most one `"*"`, only in last
position, and is the same for two types that differ in the nullability of list
wrappers only. -/
theorem typeModifiersGQL_shape (t : ASTType) :
    typeModifiersGQL t =
        List.replicate t.listDepth "[]" ++ (if t.innerNonNull then [] else ["*"]) ∧
      (typeModifiersGQL t).length = t.listDepth + (if t.innerNonNull then 0 else 1) ∧
      (typeModifiersGQL t).count "*" = (if t.innerNonNull then 0 else 1) ∧
      (∀ k : Nat, (typeModifiersGQL t)[k]? = some "*" →
        t.innerNonNull = false ∧ k + 1 = (typeModifiersGQL t).length) ∧
      ∀ t' : ASTType, t'.listDepth = t.listDepth → t'.innerNonNull = t.innerNonNull →
        typeModifiersGQL t' = typeModifiersGQL t := by
  refine ⟨typeModifiersGQL_eq t, ?_, ?_, ?_, ?_⟩
  · rw [typeModifiersGQL_eq]
    cases t.innerNonNull <;> simp
  · rw [typeModifiersGQL_eq]
    cases t.innerNonNull <;> simp [List.count_replicate]
  · intro k hk
    rw [typeModifiersGQL_eq] at hk ⊢
    cases hnn : t.innerNonNull
    · rw [hnn] at hk
      simp only [Bool.false_eq_true, if_false, List.length_append, List.length_replicate,
        List.length_singleton] at hk ⊢
      refine ⟨trivial, ?_⟩
      by_cases hlt : k < t.listDepth
      · rw [List.getElem?_append_left (by simpa using hlt)] at hk
        simp [List.getElem?_replicate, hlt] at hk
      · rw [List.getElem?_append_right (by simpa using hlt)] at hk
        simp only [List.length_replicate] at hk
        rcases hsub : k - t.listDepth with _ | m
        · omega
        · rw [hsub] at hk; simp at hk
    · rw [hnn] at hk
      simp [List.getElem?_replicate] at hk
  · intro t' hd hn
    rw [typeModifiersGQL_eq, typeModifiersGQL_eq, hd, hn]

theorem typeModifiersGQL_shape_witness :
    typeModifiersGQL (.list "" (.list "" (.named "Int" false) true) true) =
      typeModifiersGQL (.list "" (.list "" (.named "Int" false) false) false) :=
  (typeModifiersGQL_shape (.list "" (.list "" (.named "Int" false) false) false)).2.2.2.2
    (.list "" (.list "" (.named "Int" false) true) true) rfl rfl

/-! ### `RenderToFile` -/

/-- A call of `RenderToFile` with an active tracker does nothing but panic. -/
theorem RenderToFile_reentrant_aux {Ty D : Type} (env : RenderEnv D) (r : Renderer Ty)
    (tpl filename : String) (data : D) (imports : Imports)
    (h : r.CurrentImports = some imports) :
    (r.RenderToFile env tpl filename data).2 =
      ([], Outcome.panic "recursive or concurrent call to RenderToFile detected") := by
  simp only [Renderer.RenderToFile, h]

/-- C12: called while a tracker is active, `RenderToFile` panics with the reentrancy
error, runs no template, writes nothing and leaves the renderer, its tracker
included, as it was. -/
theorem RenderToFile_reentrant {Ty D : Type} (env : RenderEnv D) (r : Renderer Ty)
    (tpl filename : String) (data : D) (imports : Imports)
    (h : r.CurrentImports = some imports) :
    r.RenderToFile env tpl filename data =
      (r, [], Outcome.panic "recursive or concurrent call to RenderToFile detected") := by
  simp only [Renderer.RenderToFile, h]

theorem RenderToFile_reentrant_witness :
    (exampleRenderer.RenderToFile exampleRenderEnv "model/models.gotpl" "gen/models.go" ()).2 =
        ([], Outcome.panic "recursive or concurrent call to RenderToFile detected") ∧
      (exampleRenderer.RenderToFile exampleRenderEnv "model/models.gotpl" "gen/models.go"
        ()).1.CurrentImports = exampleRenderer.CurrentImports := by
  rw [RenderToFile_reentrant exampleRenderEnv exampleRenderer "model/models.gotpl"
    "gen/models.go" () ⟨"gen", []⟩ rfl]
  exact ⟨rfl, rfl⟩

/-- C11, the code at the failing input: when the template fails to execute,
`RenderToFile` returns the wrapped error with the new tracker still active, so the
next `RenderToFile` panics; only after a rendered buffer is the tracker cleared. -/
theorem RenderToFile_tracker_after {Ty D : Type} (env : RenderEnv D) (r : Renderer Ty)
    (tpl filename : String) (data : D) (h : r.CurrentImports = none) :
    (∀ err, env.execute tpl data (some ⟨env.dir filename, []⟩) =
        Outcome.returned (Except.error err) →
      (r.RenderToFile env tpl filename data).2.2 =
          Outcome.returned (some (filename ++ " generation failed: " ++ err)) ∧
        (r.RenderToFile env tpl filename data).1.CurrentImports =
          some (env.reserved tpl data ⟨env.dir filename, []⟩) ∧
        ∀ (tpl' filename' : String) (data' : D),
          ((r.RenderToFile env tpl filename data).1.RenderToFile env tpl' filename' data').2 =
            ([], Outcome.panic "recursive or concurrent call to RenderToFile detected")) ∧
      ∀ buf, env.execute tpl data (some ⟨env.dir filename, []⟩) =
          Outcome.returned (Except.ok buf) →
        (r.RenderToFile env tpl filename data).1.CurrentImports = none := by
  constructor
  · intro err he
    have hst : (r.RenderToFile env tpl filename data).1.CurrentImports =
        some (env.reserved tpl data ⟨env.dir filename, []⟩) := by
      simp only [Renderer.RenderToFile, h, Renderer.Run, he, Option.map_some']
    refine ⟨?_, hst, ?_⟩
    · simp only [Renderer.RenderToFile, h, Renderer.Run, he]
    · intro tpl' filename' data'
      rw [RenderToFile_reentrant_aux env _ tpl' filename' data' _ hst]
  · intro buf he
    simp only [Renderer.RenderToFile, h, Renderer.Run, he, Option.map_some']

theorem RenderToFile_tracker_after_witness :
    (idleRenderer.RenderToFile exampleRenderEnv "bad.gotpl" "gen/models.go" ()).2.2 =
        Outcome.returned
          (some "gen/models.go generation failed: template: bad.gotpl: execution failed") ∧
      (idleRenderer.RenderToFile exampleRenderEnv "bad.gotpl" "gen/models.go"
        ()).1.CurrentImports.isSome = true ∧
      ((idleRenderer.RenderToFile exampleRenderEnv "bad.gotpl" "gen/models.go"
        ()).1.RenderToFile exampleRenderEnv "model/models.gotpl" "gen/models.go" ()).2 =
        ([], Outcome.panic "recursive or concurrent call to RenderToFile detected") := by
  have h := (RenderToFile_tracker_after exampleRenderEnv idleRenderer "bad.gotpl"
    "gen/models.go" () rfl).1 "template: bad.gotpl: execution failed" rfl
  refine ⟨h.1.trans (by decide), ?_, h.2.2 _ _ _⟩
  rw [h.2.1]
  rfl

/-! ### `FindGoType` -/

/-- The loop over `pkg.Defs` ends, unless it meets a nil object under the name it
looks for. -/
theorem findDef_isSome {Ty : Type} (scope : Nat) (typeName : String) (defs : List (DefEntry Ty))
    (h : ∀ e ∈ defs, e.Name = typeName → e.Def ≠ none) :
    (findDef scope typeName defs).isSome = true := by
  induction defs with
  | nil => rfl
  | cons e rest ih =>
    have ih' := ih (fun e' he' => h e' (List.mem_cons_of_mem _ he'))
    simp only [findDef]
    split
    · exact ih'
    · rename_i hname
      have hname' : e.Name = typeName := by simpa using hname
      have := h e (List.mem_cons_self _ _) hname'
      rcases hd : e.Def with _ | ⟨parent, obj⟩
      · exact absurd hd this
      · simp only []
        split
        · exact ih'
        · rfl

/-- C13, as stated, fails: for the empty package name `FindGoType` returns neither a
symbol nor an error. -/
theorem FindGoType_empty_package :
    exampleRenderer.FindGoType "" "string" = some (none, none) := by
  rfl

/-- C13, amended: for a non-empty package name `FindGoType` returns, unless it
panics on a nil object, either a symbol and no error, or no symbol and one of three
errors that name `pkgName.typeName` (package not resolvable, package not loaded,
symbol absent at package scope); when no identifier of that name carries a nil object
it does return; for the empty package name it returns neither symbol nor error. -/
theorem FindGoType_result {Ty : Type} (r : Renderer Ty) (pkgName typeName : String) :
    (pkgName = "" → r.FindGoType pkgName typeName = some (none, none)) ∧
      (pkgName ≠ "" →
        (r.FindGoType pkgName typeName = none ∨
          (∃ obj, r.FindGoType pkgName typeName = some (some obj, none)) ∨
          ∃ msg, r.FindGoType pkgName typeName = some (none, some msg) ∧
            ((∃ err, r.resolvePkg pkgName = Except.error err ∧
                msg = "unable to resolve package for " ++ (pkgName ++ "." ++ typeName) ++
                  ": " ++ err ++ "\n") ∨
              msg = "required package was not loaded: " ++ (pkgName ++ "." ++ typeName) ∨
              msg = "unable to find type " ++ (pkgName ++ "." ++ typeName) ++ "\n")) ∧
        ((∀ path pkg, r.resolvePkg pkgName = Except.ok path →
            r.Imported.lookup path = some pkg →
            ∀ e ∈ pkg.Defs, e.Name = typeName → e.Def ≠ none) →
          (r.FindGoType pkgName typeName).isSome = true)) := by
  constructor
  · intro h
    simp [Renderer.FindGoType, h]
  · intro h
    constructor
    · simp only [Renderer.FindGoType, h, if_false, ne_eq, not_false_eq_true, if_true]
      rcases hres : r.resolvePkg pkgName with err | path
      · exact Or.inr (Or.inr ⟨_, rfl, Or.inl ⟨err, rfl, rfl⟩⟩)
      · simp only []
        rcases hpkg : r.Imported.lookup path with _ | pkg
        · exact Or.inr (Or.inr ⟨_, rfl, Or.inr (Or.inl rfl)⟩)
        · simp only []
          rcases hfd : findDef pkg.Scope typeName pkg.Defs with _ | _ | obj
          · exact Or.inl rfl
          · exact Or.inr (Or.inr ⟨_, rfl, Or.inr (Or.inr rfl)⟩)
          · exact Or.inr (Or.inl ⟨obj, rfl⟩)
    · intro hnil
      simp only [Renderer.FindGoType, h, if_false, ne_eq, not_false_eq_true, if_true]
      rcases hres : r.resolvePkg pkgName with err | path
      · rfl
      · simp only []
        rcases hpkg : r.Imported.lookup path with _ | pkg
        · rfl
        · simp only []
          have := findDef_isSome pkg.Scope typeName pkg.Defs (hnil path pkg hres hpkg)
          rcases hfd : findDef pkg.Scope typeName pkg.Defs with _ | _ | obj
          · rw [hfd] at this; simp at this
          · rfl
          · rfl

theorem FindGoType_result_witness :
    (exampleRenderer.FindGoType "time" "Time").isSome = true ∧
      exampleRenderer.FindGoType "time" "Time" =
        some (none, some "required package was not loaded: time.Time") :=
  ⟨((FindGoType_result exampleRenderer "time" "Time").2 (by decide)).2
      (fun path pkg _ hp => by simp [exampleRenderer] at hp), rfl⟩

/-! ### `LintName` returns for every input -/

theorem copy_length (dst src : List Char) : (copy dst src).length = dst.length := by
  simp only [copy, List.length_append, List.length_take, List.length_drop]
  omega

theorem copyAt_eq_some (runes : List Char) (a : Nat) (src : List Char) (h : a ≤ runes.length) :
    ∃ runes', copyAt runes a src = some runes' ∧ runes'.length = runes.length := by
  refine ⟨runes.take a ++ copy (runes.drop a) src, ?_, ?_⟩
  · simp [copyAt, sliceFrom, h]
  · simp only [List.length_append, List.length_take, copy_length, List.length_drop]
    omega

theorem underscoreRun_eq_some (runes : List Char) (i : Nat) : ∀ (fuel n : Nat),
    i + n + 1 ≤ runes.length → runes.length - (i + n + 1) < fuel →
    ∃ n', underscoreRun runes i fuel n = some n' ∧ n ≤ n' ∧ i + n' + 1 ≤ runes.length ∧
      ∀ c, runes[i + n' + 1]? = some c → c ≠ '_' := by
  intro fuel
  induction fuel with
  | zero => intro n _ h; omega
  | succ fuel ih =>
    intro n hle hfuel
    simp only [underscoreRun]
    by_cases hlt : i + n + 1 < runes.length
    · rw [if_pos hlt]
      have hget : runes[i + n + 1]? = some (runes[i + n + 1]) := List.getElem?_eq_getElem hlt
      rw [hget]
      simp only []
      by_cases hc : runes[i + n + 1] = '_'
      · rw [if_pos hc]
        obtain ⟨n', h₁, h₂, h₃, h₄⟩ := ih (n + 1) (by omega) (by omega)
        exact ⟨n', h₁, by omega, h₃, h₄⟩
      · rw [if_neg hc]
        refine ⟨n, rfl, le_refl _, hle, ?_⟩
        intro c hc'
        rw [hget] at hc'
        cases hc'
        exact hc
    · rw [if_neg hlt]
      refine ⟨n, rfl, le_refl _, hle, ?_⟩
      intro c hc'
      rw [List.getElem?_eq_none (by omega)] at hc'
      cases hc'

/-- The shift of `scanStep`: dropping `n` runes after position `i`. -/
theorem shift_eq (runes : List Char) (i n : Nat) (h : i + n + 1 ≤ runes.length) :
    (do
      let src ← sliceFrom runes (i + n + 1)
      let runes' ← copyAt runes (i + 1) src
      let runes' ← if n ≤ runes'.length then slice runes' 0 (runes'.length - n) else none
      pure (runes', true)) =
      some (runes.take (i + 1) ++ runes.drop (i + n + 1), true) := by
  have h₁ : sliceFrom runes (i + n + 1) = some (runes.drop (i + n + 1)) := by
    simp [sliceFrom, h]
  have h₂ : copyAt runes (i + 1) (runes.drop (i + n + 1)) =
      some (runes.take (i + 1) ++ (runes.drop (i + n + 1) ++
        (runes.drop (i + 1)).drop (runes.drop (i + n + 1)).length)) := by
    have hle : i + 1 ≤ runes.length := by omega
    have ht : List.take (runes.drop (i + 1)).length (runes.drop (i + n + 1)) =
        runes.drop (i + n + 1) := by
      apply List.take_of_length_le
      simp only [List.length_drop]
      omega
    simp only [copyAt, sliceFrom, hle, if_true, Option.bind_eq_bind, Option.some_bind, copy, ht,
      pure]
  have hlen : (runes.take (i + 1) ++ (runes.drop (i + n + 1) ++
      (runes.drop (i + 1)).drop (runes.drop (i + n + 1)).length)).length = runes.length := by
    simp only [List.length_append, List.length_take, List.length_drop]
    omega
  have h₃ : slice (runes.take (i + 1) ++ (runes.drop (i + n + 1) ++
      (runes.drop (i + 1)).drop (runes.drop (i + n + 1)).length)) 0 (runes.length - n) =
      some (runes.take (i + 1) ++ runes.drop (i + n + 1)) := by
    have hb : runes.length - n ≤ (runes.take (i + 1) ++ (runes.drop (i + n + 1) ++
        (runes.drop (i + 1)).drop (runes.drop (i + n + 1)).length)).length := by
      rw [hlen]; omega
    simp only [slice, Nat.zero_le, hb, and_self, if_true, List.drop_zero]
    rw [← List.append_assoc]
    rw [List.take_left']
    simp only [List.length_append, List.length_take, List.length_drop]
    omega
  have hn : n ≤ runes.length := by omega
  simp only [h₁, h₂, Option.bind_eq_bind, Option.some_bind, hlen, hn, if_true, h₃, pure]

theorem scanStep_spec (u : Unicode) (runes : List Char) (i : Nat) (h : i + 1 ≤ runes.length) :
    ∃ runes' eow, scanStep u runes i = some (runes', eow) ∧ i + 1 ≤ runes'.length ∧
      runes'.length ≤ runes.length ∧ runes'.take (i + 1) = runes.take (i + 1) ∧
      (runes' = runes ∨ runes[i + 1]? = some '_') ∧
      ∀ c, runes'[i + 1]? = some c → c = '_' →
        ∃ a b, runes'[i]? = some a ∧ runes'[i + 2]? = some b ∧
          u.IsDigit a = true ∧ u.IsDigit b = true := by
  have hi : runes[i]? = some (runes[i]) := List.getElem?_eq_getElem (by omega)
  by_cases hlast : i + 1 = runes.length
  · refine ⟨runes, true, by simp [scanStep, hlast], h, le_refl _, rfl, Or.inl rfl, ?_⟩
    intro c hc
    rw [List.getElem?_eq_none (by omega)] at hc
    cases hc
  have hlt : i + 1 < runes.length := by omega
  have hnext : runes[i + 1]? = some (runes[i + 1]) := List.getElem?_eq_getElem hlt
  by_cases hus : runes[i + 1] = '_'
  · obtain ⟨n, hn, hn1, hnle, hnc⟩ := underscoreRun_eq_some runes i runes.length 1
      (by omega) (by omega)
    -- the number of runes that are dropped, and what is known when one is kept
    have key : ∃ m, i + m + 1 ≤ runes.length ∧
        scanStep u runes i = some (runes.take (i + 1) ++ runes.drop (i + m + 1), true) ∧
        ((∀ c, runes[i + m + 1]? = some c → c ≠ '_') ∨
          ∃ b, runes[i + m + 2]? = some b ∧ u.IsDigit (runes[i]) = true ∧
            u.IsDigit b = true) := by
      by_cases hlt' : i + n + 1 < runes.length
      · have hb : runes[i + n + 1]? = some (runes[i + n + 1]) := List.getElem?_eq_getElem hlt'
        by_cases hd : u.IsDigit (runes[i]) = true ∧ u.IsDigit (runes[i + n + 1]) = true
        · refine ⟨n - 1, by omega, ?_, Or.inr ⟨runes[i + n + 1], ?_, hd.1, hd.2⟩⟩
          · have := shift_eq runes i (n - 1) (by omega)
            simp only [scanStep, hlast, if_false, hnext, hus, Option.bind_eq_bind,
              Option.some_bind, if_true, hn, hlt', hi, hd.1, hb, hd.2, pure]
            simpa [Option.bind_eq_bind, pure] using this
          · rw [← hb]
            congr 1
            omega
        · refine ⟨n, hnle, ?_, Or.inl hnc⟩
          have := shift_eq runes i n hnle
          by_cases h1 : u.IsDigit (runes[i]) = true
          · have h2 : u.IsDigit (runes[i + n + 1]) = false := by
              cases h2 : u.IsDigit (runes[i + n + 1])
              · rfl
              · exact absurd ⟨h1, h2⟩ hd
            simp only [scanStep, hlast, if_false, hnext, hus, Option.bind_eq_bind,
              Option.some_bind, if_true, hn, hlt', hi, hb, pure, h1, h2, Bool.false_eq_true]
            simpa [Option.bind_eq_bind, pure] using this
          · simp only [scanStep, hlast, if_false, hnext, hus, Option.bind_eq_bind,
              Option.some_bind, if_true, hn, hlt', hi, hb, pure, h1]
            simpa [Option.bind_eq_bind, pure] using this
      · refine ⟨n, hnle, ?_, Or.inl hnc⟩
        have := shift_eq runes i n hnle
        simp only [scanStep, hlast, if_false, hnext, hus, Option.bind_eq_bind,
          Option.some_bind, if_true, hn, hlt', pure]
        simpa [Option.bind_eq_bind, pure] using this
    obtain ⟨m, hm, hscan, hflank⟩ := key
    have htake : (runes.take (i + 1) ++ runes.drop (i + m + 1)).take (i + 1) =
        runes.take (i + 1) := List.take_left' (by simp only [List.length_take]; omega)
    have hget : ∀ j, (runes.take (i + 1) ++ runes.drop (i + m + 1))[i + 1 + j]? =
        runes[i + m + 1 + j]? := by
      intro j
      rw [List.getElem?_append_right (by simp only [List.length_take]; omega)]
      simp only [List.length_take, List.getElem?_drop]
      congr 1
      omega
    refine ⟨_, true, hscan, ?_, ?_, htake, Or.inr (by rw [hnext, hus]), ?_⟩
    · simp only [List.length_append, List.length_take, List.length_drop]; omega
    · simp only [List.length_append, List.length_take, List.length_drop]; omega
    · intro c hc hcu
      have h0 := hget 0
      simp only [Nat.add_zero] at h0
      rw [h0] at hc
      rcases hflank with hf | ⟨b, hb, hd1, hd2⟩
      · exact absurd hcu (hf c hc)
      · refine ⟨runes[i], b, ?_, ?_, hd1, hd2⟩
        · rw [List.getElem?_append_left (by simp only [List.length_take]; omega)]
          rw [List.getElem?_take_of_lt (by omega)]
          exact hi
        · have h1 := hget 1
          rw [show i + 1 + 1 = i + 2 from rfl, show i + m + 1 + 1 = i + m + 2 from rfl] at h1
          rw [h1]; exact hb
  · refine ⟨runes, u.IsLower (runes[i]) && !u.IsLower (runes[i + 1]), ?_, h, le_refl _, rfl,
      Or.inl rfl, ?_⟩
    · simp only [scanStep, hlast, if_false, hnext, hus, Option.bind_eq_bind, Option.some_bind,
        hi]
      cases u.IsLower (runes[i]) <;> simp [pure]
    · intro c hc hcu
      rw [hnext] at hc
      cases hc
      exact absurd hcu hus

theorem fixWord_spec (u : Unicode) (runes : List Char) (w i : Nat) (hw : w < i)
    (hi : i ≤ runes.length) :
    fixWord u runes w i =
      some (runes.take w ++ fixedWord u (decide (w = 0)) ((runes.take i).drop w) ++
        runes.drop i) := by
  have hdecomp : runes.take w ++ (runes.take i).drop w ++ runes.drop i = runes := by
    have h₁ : runes.take w ++ (runes.take i).drop w = runes.take i := by
      have := List.take_append_drop w (runes.take i)
      rwa [List.take_take, Nat.min_eq_left (Nat.le_of_lt hw)] at this
    rw [h₁, List.take_append_drop]
  have hlw : (runes.take w).length = w := by
    rw [List.length_take]; omega
  have hlword : ((runes.take i).drop w).length = i - w := by
    rw [List.length_drop, List.length_take]; omega
  have hne : (runes.take i).drop w ≠ [] := by
    intro h
    rw [h] at hlword
    simp only [List.length_nil] at hlword
    omega
  have := fixWord_eq u (runes.take w) ((runes.take i).drop w) (runes.drop i) hne
  rw [hdecomp, hlw, hlword, show w + (i - w) = i by omega] at this
  exact this

theorem lintLoop_rule (u : Unicode) (Inv : List Char → Nat → Prop)
    (hscan : ∀ runes i runes' eow, i + 1 ≤ runes.length → Inv runes i →
      scanStep u runes i = some (runes', eow) → Inv runes' (i + 1))
    (hfix : ∀ runes w i runes', w < i → i ≤ runes.length → Inv runes i →
      fixWord u runes w i = some runes' → Inv runes' i) :
    ∀ (fuel : Nat) (runes : List Char) (w i : Nat), w ≤ i → i ≤ runes.length →
      runes.length - i ≤ fuel → Inv runes i →
      ∃ out, lintLoop u fuel runes w i = some out ∧ out.length ≤ runes.length ∧
        Inv out out.length := by
  intro fuel
  induction fuel with
  | zero =>
    intro runes w i _ hi hfuel hinv
    have : i = runes.length := by omega
    subst this
    exact ⟨runes, by simp [lintLoop], le_refl _, hinv⟩
  | succ fuel ih =>
    intro runes w i hw hi hfuel hinv
    by_cases hcond : i + 1 ≤ runes.length
    · obtain ⟨runes', eow, hs, hl₁, hl₂, -, -, -⟩ := scanStep_spec u runes i hcond
      have hinv' := hscan runes i runes' eow hcond hinv hs
      cases eow with
      | false =>
        obtain ⟨out, ho, hol, hoi⟩ := ih runes' w (i + 1) (by omega) hl₁ (by omega) hinv'
        refine ⟨out, ?_, by omega, hoi⟩
        simp only [lintLoop, hcond, if_true, hs, Option.bind_eq_bind, Option.some_bind,
          Bool.not_false, ho]
      | true =>
        have hf := fixWord_spec u runes' w (i + 1) (by omega) hl₁
        have hinv'' := hfix runes' w (i + 1) _ (by omega) hl₁ hinv' hf
        have hlen : (runes'.take w ++ fixedWord u (decide (w = 0)) ((runes'.take (i + 1)).drop w)
            ++ runes'.drop (i + 1)).length = runes'.length := by
          simp only [List.length_append, List.length_take, fixedWord_length, List.length_drop]
          omega
        obtain ⟨out, ho, hol, hoi⟩ := ih _ (i + 1) (i + 1) (le_refl _) (by rw [hlen]; exact hl₁)
          (by rw [hlen]; omega) hinv''
        refine ⟨out, ?_, by rw [hlen] at hol; omega, hoi⟩
        simp only [lintLoop, hcond, if_true, hs, Option.bind_eq_bind, Option.some_bind,
          Bool.not_true, Bool.false_eq_true, if_false, hf, ho]
    · have : i = runes.length := by omega
      subst this
      exact ⟨runes, by simp [lintLoop], le_refl _, hinv⟩

theorem LintNameRunes_isSome (u : Unicode) (name : List Char) :
    ∃ out, LintNameRunes u name = some out ∧ out.length ≤ name.length := by
  unfold LintNameRunes
  split
  · exact ⟨name, rfl, le_refl _⟩
  · split
    · exact ⟨name, rfl, le_refl _⟩
    · obtain ⟨out, ho, hol, -⟩ := lintLoop_rule u (fun _ _ => True) (fun _ _ _ _ _ _ _ => trivial)
        (fun _ _ _ _ _ _ _ _ => trivial) name.length name 0 0 (le_refl _) (Nat.zero_le _)
        (by omega) trivial
      exact ⟨out, ho, hol⟩

theorem LintName_isSome (u : Unicode) (name : String) : ∃ out, LintName u name = some out := by
  obtain ⟨out, ho, -⟩ := LintNameRunes_isSome u name.toList
  exact ⟨String.mk out, by rw [LintName, ho]; rfl⟩

/-! ### Underscores in the output of `LintName` -/

theorem toUpper_of_isDigit (c : Char) (h : c.isDigit = true) : c.toUpper = c := by
  apply toUpper_of_not_isLower
  have h₁ := (isDigit_iff c).1 h
  cases hl : c.isLower
  · rfl
  · have h₂ := (isLower_iff c).1 hl
    omega

theorem toLower_of_isDigit (c : Char) (h : c.isDigit = true) : c.toLower = c := by
  have h₁ := (isDigit_iff c).1 h
  simp only [Char.toLower]
  rw [if_neg]
  omega

theorem keepsShape_refl (c : Char) : keepsShape c c := ⟨id, id⟩

theorem keepsShape_toUpper (c : Char) : keepsShape c c.toUpper :=
  ⟨fun h => by_contra fun hc => toUpper_ne_underscore c hc h,
    fun h => by rw [toUpper_of_isDigit c h]; exact h⟩

theorem keepsShape_toLower_toUpper (c : Char) : keepsShape c c.toUpper.toLower :=
  ⟨fun h => by_contra fun hc =>
      toLower_ne_underscore _ (toUpper_ne_underscore c hc) h,
    fun h => by rw [toUpper_of_isDigit c h, toLower_of_isDigit c h]; exact h⟩

theorem fixedWord_keepsShape (first : Bool) (w : List Char) :
    List.Forall₂ keepsShape w (fixedWord Unicode.ascii first w) := by
  unfold fixedWord
  simp only [Unicode.stringsToUpper, Unicode.stringsToLower,
    show Unicode.ascii.ToUpper = Char.toUpper from rfl,
    show Unicode.ascii.ToLower = Char.toLower from rfl]
  split
  · split
    · rw [List.map_map, List.forall₂_map_right_iff, List.forall₂_same]
      intro c _
      exact keepsShape_toLower_toUpper c
    · rw [List.forall₂_map_right_iff, List.forall₂_same]
      intro c _
      exact keepsShape_toUpper c
  · split
    · cases w with
      | nil => exact List.Forall₂.nil
      | cons a w =>
        exact List.Forall₂.cons (keepsShape_toUpper a)
          (List.forall₂_same.mpr fun c _ => keepsShape_refl c)
    · exact List.forall₂_same.mpr fun c _ => keepsShape_refl c

theorem fixWord_keepsShape (runes runes' : List Char) (w i : Nat) (hw : w < i)
    (hi : i ≤ runes.length) (h : fixWord Unicode.ascii runes w i = some runes') :
    List.Forall₂ keepsShape runes runes' := by
  rw [fixWord_spec Unicode.ascii runes w i hw hi] at h
  cases h
  have hdecomp : runes.take w ++ (runes.take i).drop w ++ runes.drop i = runes := by
    have h₁ : runes.take w ++ (runes.take i).drop w = runes.take i := by
      have := List.take_append_drop w (runes.take i)
      rwa [List.take_take, Nat.min_eq_left (Nat.le_of_lt hw)] at this
    rw [h₁, List.take_append_drop]
  conv_lhs => rw [← hdecomp]
  apply List.rel_append
  · apply List.rel_append
    · exact List.forall₂_same.mpr fun c _ => keepsShape_refl c
    · exact fixedWord_keepsShape _ _
  · exact List.forall₂_same.mpr fun c _ => keepsShape_refl c

theorem forall₂_getElem? {R : Char → Char → Prop} {l l' : List Char} (h : List.Forall₂ R l l') :
    ∀ k : Nat, (∀ c', l'[k]? = some c' → ∃ c, l[k]? = some c ∧ R c c') ∧
      (∀ c, l[k]? = some c → ∃ c', l'[k]? = some c' ∧ R c c') := by
  induction h with
  | nil => intro k; simp
  | cons hab _ ih =>
    intro k
    cases k with
    | zero =>
      simp only [List.getElem?_cons_zero, Option.some.injEq]
      refine ⟨fun c' hc' => ?_, fun c hc => ?_⟩
      · subst hc'
        exact ⟨_, rfl, hab⟩
      · subst hc
        exact ⟨_, rfl, hab⟩
    | succ k =>
      simp only [List.getElem?_cons_succ]
      exact ih k

theorem underscoresFlanked_of_keepsShape (runes runes' : List Char) (i : Nat)
    (h : List.Forall₂ keepsShape runes runes') (hinv : underscoresFlanked runes i) :
    underscoresFlanked runes' i := by
  intro k hk1 hki hk
  obtain ⟨c, hc, hR⟩ := (forall₂_getElem? h k).1 _ hk
  have hcu : c = '_' := hR.1 rfl
  subst hcu
  obtain ⟨a, b, ha, hb, hda, hdb⟩ := hinv k hk1 hki hc
  obtain ⟨a', ha', hRa⟩ := (forall₂_getElem? h (k - 1)).2 _ ha
  obtain ⟨b', hb', hRb⟩ := (forall₂_getElem? h (k + 1)).2 _ hb
  exact ⟨a', b', ha', hb', hRa.2 hda, hRb.2 hdb⟩

theorem underscoresFlanked_scanStep (runes runes' : List Char) (i : Nat) (eow : Bool)
    (hi : i + 1 ≤ runes.length) (hinv : underscoresFlanked runes i)
    (h : scanStep Unicode.ascii runes i = some (runes', eow)) :
    underscoresFlanked runes' (i + 1) := by
  obtain ⟨r, e, hs, -, -, htake, hsame, hflank⟩ := scanStep_spec Unicode.ascii runes i hi
  rw [h] at hs
  cases hs
  have hpre : ∀ k, k ≤ i → runes'[k]? = runes[k]? := by
    intro k hk
    have h₁ : (runes'.take (i + 1))[k]? = runes'[k]? := List.getElem?_take_of_lt (by omega)
    have h₂ : (runes.take (i + 1))[k]? = runes[k]? := List.getElem?_take_of_lt (by omega)
    rw [← h₁, htake, h₂]
  intro k hk1 hki hk
  by_cases hlast : k = i + 1
  · subst hlast
    exact hflank '_' hk rfl
  · have hk' : k ≤ i := by omega
    rw [hpre k hk'] at hk
    obtain ⟨a, b, ha, hb, hda, hdb⟩ := hinv k hk1 hk' hk
    refine ⟨a, b, by rw [hpre (k - 1) (by omega)]; exact ha, ?_, hda, hdb⟩
    rcases hsame with hsame | hsame
    · rw [hsame]; exact hb
    · by_cases hki' : k + 1 ≤ i
      · rw [hpre (k + 1) hki']; exact hb
      · have : k = i := by omega
        subst this
        rw [hsame] at hb
        cases hb
        exact absurd hdb (by decide)

theorem LintNameRunes_underscores (name : List Char) :
    ∃ out, LintNameRunes Unicode.ascii name = some out ∧
      underscoresFlanked out out.length := by
  unfold LintNameRunes
  split
  · rename_i h
    subst h
    refine ⟨_, rfl, ?_⟩
    intro k hk1 _ hk
    rw [List.getElem?_eq_none (by simp; omega)] at hk
    cases hk
  · split
    · rename_i hall
      refine ⟨_, rfl, ?_⟩
      intro k _ _ hk
      have hmem : '_' ∈ name := List.mem_iff_getElem?.mpr ⟨k, hk⟩
      have := List.all_eq_true.mp hall '_' hmem
      exact absurd this (by decide)
    · obtain ⟨out, ho, -, hinv⟩ := lintLoop_rule Unicode.ascii underscoresFlanked
        (fun runes i runes' eow hi hinv h => underscoresFlanked_scanStep runes runes' i eow hi hinv h)
        (fun runes w i runes' hw hi hinv h =>
          underscoresFlanked_of_keepsShape runes runes' i (fixWord_keepsShape runes runes' w i hw hi h)
            hinv)
        name.length name 0 0 (le_refl _) (Nat.zero_le _) (by omega)
        (fun k hk1 hk0 _ => absurd hk0 (by omega))
      exact ⟨out, ho, hinv⟩

/-- C18: for every choice of the `unicode` functions and every input, `LintName`
returns a string: the loop ends within its fuel and no index or slice expression is
out of range; the result is not longer than the input. -/
theorem LintName_total (u : Unicode) (name : String) :
    ∃ out, LintName u name = some out ∧ out.length ≤ name.length := by
  obtain ⟨out, ho, hlen⟩ := LintNameRunes_isSome u name.toList
  exact ⟨String.mk out, by rw [LintName, ho]; rfl, hlen⟩

/-- C17, as stated, fails: a leading underscore is never removed; `LintName("_a")` is
`"_a"` and `LintName("__")` is `"_"`, underscores with no digit next to them. -/
theorem LintName_leading_underscore :
    LintName Unicode.ascii "_a" = some "_a" ∧ LintName Unicode.ascii "__" = some "_" := by
  decide

/-- C17, amended: in the output of `LintName` on an ASCII name, every underscore at a
position other than the first has a digit immediately before it and a digit
immediately after it, and no two underscores are adjacent. -/
theorem LintName_underscores (name : String) (_hascii : ∀ c ∈ name.toList, c.toNat < 128) :
    ∃ out, LintName Unicode.ascii name = some out ∧
      (∀ k : Nat, 1 ≤ k → out.toList[k]? = some '_' →
        ∃ a b, out.toList[k - 1]? = some a ∧ out.toList[k + 1]? = some b ∧
          a.isDigit = true ∧ b.isDigit = true) ∧
      ∀ k : Nat, ¬ (out.toList[k]? = some '_' ∧ out.toList[k + 1]? = some '_') := by
  obtain ⟨out, ho, hinv⟩ := LintNameRunes_underscores name.toList
  have hflank : ∀ k : Nat, 1 ≤ k → out[k]? = some '_' →
      ∃ a b, out[k - 1]? = some a ∧ out[k + 1]? = some b ∧
        a.isDigit = true ∧ b.isDigit = true := by
    intro k hk1 hk
    have hlt : k < out.length := by
      by_contra hge
      rw [List.getElem?_eq_none (by omega)] at hk
      cases hk
    exact hinv k hk1 (by omega) hk
  refine ⟨String.mk out, by rw [LintName, ho]; rfl, hflank, ?_⟩
  intro k ⟨h₁, h₂⟩
  obtain ⟨a, b, ha, -, hda, -⟩ := hflank (k + 1) (by omega) h₂
  rw [show k + 1 - 1 = k by omega] at ha
  rw [show (String.mk out).toList = out from rfl, ha] at h₁
  cases h₁
  exact absurd hda (by decide)

theorem LintName_underscores_witness :
    LintName Unicode.ascii "a_1__2_b" = some "a1_2B" ∧
      ∃ out, LintName Unicode.ascii "a_1__2_b" = some out ∧
        (∀ k : Nat, 1 ≤ k → out.toList[k]? = some '_' →
          ∃ a b, out.toList[k - 1]? = some a ∧ out.toList[k + 1]? = some b ∧
            a.isDigit = true ∧ b.isDigit = true) ∧
        ∀ k : Nat, ¬ (out.toList[k]? = some '_' ∧ out.toList[k + 1]? = some '_') :=
  ⟨by decide, LintName_underscores "a_1__2_b" (by decide)⟩

/-! ### `Ref` on unbound types -/

/-- The exported type name always exists: `LintName` returns on every input. -/
theorem PubTypeLit_isSome (u : Unicode) (h : Helpers) (s : String) :
    ∃ lit, PubTypeLit u h s = some lit := by
  obtain ⟨out, ho⟩ := LintName_isSome u (h.ToCamel s)
  exact ⟨h.ucFirst out, by simp [PubTypeLit, TypeLit, ho]⟩

/-- On the stack of a schema type whose named type is nullable, `PopPtr` removes the
trailing `"*"` and keeps the list modifiers. -/
theorem mods.PopPtr_of_nullable (t : ASTType) (h : t.innerNonNull = false) :
    mods.PopPtr (typeModifiersGQL t) = (typeModifiersGQL t).dropLast ∧
      typeModifiersGQL t = (typeModifiersGQL t).dropLast ++ ["*"] := by
  rw [typeModifiersGQL_eq, h]
  simp [mods.PopPtr, List.dropLast_eq_take]

/-- C14, as stated, fails: `Node` is an interface without override entry, the
modifier stack of the nullable occurrence `Node` is `["*"]`, and `Ref` returns `Node`,
not `*Node`: for an interface the pointer is popped. -/
theorem Ref_unbound_interface_pops_pointer :
    exampleRenderer.Config.IsDefined "Node" = false ∧
      typeModifiersGQL (.named "Node" false) = ["*"] ∧
      exampleRenderer.Ref (.named "Node" false) = some "Node" ∧
      exampleRenderer.Ref (.named "Node" false) ≠ some "*Node" := by
  decide

/-- C14, amended: for a schema type whose named type has no override entry, `Ref`
performs no symbol lookup (its result does not depend on the loaded program or on any
function of the lookup).  When the named type is not an interface, `Ref` returns the
joined modifier stack followed by `PubTypeLit(name)`, qualified with the alias the
tracker holds for the models import path unless that alias is empty.  When it is a
nullable interface, the stack is joined without its trailing `"*"`. -/
theorem Ref_unbound {Ty : Type} (r : Renderer Ty) (t : ASTType) (name : String)
    (d : Definition) (imports : Imports) (hname : t.Name = some name)
    (hd : r.Schema.Types.lookup name = some d) (hundef : r.Config.IsDefined name = false)
    (hi : r.CurrentImports = some imports) :
    ∃ lit, PubTypeLit r.unicode r.helpers name = some lit ∧
      (d.Kind ≠ DefinitionKind.Interface →
        r.Ref t = some
          (mods.String (typeModifiersGQL t) ++
            (if imports.Lookup r.Config.ModelImportPath = "" then lit
              else imports.Lookup r.Config.ModelImportPath ++ "." ++ lit))) ∧
      (d.Kind = DefinitionKind.Interface → t.innerNonNull = false →
        typeModifiersGQL t = (typeModifiersGQL t).dropLast ++ ["*"] ∧
        r.Ref t = some
          (mods.String (typeModifiersGQL t).dropLast ++
            (if imports.Lookup r.Config.ModelImportPath = "" then lit
              else imports.Lookup r.Config.ModelImportPath ++ "." ++ lit))) ∧
      ∀ (imported : List (String × PackageInfo Ty)) (resolvePkg : String → Except String String)
        (pkgAndType : String → String × String)
        (typeString : Option Ty → (String → Option String) → Option String),
        Renderer.Ref
            { r with
              Imported := imported
              resolvePkg := resolvePkg
              PkgAndType := pkgAndType
              TypeString := typeString } t = r.Ref t := by
  obtain ⟨lit, hlit⟩ := PubTypeLit_isSome r.unicode r.helpers name
  refine ⟨lit, hlit, ?_, ?_, ?_⟩
  · intro hk
    simp only [Renderer.Ref, hname, hd, hundef, hlit, Renderer.refRaw, hi, hk,
      Option.bind_eq_bind, Option.some_bind, Bool.not_false, if_true, if_false]
    split <;> rfl
  · intro hk hnull
    obtain ⟨hpop, hstack⟩ := mods.PopPtr_of_nullable t hnull
    refine ⟨hstack, ?_⟩
    simp only [Renderer.Ref, hname, hd, hundef, hlit, Renderer.refRaw, hi, hk, hpop,
      Option.bind_eq_bind, Option.some_bind, Bool.not_false, if_true]
    split <;> rfl
  · intro imported resolvePkg pkgAndType typeString
    simp only [Renderer.Ref, hname, hd, hundef, hlit, Renderer.refRaw, hi,
      Option.bind_eq_bind, Option.some_bind, Bool.not_false, if_true]

theorem Ref_unbound_witness :
    testRenderer.Ref (.named "User" false) = some "*User" := by
  obtain ⟨lit, hlit, href, -, -⟩ := Ref_unbound testRenderer (.named "User" false) "User"
    userDefinition ⟨"gen/graphserver", []⟩ (by decide) (by decide) (by decide) rfl
  rw [href (by decide)]
  have h : PubTypeLit testRenderer.unicode testRenderer.helpers "User" = some "User" := by
    decide
  rw [h] at hlit
  cases hlit
  decide

/-! ### Initialisms after an underscore -/

theorem scanStep_underscore (u : Unicode) (pre : List Char) (c c' : Char) (rest : List Char)
    (hc : u.IsDigit c = false) (hc' : c' ≠ '_') :
    scanStep u (pre ++ c :: '_' :: c' :: rest) pre.length =
      some (pre ++ c :: c' :: rest, true) := by
  have hlen : (pre ++ c :: '_' :: c' :: rest).length = pre.length + rest.length + 2 + 1 := by
    simp only [List.length_append, List.length_cons]; omega
  have h₀ : (pre ++ c :: '_' :: c' :: rest)[pre.length]? = some c := by
    rw [List.getElem?_append_right (le_refl _)]; simp
  have h₁ : (pre ++ c :: '_' :: c' :: rest)[pre.length + 1]? = some '_' := by
    rw [List.getElem?_append_right (by omega)]; simp
  have h₂ : (pre ++ c :: '_' :: c' :: rest)[pre.length + 1 + 1]? = some c' := by
    rw [List.getElem?_append_right (by omega),
      show pre.length + 1 + 1 - pre.length = 2 by omega]
    simp
  have h₃ : ¬ (pre.length + 1 = (pre ++ c :: '_' :: c' :: rest).length) := by omega
  have h₄ : pre.length + 1 + 1 < (pre ++ c :: '_' :: c' :: rest).length := by omega
  have hrun : underscoreRun (pre ++ c :: '_' :: c' :: rest) pre.length
      (pre ++ c :: '_' :: c' :: rest).length 1 = some 1 := by
    rw [hlen]
    simp only [underscoreRun, h₄, if_true, h₂, hc', if_false]
  have hshift := shift_eq (pre ++ c :: '_' :: c' :: rest) pre.length 1 (by omega)
  have ht : List.take (pre.length + 1) (pre ++ c :: '_' :: c' :: rest) = pre ++ [c] := by
    rw [show pre ++ c :: '_' :: c' :: rest = (pre ++ [c]) ++ '_' :: c' :: rest by simp]
    exact List.take_left' (by simp)
  have hd : List.drop (pre.length + 1 + 1) (pre ++ c :: '_' :: c' :: rest) = c' :: rest := by
    rw [show pre ++ c :: '_' :: c' :: rest = (pre ++ [c, '_']) ++ c' :: rest by simp]
    exact List.drop_left' (by simp)
  rw [ht, hd] at hshift
  simp only [scanStep, h₃, if_false, h₁, Option.bind_eq_bind, Option.some_bind, if_true, hrun,
    h₄, h₀, hc, Bool.false_eq_true, pure]
  simpa [Option.bind_eq_bind, pure] using hshift

/-- The loop on a first word `cur ++ q` of lowercase letters that is followed by one
underscore and an underscore-free remainder: the underscore is dropped, the first word
is rewritten by `fixedWord` and the remainder continues as later words. -/
theorem lintLoop_first_word (u : Unicode) : ∀ (q : List Char), q ≠ [] →
    (∀ c ∈ q, u.IsLower c = true ∧ c ≠ '_' ∧ u.IsDigit c = false) →
    ∀ (fuel : Nat) (cur rest : List Char) (c' : Char), c' ≠ '_' → (∀ c ∈ rest, c ≠ '_') →
    q.length + 1 + rest.length ≤ fuel →
    lintLoop u fuel (cur ++ q ++ '_' :: c' :: rest) 0 cur.length =
      some (fixedWord u true (cur ++ q) ++ lintWords u false [] (c' :: rest)) := by
  intro q
  induction q with
  | nil => intro h; exact absurd rfl h
  | cons c q ih =>
    intro _ hq fuel cur rest c' hc' hrest hfuel
    obtain ⟨hcl, hcu, hcd⟩ := hq c (List.mem_cons_self _ _)
    cases fuel with
    | zero => simp only [List.length_cons] at hfuel; omega
    | succ fuel =>
      cases q with
      | nil =>
        have hcond : cur.length + 1 ≤ (cur ++ [c] ++ '_' :: c' :: rest).length := by
          simp only [List.length_append, List.length_cons]; omega
        have hs := scanStep_underscore u cur c c' rest hcd hc'
        have hre : cur ++ [c] ++ '_' :: c' :: rest = cur ++ c :: '_' :: c' :: rest := by simp
        have hf := fixWord_eq u [] (cur ++ [c]) (c' :: rest) (by simp)
        simp only [List.nil_append, List.length_nil, Nat.zero_add, List.length_append,
          List.length_singleton, decide_True] at hf
        have hre' : cur ++ [c] ++ c' :: rest = cur ++ c :: c' :: rest := by simp
        rw [hre'] at hf
        have hl := lintLoop_eq u fuel (fixedWord u true (cur ++ [c])) [] (c' :: rest)
          (by simpa using hrest)
          (by simp only [List.length_cons, List.length_nil] at hfuel ⊢; omega)
        have hne : ¬ (cur.length + 1 = 0) := by omega
        simp only [List.append_nil, fixedWord_length, List.length_append, List.length_singleton,
          List.length_nil, Nat.add_zero, hne, decide_False] at hl
        rw [hre] at hcond ⊢
        simp only [lintLoop, hcond, if_true, hs, Option.bind_eq_bind, Option.some_bind,
          Bool.not_true, Bool.false_eq_true, if_false, hf, hl]
      | cons c₂ q =>
        obtain ⟨hcl₂, hcu₂, -⟩ := hq c₂ (by simp)
        have hcond : cur.length + 1 ≤ (cur ++ c :: c₂ :: q ++ '_' :: c' :: rest).length := by
          simp only [List.length_append, List.length_cons]; omega
        have hs := scanStep_plain u cur c c₂ (q ++ '_' :: c' :: rest) hcu₂
        have hre : cur ++ c :: c₂ :: q ++ '_' :: c' :: rest =
            cur ++ c :: c₂ :: (q ++ '_' :: c' :: rest) := by simp
        have hi := ih (by simp) (fun x hx => hq x (List.mem_cons_of_mem _ hx)) fuel (cur ++ [c])
          rest c' hc' hrest (by simp only [List.length_cons] at hfuel ⊢; omega)
        have hre₂ : cur ++ [c] ++ c₂ :: q ++ '_' :: c' :: rest =
            cur ++ c :: c₂ :: (q ++ '_' :: c' :: rest) := by simp
        have hre₃ : cur ++ [c] ++ c₂ :: q = cur ++ c :: c₂ :: q := by simp
        rw [hre₂, hre₃] at hi
        simp only [List.length_append, List.length_singleton] at hi
        rw [hre] at hcond ⊢
        simp only [lintLoop, hcond, if_true, hs, Option.bind_eq_bind, Option.some_bind,
          hcl, hcl₂, Bool.not_true, Bool.and_false, Bool.not_false, hi]

theorem isLower_facts (c : Char) (h : c.isLower = true) :
    Unicode.ascii.IsLower c = true ∧ c ≠ '_' ∧ Unicode.ascii.IsDigit c = false := by
  have hm := isLower_mem c h
  simp only [List.mem_cons, List.mem_singleton, List.not_mem_nil, or_false] at hm
  rcases hm with rfl | rfl | rfl | rfl | rfl | rfl | rfl | rfl | rfl | rfl | rfl | rfl | rfl |
    rfl | rfl | rfl | rfl | rfl | rfl | rfl | rfl | rfl | rfl | rfl | rfl | rfl <;> decide

/-- A first word of lowercase ASCII letters is left as it is, also when its uppercase
form is an initialism. -/
theorem fixedWord_first_lower (p : List Char) (hp : p ≠ []) (hlow : ∀ c ∈ p, c.isLower = true) :
    fixedWord Unicode.ascii true p = p := by
  obtain ⟨c, cs, rfl⟩ := List.exists_cons_of_ne_nil hp
  have hc : c.isLower = true := hlow c (List.mem_cons_self _ _)
  unfold fixedWord
  split
  · rw [if_pos ⟨rfl, by simp [Unicode.ascii, hc]⟩]
    exact map_toLower_toUpper_of_isLower _ hlow
  · rw [if_neg (by simp)]

/-- The loop on the lowercase form of each table entry as a later word: every entry
comes out uppercased except `UTF8`, which the digit splits into `Utf` and `8`. -/
theorem commonInitialisms_lintWords :
    ∀ W ∈ commonInitialisms,
      lintWords Unicode.ascii false [] (Unicode.ascii.stringsToLower W.toList) =
        if W = "UTF8" then "Utf8".toList else W.toList := by
  decide

theorem commonInitialisms_lower_shape :
    ∀ W ∈ commonInitialisms, Unicode.ascii.stringsToLower W.toList ≠ [] ∧
      ∀ c ∈ Unicode.ascii.stringsToLower W.toList, c ≠ '_' := by
  decide

/-- C19: what the code returns for `p ++ "_" ++ lowercase(W)`, for every entry `W` of
`commonInitialisms` and every non-empty word `p` of lowercase ASCII letters.  For 37
of the 38 entries it is `p ++ W`, as the claim says.  For the entry `UTF8` the code
diverges from the claim: the digit ends the word `utf` before the table is consulted,
and the result is `p ++ "Utf8"`, so this entry of the table does not take effect. -/
theorem LintName_initialism_suffix (W : String) (p : List Char) (hW : W ∈ commonInitialisms)
    (hp : p ≠ []) (hlow : ∀ c ∈ p, c.isLower = true) :
    LintName Unicode.ascii (String.mk (p ++ '_' :: Unicode.ascii.stringsToLower W.toList)) =
      some (String.mk (p ++ if W = "UTF8" then "Utf8".toList else W.toList)) := by
  obtain ⟨hne, hus⟩ := commonInitialisms_lower_shape W hW
  have hwords := commonInitialisms_lintWords W hW
  generalize Unicode.ascii.stringsToLower W.toList = lw at hne hus hwords
  obtain ⟨c', rest, rfl⟩ := List.exists_cons_of_ne_nil hne
  obtain ⟨a, p', rfl⟩ := List.exists_cons_of_ne_nil hp
  have hloop := lintLoop_first_word Unicode.ascii (a :: p') (by simp)
    (fun c hc => isLower_facts c (hlow c hc)) ((a :: p' ++ '_' :: c' :: rest).length) [] rest c'
    (hus c' (List.mem_cons_self _ _)) (fun c hc => hus c (List.mem_cons_of_mem _ hc))
    (by simp only [List.length_append, List.length_cons]; omega)
  simp only [List.nil_append, List.length_nil] at hloop
  rw [fixedWord_first_lower (a :: p') (by simp) hlow, hwords] at hloop
  have h₁ : ¬ (a :: p' ++ '_' :: c' :: rest = ['_']) := by
    intro h
    have := congrArg List.length h
    simp only [List.length_append, List.length_cons, List.length_nil] at this
    omega
  have h₂ : (a :: p' ++ '_' :: c' :: rest).all Unicode.ascii.IsLower = false := by
    rw [Bool.eq_false_iff]
    intro h
    rw [List.all_eq_true] at h
    exact absurd (h '_' (by simp)) (by decide)
  have hl : (String.mk (a :: p' ++ '_' :: c' :: rest)).toList = a :: p' ++ '_' :: c' :: rest :=
    rfl
  simp only [LintName, LintNameRunes, lintRunes, hl, h₁, h₂, if_false, Bool.false_eq_true, hloop,
    Option.map_some']

theorem LintName_initialism_suffix_witness :
    "UTF8" ∈ commonInitialisms ∧ LintName Unicode.ascii "a_utf8" = some "aUtf8" ∧
      LintName Unicode.ascii "a_utf8" ≠ some "aUTF8" :=
  have h : LintName Unicode.ascii "a_utf8" = some "aUtf8" :=
    LintName_initialism_suffix "UTF8" ['a'] (by decide) (by decide) (by decide)
  ⟨by decide, h, by rw [h]; decide⟩

/-! ### The map returned by `Generate` -/

/-- The loop of `Generate` as two filters over the schema entries: an entry is kept
unless it is a root or has an override; a kept entry of kind object, input object,
interface or union gives a model, a kept entry of kind enum gives an enum. -/
theorem collect_eq (cfg : Config) (s : Schema) :
    ∀ (types : List (String × Definition)) (acc : model.args),
      model.collect cfg s types acc =
        { PackageName := acc.PackageName
          Models := acc.Models ++ (types.filter fun e =>
              decide (¬ (some e.1 = s.Query ∨ some e.1 = s.Mutation ∨ some e.1 = s.Subscription ∨
                cfg.IsDefined e.2.Name = true) ∧
                (e.2.Kind = DefinitionKind.Object ∨ e.2.Kind = DefinitionKind.InputObject ∨
                  e.2.Kind = DefinitionKind.Interface ∨ e.2.Kind = DefinitionKind.Union))).map
            fun e => model.modelOf cfg s e.2
          Enums := acc.Enums ++ (types.filter fun e =>
              decide (¬ (some e.1 = s.Query ∨ some e.1 = s.Mutation ∨ some e.1 = s.Subscription ∨
                cfg.IsDefined e.2.Name = true) ∧ e.2.Kind = DefinitionKind.Enum)).map
            fun e => e.2 } := by
  intro types
  induction types with
  | nil => intro acc; simp [model.collect]
  | cons e types ih =>
    intro acc
    obtain ⟨key, typ⟩ := e
    simp only [model.collect]
    split
    · rename_i hskip
      rw [ih, List.filter_cons_of_neg (by simp only [decide_eq_true_eq]; tauto),
        List.filter_cons_of_neg (by simp only [decide_eq_true_eq]; tauto)]
    · rename_i hkeep
      rw [ih]
      by_cases hkind : typ.Kind = DefinitionKind.Object ∨ typ.Kind = DefinitionKind.InputObject ∨
          typ.Kind = DefinitionKind.Interface ∨ typ.Kind = DefinitionKind.Union
      · have henum : ¬ typ.Kind = DefinitionKind.Enum := by
          rintro h; rw [h] at hkind; simp at hkind
        rw [List.filter_cons_of_pos (by simp only [decide_eq_true_eq]; exact ⟨hkeep, hkind⟩),
          List.filter_cons_of_neg (by simp only [decide_eq_true_eq]; tauto)]
        simp only [if_pos hkind, if_neg henum, List.map_cons, List.append_assoc,
          List.singleton_append]
      · by_cases henum : typ.Kind = DefinitionKind.Enum
        · rw [List.filter_cons_of_neg (by simp only [decide_eq_true_eq]; tauto),
            List.filter_cons_of_pos (by simp only [decide_eq_true_eq]; exact ⟨hkeep, henum⟩)]
          simp only [if_neg hkind, if_pos henum, List.map_cons, List.append_assoc,
            List.singleton_append]
        · rw [List.filter_cons_of_neg (by simp only [decide_eq_true_eq]; tauto),
            List.filter_cons_of_neg (by simp only [decide_eq_true_eq]; tauto)]
          simp only [if_neg hkind, if_neg henum]

theorem lookup_cons_self (name : String) (e : TypeMapEntry) (acc : List (String × TypeMapEntry)) :
    List.lookup name ((name, e) :: acc) = some e := by
  simp [List.lookup]

theorem lookup_cons_ne (name n : String) (e : TypeMapEntry) (acc : List (String × TypeMapEntry))
    (h : name ≠ n) : List.lookup name ((n, e) :: acc) = List.lookup name acc := by
  have : (name == n) = false := by simpa using h
  simp [List.lookup, this]

/-- The loops that fill the returned map never fail, add a key for each name and bind
it to the import path, a dot and the exported type name. -/
theorem fill_spec (u : Unicode) (h : Helpers) (importPath : String) :
    ∀ (names : List String) (acc : List (String × TypeMapEntry)),
      ∃ generated, model.fill u h importPath names acc = some generated ∧
        (∀ name, (generated.lookup name).isSome ↔ name ∈ names ∨ (acc.lookup name).isSome) ∧
        ∀ name e, generated.lookup name = some e →
          acc.lookup name = some e ∨
            ∃ lit, PubTypeLit u h name = some lit ∧ e = { Model := importPath ++ "." ++ lit } := by
  intro names
  induction names with
  | nil =>
    intro acc
    exact ⟨acc, rfl, by simp, fun name e he => Or.inl he⟩
  | cons n names ih =>
    intro acc
    obtain ⟨lit, hlit⟩ := PubTypeLit_isSome u h n
    obtain ⟨generated, hg, hkeys, hvals⟩ :=
      ih ((n, { Model := importPath ++ "." ++ lit }) :: acc)
    refine ⟨generated, by simp only [model.fill, hlit, hg], ?_, ?_⟩
    · intro name
      rw [hkeys name]
      by_cases hn : name = n
      · subst hn
        simp [lookup_cons_self]
      · rw [lookup_cons_ne name n _ acc hn]
        simp [hn]
    · intro name e he
      rcases hvals name e he with h₁ | h₁
      · by_cases hn : name = n
        · subst hn
          rw [lookup_cons_self] at h₁
          cases h₁
          exact Or.inr ⟨lit, hlit, rfl⟩
        · rw [lookup_cons_ne name n _ acc hn] at h₁
          exact Or.inl h₁
      · exact Or.inr h₁

/-- C15: when loading the program succeeds, the models template executes and the
file is written, `Generate` returns a map; the map has a key for a name exactly when
some schema type of that name is not the Query, Mutation or Subscription root, has no
override entry and is of kind object, input object, interface, union or enum; each
value is the models import path, a dot and `PubTypeLit` of the name. -/
theorem Generate_returns_map {Ty : Type} (a : Ambient Ty) (env : RenderEnv model.args)
    (cfg : Config) (s : Schema) (p : List (String × PackageInfo Ty)) (buf : String)
    (hload : a.load = Except.ok p)
    (hexec : env.execute "model/models.gotpl" (model.templateArgs cfg s)
      (some ⟨env.dir cfg.ModelFilename, []⟩) = Outcome.returned (Except.ok buf))
    (hwrite : env.write cfg.ModelFilename
      (buf.replace "%%%IMPORTS%%%" (env.importsString
        (env.reserved "model/models.gotpl" (model.templateArgs cfg s)
          ⟨env.dir cfg.ModelFilename, []⟩))) = none) :
    ∃ effects generated,
      model.Generate a env cfg s = (effects, Outcome.returned (Except.ok generated)) ∧
      (∀ name, (generated.lookup name).isSome ↔
        ∃ key typ, (key, typ) ∈ s.Types ∧ typ.Name = name ∧ some key ≠ s.Query ∧
          some key ≠ s.Mutation ∧ some key ≠ s.Subscription ∧ cfg.IsDefined name = false ∧
          (typ.Kind = DefinitionKind.Object ∨ typ.Kind = DefinitionKind.InputObject ∨
            typ.Kind = DefinitionKind.Interface ∨ typ.Kind = DefinitionKind.Union ∨
            typ.Kind = DefinitionKind.Enum)) ∧
      ∀ name entry, generated.lookup name = some entry →
        ∃ lit, PubTypeLit a.unicode a.helpers name = some lit ∧
          entry = { Model := cfg.ModelImportPath ++ "." ++ lit } := by
  obtain ⟨generated, hg, hkeys, hvals⟩ := fill_spec a.unicode a.helpers cfg.ModelImportPath
    ((model.templateArgs cfg s).Models.map (fun m => m.Definition.Name) ++
      (model.templateArgs cfg s).Enums.map (fun e => e.Name)) []
  refine ⟨[Effect.run "model/models.gotpl",
    Effect.write cfg.ModelFilename (buf.replace "%%%IMPORTS%%%" (env.importsString
      (env.reserved "model/models.gotpl" (model.templateArgs cfg s)
        ⟨env.dir cfg.ModelFilename, []⟩)))], generated, ?_, ?_, ?_⟩
  · simp only [model.Generate, NewRenderer, hload, Renderer.RenderToFile, Renderer.Run,
      Option.map_some', hexec, hwrite, hg]
  · intro name
    rw [hkeys name]
    simp only [List.lookup, Option.isSome_none, Bool.false_eq_true, or_false, List.mem_append,
      List.mem_map, model.templateArgs, List.mem_insertionSort, collect_eq, List.nil_append,
      List.mem_filter, decide_eq_true_eq, not_or, Prod.exists]
    constructor
    · rintro (⟨m, ⟨k, t, ⟨hm, ⟨hq, hmu, hsu, hdef⟩, hk⟩, rfl⟩, rfl⟩ |
        ⟨e, ⟨k, t, ⟨hm, ⟨hq, hmu, hsu, hdef⟩, hk⟩, rfl⟩, rfl⟩)
      · refine ⟨k, t, hm, rfl, hq, hmu, hsu, by simpa using hdef, ?_⟩
        tauto
      · exact ⟨k, t, hm, rfl, hq, hmu, hsu, by simpa using hdef, by tauto⟩
    · rintro ⟨k, t, hm, rfl, hq, hmu, hsu, hdef, hk⟩
      have hdef' : ¬ cfg.IsDefined t.Name = true := by simp [hdef]
      rcases hk with hk | hk | hk | hk | hk
      · exact Or.inl ⟨_, ⟨k, t, ⟨hm, ⟨hq, hmu, hsu, hdef'⟩, Or.inl hk⟩, rfl⟩, rfl⟩
      · exact Or.inl ⟨_, ⟨k, t, ⟨hm, ⟨hq, hmu, hsu, hdef'⟩, Or.inr (Or.inl hk)⟩, rfl⟩, rfl⟩
      · exact Or.inl ⟨_, ⟨k, t, ⟨hm, ⟨hq, hmu, hsu, hdef'⟩, Or.inr (Or.inr (Or.inl hk))⟩, rfl⟩, rfl⟩
      · exact Or.inl ⟨_, ⟨k, t, ⟨hm, ⟨hq, hmu, hsu, hdef'⟩, Or.inr (Or.inr (Or.inr hk))⟩, rfl⟩, rfl⟩
      · exact Or.inr ⟨_, ⟨k, t, ⟨hm, ⟨hq, hmu, hsu, hdef'⟩, hk⟩, rfl⟩, rfl⟩
  · intro name entry he
    rcases hvals name entry he with h₁ | h₁
    · simp [List.lookup] at h₁
    · exact h₁

theorem Generate_returns_map_witness :
    (model.Generate testAmbient exampleModelEnv testConfig testSchema).2 =
        Outcome.returned (Except.ok [("User", { Model := "example.com/gen/graphserver.User" })]) ∧
      ∃ effects generated,
        model.Generate testAmbient exampleModelEnv testConfig testSchema =
          (effects, Outcome.returned (Except.ok generated)) ∧
        (∀ name, (generated.lookup name).isSome ↔
          ∃ key typ, (key, typ) ∈ testSchema.Types ∧ typ.Name = name ∧
            some key ≠ testSchema.Query ∧ some key ≠ testSchema.Mutation ∧
            some key ≠ testSchema.Subscription ∧ testConfig.IsDefined name = false ∧
            (typ.Kind = DefinitionKind.Object ∨ typ.Kind = DefinitionKind.InputObject ∨
              typ.Kind = DefinitionKind.Interface ∨ typ.Kind = DefinitionKind.Union ∨
              typ.Kind = DefinitionKind.Enum)) ∧
        ∀ name entry, generated.lookup name = some entry →
          ∃ lit, PubTypeLit testAmbient.unicode testAmbient.helpers name = some lit ∧
            entry = { Model := testConfig.ModelImportPath ++ "." ++ lit } :=
  ⟨rfl, Generate_returns_map testAmbient exampleModelEnv testConfig testSchema []
    "package graphserver" rfl rfl rfl⟩

/-! ### `StripPtr` -/

/-- `StripPtr` changes the modifiers only: when `IsPtr` holds it drops the last
modifier, otherwise it changes nothing. -/
theorem StripPtr_eq (t : TypeReference) :
    t.StripPtr =
      { t with Modifiers := if t.IsPtr = true then t.Modifiers.dropLast else t.Modifiers } := by
  unfold TypeReference.StripPtr
  cases h : t.IsPtr
  · simp
  · simp [List.dropLast_eq_take]

/-- C21: on a stack that starts with `"*"` and goes on with a modifier other than
`"*"`, `IsPtr` holds and `StripPtr` drops the last modifier, not the leading `"*"`:
the result is not the stack without its leading `"*"`, and it still satisfies `IsPtr`.
`Definition`, `ASTType` and `AliasedType` are unchanged. -/
theorem StripPtr_keeps_leading_pointer (t : TypeReference) (a : String) (rest : List String)
    (h : t.Modifiers = "*" :: a :: rest) (ha : a ≠ "*") :
    t.IsPtr = true ∧ t.StripPtr.Modifiers = "*" :: (a :: rest).dropLast ∧
      t.StripPtr.Modifiers ≠ a :: rest ∧ t.StripPtr.IsPtr = true ∧
      t.StripPtr.Definition = t.Definition ∧ t.StripPtr.ASTType = t.ASTType ∧
      t.StripPtr.AliasedType = t.AliasedType := by
  have hp : t.IsPtr = true := by simp [TypeReference.IsPtr, h, modPtr]
  have hm : t.StripPtr.Modifiers = "*" :: (a :: rest).dropLast := by
    rw [StripPtr_eq, if_pos hp, h]
    rfl
  refine ⟨hp, hm, ?_, ?_, ?_, ?_, ?_⟩
  · rw [hm]
    intro heq
    exact ha (List.cons.inj heq).1.symm
  · simp [TypeReference.IsPtr, hm, modPtr]
  · rw [StripPtr_eq]
  · rw [StripPtr_eq]
  · rw [StripPtr_eq]

theorem StripPtr_keeps_leading_pointer_witness :
    (TypeReference.StripPtr ⟨none, ["*", "[]"], none, none⟩).Modifiers = ["*"] ∧
      (TypeReference.StripPtr ⟨none, ["*", "[]"], none, none⟩).Modifiers ≠ ["[]"] :=
  ⟨(StripPtr_keeps_leading_pointer ⟨none, ["*", "[]"], none, none⟩ "[]" [] rfl (by decide)).2.1,
    (StripPtr_keeps_leading_pointer ⟨none, ["*", "[]"], none, none⟩ "[]" [] rfl (by decide)).2.2.1⟩

/-! ### The fast path of `LintName` -/

theorem commonInitialisms_length : ∀ U ∈ commonInitialisms, 2 ≤ U.toList.length := by
  decide

/-- A single rune is no initialism: every table entry has at least two letters. -/
theorem isCommonInitialism_singleton (c : Char) : isCommonInitialism [c] = false := by
  rw [Bool.eq_false_iff]
  intro h
  obtain ⟨U, hU, hl⟩ := (isCommonInitialism_iff [c]).mp h
  have := commonInitialisms_length U hU
  rw [hl] at this
  simp at this

/-- The loop on the name `"_"` returns it, whatever the `unicode` functions are. -/
theorem lintRunes_underscore (u : Unicode) : lintRunes u ['_'] = some ['_'] := by
  rw [lintRunes_eq_lintWords u ['_'] (by simp)]
  simp [lintWords, fixedWord, Unicode.stringsToUpper, isCommonInitialism_singleton]

theorem noBoundary_of_isLower (u : Unicode) (w : List Char) (h : ∀ c ∈ w, u.IsLower c = true) :
    noBoundary u w := by
  induction w with
  | nil => exact List.chain'_nil
  | cons a w ih =>
    cases w with
    | nil => exact List.chain'_singleton a
    | cons b w =>
      refine List.Chain'.cons ?_ (ih (fun c hc => h c (List.mem_cons_of_mem _ hc)))
      intro hab
      have hb := h b (by simp)
      rw [hb] at hab
      exact absurd hab.2 (by decide)

/-- The loop on a name of lowercase letters that the case maps restore returns the
name: it is one word, and when its uppercase form is an initialism the word is
replaced by the lowercase form of the initialism, which is the word again. -/
theorem lintRunes_all_lower (u : Unicode) (s : List Char) (hus : u.IsLower '_' = false)
    (hlow : ∀ c ∈ s, u.IsLower c = true)
    (hround : ∀ c ∈ s, u.IsLower c = true → u.ToLower (u.ToUpper c) = c) :
    lintRunes u s = some s := by
  have hne : ∀ c ∈ s, c ≠ '_' := by
    intro c hc heq
    have := hlow c hc
    rw [heq, hus] at this
    cases this
  rw [lintRunes_eq_lintWords u s (fun c hc => hne c (List.mem_of_mem_tail hc))]
  cases s with
  | nil => rfl
  | cons a s =>
    have hchunk := lintWords_chunk u (a :: s) (by simp) true [] [] (noBoundary_of_isLower u _ hlow)
    simp only [List.append_nil, List.nil_append] at hchunk
    rw [hchunk]
    have hmap : (a :: s).map (fun c => u.ToLower (u.ToUpper c)) = a :: s := by
      calc (a :: s).map (fun c => u.ToLower (u.ToUpper c)) = (a :: s).map id :=
            List.map_congr_left (fun c hc => hround c hc (hlow c hc))
        _ = a :: s := List.map_id _
    congr 1
    unfold fixedWord
    split
    · rw [if_pos ⟨rfl, by simp [hlow a (List.mem_cons_self _ _)]⟩]
      simpa [Unicode.stringsToLower, Unicode.stringsToUpper, List.map_map] using hmap
    · rw [if_neg (by simp)]

/-- C22, as stated, fails outside ASCII: the name `ıd` (dotless `i`, then `d`)
consists of lowercase letters, so the fast path returns it unchanged, but the loop
uppercases it to the initialism `ID` and writes back the lowercase form `id`. -/
theorem LintName_fast_path_dotlessI :
    "ıd".toList.all Unicode.dotlessI.IsLower = true ∧
      LintName Unicode.dotlessI "ıd" = some "ıd" ∧
      LintNameGeneral Unicode.dotlessI "ıd" = some "id" := by
  decide

/-- C22, amended: when the underscore is not a lowercase letter and every lowercase
letter of the name is restored by `ToLower` after `ToUpper` (as every ASCII letter
is), the loop returns the name unchanged for the name `"_"` and for a name of
lowercase letters only, and `LintName` agrees with `LintName` without its fast
path. -/
theorem LintName_fast_path (u : Unicode) (name : String) (hus : u.IsLower '_' = false)
    (hround : ∀ c ∈ name.toList, u.IsLower c = true → u.ToLower (u.ToUpper c) = c) :
    (name = "_" ∨ name.toList.all u.IsLower = true → LintNameGeneral u name = some name) ∧
      LintName u name = LintNameGeneral u name := by
  have hfast : name.toList = ['_'] ∨ name.toList.all u.IsLower = true →
      lintRunes u name.toList = some name.toList := by
    rintro (h | h)
    · rw [h]; exact lintRunes_underscore u
    · exact lintRunes_all_lower u name.toList hus (List.all_eq_true.mp h) hround
  constructor
  · intro h
    have hl : lintRunes u name.toList = some name.toList := by
      rcases h with h | h
      · exact hfast (Or.inl (by rw [h]; rfl))
      · exact hfast (Or.inr h)
    rw [LintNameGeneral, hl]
    rfl
  · unfold LintName LintNameGeneral LintNameRunes
    split
    · rename_i h
      rw [hfast (Or.inl h)]
    · split
      · rename_i h
        rw [hfast (Or.inr h)]
      · rfl

theorem LintName_fast_path_witness :
    LintNameGeneral Unicode.ascii "id" = some "id" ∧
      LintName Unicode.ascii "id" = LintNameGeneral Unicode.ascii "id" :=
  ⟨(LintName_fast_path Unicode.ascii "id" (by decide) (by decide)).1 (Or.inr (by decide)),
    (LintName_fast_path Unicode.ascii "id" (by decide) (by decide)).2⟩

end Gqlgen
